import Mathlib

/-!
Verification of the dependency-visualizer core (dgvis): graph store and
analysis algorithms (cycle detection, topological sort, BFS depth,
transitive reachability, strongly connected components, summary stats).

The embedding models Python dicts as insertion-ordered association lists,
Python sets as duplicate-free lists, and the iterative while-loops of the
analyzers as fuel-indexed recursions in an `Except Err` monad, where
`Err.notFound` models `KeyError`, `Err.cycleError` models the `ValueError`
raised by `topological_sort`, and `Err.fuel` marks fuel exhaustion (proved
unreachable on well-formed graphs).
-/

set_option maxHeartbeats 1000000

namespace DGVis

/-! ### Association lists (Python dict model) -/

/-- Insertion-ordered association list with string keys: the model of a
Python `dict[str, α]`. -/
abbrev AList (α : Type) := List (String × α)

/-- Dict lookup (`d[k]` / `k in d`): first binding wins; keys are unique
in every map the code builds. -/
def getA {α : Type} : AList α → String → Option α
  | [], _ => none
  | (k, v) :: rest, key => if k = key then some v else getA rest key

/-- Dict assignment `d[k] = v`: overwrite in place if present (position
preserved), else append at the end (Python insertion order). -/
def setA {α : Type} : AList α → String → α → AList α
  | [], key, v => [(key, v)]
  | (k, w) :: rest, key, v => if k = key then (k, v) :: rest else (k, w) :: setA rest key v

/-- The key list, in insertion order. -/
def keysA {α : Type} (l : AList α) : List String := l.map Prod.fst

/-- `{n: v for n in names}` - constant-initialized dict. -/
def initMap {α : Type} (names : List String) (v : α) : AList α := names.map (fun n => (n, v))

/-- Python `set.add`: append if absent (sets modelled as duplicate-free
lists; membership is all the analyses observe). -/
def addS (s : List String) (x : String) : List String := if x ∈ s then s else s ++ [x]

/-- Python `dict.update`: fold assignments of the new bindings, in order. -/
def updA {α : Type} (d : AList α) (new : AList α) : AList α :=
  new.foldl (fun acc kv => setA acc kv.1 kv.2) d

/-! ### Graph store (`dgvis/graph.py`) -/

/-- `Node` dataclass: name, optional version, open metadata mapping. -/
structure Node where
  name : String
  version : Option String
  metadata : AList String
deriving DecidableEq

/-- `Graph`: `_adj : dict[str, set[str]]` and `_nodes : dict[str, Node]`. -/
structure Graph where
  adj : AList (List String)
  nodes : AList Node
deriving DecidableEq

def Graph.empty : Graph := ⟨[], []⟩

/-- `node_names()`: keys of `_nodes` in insertion order. -/
def Graph.node_names (g : Graph) : List String := keysA g.nodes

/-- `node_count()`. -/
def Graph.node_count (g : Graph) : Nat := g.nodes.length

/-- `edge_count()`: sum of adjacency-set sizes. -/
def Graph.edge_count (g : Graph) : Nat := (g.adj.map (fun p => p.2.length)).sum

/-- `has_node()`. -/
def Graph.has_node (g : Graph) (name : String) : Bool := (getA g.nodes name).isSome

/-- `neighbors()`: `none` models the `KeyError` raised when absent. -/
def Graph.neighbors (g : Graph) (name : String) : Option (List String) := getA g.adj name

/-- `add_node(name, version=None, **meta)`: insert fresh node, or merge
version/metadata into the existing one (edges untouched). -/
def Graph.add_node (g : Graph) (name : String) (version : Option String)
    (meta : AList String) : Graph :=
  match getA g.nodes name with
  | none =>
      { adj := g.adj ++ [(name, [])], nodes := g.nodes ++ [(name, ⟨name, version, meta⟩)] }
  | some node =>
      let node' : Node :=
        { node with
            version := (match version with | none => node.version | some v => some v),
            metadata := updA node.metadata meta }
      { g with nodes := setA g.nodes name node' }

/-- `add_edge(src, dst)`: auto-create both endpoints, then add `dst` to
`src`'s adjacency set. -/
def Graph.add_edge (g : Graph) (src dst : String) : Graph :=
  let g1 := (g.add_node src none []).add_node dst none []
  { g1 with adj := setA g1.adj src (addS ((getA g1.adj src).getD []) dst) }

/-- `roots()`: nodes absent from the union of all adjacency sets. -/
def Graph.roots (g : Graph) : List String :=
  g.node_names.filter (fun n => !(g.adj.any (fun p => decide (n ∈ p.2))))

/-- `build_graph`: insert every key as a node and an edge to each listed
dependency. -/
def build_graph (deps : List (String × List String)) : Graph :=
  deps.foldl
    (fun g p => p.2.foldl (fun g2 c => g2.add_edge p.1 c) (g.add_node p.1 none []))
    Graph.empty

/-- Well-formedness: `_adj` and `_nodes` share the same (duplicate-free)
key list, every edge destination is a node, and adjacency lists are
duplicate-free (they model sets). Every graph built through the API
satisfies this. -/
def WF (g : Graph) : Prop :=
  keysA g.adj = keysA g.nodes ∧ (keysA g.nodes).Nodup ∧
  (∀ p ∈ g.adj, ∀ d ∈ p.2, d ∈ keysA g.nodes) ∧ (∀ p ∈ g.adj, p.2.Nodup)

instance (g : Graph) : Decidable (WF g) := by
  unfold WF; infer_instance

/-! ### Errors and graph-size measures -/

/-- Error conditions: `notFound` = `KeyError`, `cycleError` = the
`ValueError` of `topological_sort`, `fuel` = fuel exhaustion of the
fuel-indexed loop models (unreachable on well-formed graphs). -/
inductive Err where
  | notFound
  | cycleError
  | fuel
deriving DecidableEq

/-- Largest adjacency-list size. -/
def maxAdj (g : Graph) : Nat := (g.adj.map (fun p => p.2.length)).foldr max 0

/-- Total of adjacency-list sizes (equals `edge_count`). -/
def sumAdj (g : Graph) : Nat := (g.adj.map (fun p => p.2.length)).sum

/-- All edge destinations, concatenated. -/
def dstsAll (g : Graph) : List String := (g.adj.map (fun p => p.2)).flatten

/-- The edge relation of the graph: `v` is in the adjacency set of `u`. -/
def Edge (g : Graph) (u v : String) : Prop := ∃ l, getA g.adj u = some l ∧ v ∈ l

/-- Acyclicity: no node reaches itself by one or more edges. -/
def Acyclic (g : Graph) : Prop := ∀ n, ¬ Relation.TransGen (Edge g) n n

/-- `c` lies on a common cycle: some closed walk (consecutive edges,
first = last, at least one edge) visits every member of `c`. -/
def CommonCycle (g : Graph) (c : List String) : Prop :=
  ∃ l : List String, 2 ≤ l.length ∧ List.Chain' (Edge g) l ∧
    l.head? = l.getLast? ∧ ∀ x ∈ c, x ∈ l

/-- The adjacency list of `u` (empty when `u` is absent): the neighbor
multiset the analyses iterate over. -/
def outList (g : Graph) (u : String) : List String := (getA g.adj u).getD []

/-- Number of edges into `v` from the sources listed in `us` (with
multiplicity). -/
def indegFrom (g : Graph) (us : List String) (v : String) : Nat :=
  (us.map (fun u => (outList g u).count v)).sum

/-- Sum of the positive parts of an integer-valued map: the termination
measure of Kahn's loop. -/
def sumPos (m : AList Int) : Nat := (m.map (fun kv => kv.2.toNat)).sum

/-- Number of WHITE entries of a color map: the primary termination
measure of the DFS loops. -/
def wcnt (color : AList Nat) : Nat :=
  (color.filter (fun kv => decide (kv.2 = 0))).length

/-- Sum of the remaining neighbor lists of a frame stack. -/
def sumRem (stack : List (String × List String)) : Nat :=
  (stack.map (fun f => f.2.length)).sum

/-- The consumed-neighbor condition of the DFS frame stack: each frame
holds a suffix of its node's adjacency list, and every already-consumed
neighbor is either finished (BLACK) or sits in a frame above.  `above`
accumulates the nodes of the frames nearer the top. -/
def framesOK (g : Graph) (color : AList Nat) :
    List (String × List String) → List String → Prop
  | [], _ => True
  | (u, rem) :: rest, above =>
      (∃ cons, getA g.adj u = some (cons ++ rem) ∧
        ∀ v ∈ cons, getA color v = some 2 ∨ v ∈ above) ∧
      framesOK g color rest (above ++ [u])

/-- Finished-node closure: every neighbor of a BLACK node is BLACK with
a strictly smaller rank — a reverse-topological certificate. -/
def BlackClosed (g : Graph) (color : AList Nat) (rank : String → Nat) : Prop :=
  ∀ u, getA color u = some 2 → ∀ v ∈ outList g u,
    getA color v = some 2 ∧ rank v < rank u

/-- The component stack of iterative Tarjan consists of one segment per
call-stack frame: each frame node sits on the component stack beneath
the segment its descendants pushed. -/
def Interleaved : List String → List String → Prop
  | [], _ => True
  | u :: us, s => ∃ seg s', s = seg ++ u :: s' ∧ Interleaved us s'

/-- Total value view of a numeric association list (used only at keys
known to be present). -/
def valOf (m : AList Nat) (x : String) : Nat := (getA m x).getD 0

/-- Strict interleaving with reachability and lowlink bounds: the
component stack splits into one segment per call-stack frame, each
segment reachable from its frame node and with lowlinks bounded below
by the frame node's lowlink; nothing remains below the bottom frame. -/
def SegOK (g : Graph) (low : AList Nat) : List String → List String → Prop
  | [], s => s = []
  | u :: us, s => ∃ seg s', s = seg ++ u :: s' ∧
      (∀ x ∈ seg, Relation.ReflTransGen (Edge g) u x) ∧
      (∀ x ∈ seg, valOf low u ≤ valOf low x) ∧
      SegOK g low us s'

/-- Every neighbor already consumed by a frame's scan is indexed, and is
either in a closed component, recorded in the frame's lowlink bound, or

is the frame directly above (its currently open descended child). -/
def FrameScanned (g : Graph) (idx low : AList Nat) (comps : List (List String))
    (cstack : List (String × List String)) : Prop :=
  ∀ pre fx post, cstack = pre ++ fx :: post →
    ∃ cons, getA g.adj fx.1 = some (cons ++ fx.2) ∧ ∀ b ∈ cons,
      b ∈ keysA idx ∧ (b ∈ comps.flatten ∨ valOf low fx.1 ≤ valOf idx b ∨
        (∃ fr, pre.getLast? = some fr ∧ b = fr.1))

/-- A node whose frame has been merged away has all its neighbors
indexed, each in a closed component or bounded by its frozen lowlink. -/
def FinishedScanned (g : Graph) (idx low : AList Nat) (comps : List (List String))
    (sstack : List String) (fr : List String) : Prop :=
  ∀ a ∈ sstack, a ∉ fr → ∀ b ∈ outList g a,
    b ∈ keysA idx ∧ (b ∈ comps.flatten ∨ valOf low a ≤ valOf idx b)

/-- Every closed component is nonempty and strongly connected. -/
def CompsOK (g : Graph) (comps : List (List String)) : Prop :=
  ∀ c ∈ comps, c ≠ [] ∧ (∀ x ∈ c, ∀ y ∈ c, Relation.ReflTransGen (Edge g) x y)

/-- Edges out of a closed component stay inside it or lead to an
earlier-closed component (reverse-topological pop order). -/
def CompsClosed (g : Graph) (comps : List (List String)) : Prop :=
  ∀ cpre c csuf, comps = cpre ++ c :: csuf → ∀ a ∈ c, ∀ b, Edge g a b →
    b ∈ c ∨ b ∈ cpre.flatten


/-! ### Transitive dependencies (`transitive_deps`) -/

/-- Fuel bound for the `transitive_deps` loop. -/
def transFuel (g : Graph) : Nat := (maxAdj g + 1) * (sumAdj g + 2) + maxAdj g + 2

/-- The `while stack:` loop of `transitive_deps`. The list head is the
Python stack top (`stack.pop()` pops from the end); `extend` of the
set-difference pushes the filtered neighbor list. -/
def transLoop (g : Graph) : Nat → List String → List String → Except Err (List String)
  | 0, _, _ => .error .fuel
  | _+1, [], visited => .ok visited
  | fuel+1, cur :: rest, visited =>
    if cur ∈ visited then transLoop g fuel rest visited
    else
      match g.neighbors cur with
      | none => .error .notFound
      | some ns =>
        transLoop g fuel
          ((ns.filter (fun x => decide (x ∉ visited ++ [cur]))).reverse ++ rest)
          (visited ++ [cur])

/-- `transitive_deps(graph, node)`: KeyError when `node` is absent, else
the visited set of the stack-based reachability loop (returned as a
duplicate-free list; only membership is meaningful). -/
def transitive_deps (g : Graph) (node : String) : Except Err (List String) :=
  if g.has_node node then
    match g.neighbors node with
    | none => .error .notFound
    | some ns => transLoop g (transFuel g) ns.reverse []
  else .error .notFound

/-! ### BFS depth (`compute_depth`) -/

/-- Fuel bound for the BFS loop. -/
def bfsFuel (g : Graph) : Nat := g.nodes.length + sumAdj g + 2

/-- The `for dep in graph.neighbors(node)` body: assign fresh neighbors
depth `depth[node] + 1` and queue them. -/
def bfsFold (node : String) : List String → AList Nat → List String →
    Except Err (AList Nat × List String)
  | [], depth, qadd => .ok (depth, qadd)
  | dep :: rest, depth, qadd =>
    if (getA depth dep).isSome then bfsFold node rest depth qadd
    else
      match getA depth node with
      | none => .error .notFound
      | some dn => bfsFold node rest (setA depth dep (dn + 1)) (qadd ++ [dep])

/-- The `while queue:` BFS loop of `compute_depth`. -/
def bfsLoop (g : Graph) : Nat → List String → AList Nat → Except Err (AList Nat)
  | 0, _, _ => .error .fuel
  | _+1, [], depth => .ok depth
  | fuel+1, node :: qrest, depth =>
    match g.neighbors node with
    | none => .error .notFound
    | some ns =>
      match bfsFold node ns depth [] with
      | .error e => .error e
      | .ok (depth', qadd) => bfsLoop g fuel (qrest ++ qadd) depth'

/-- Run BFS from an explicit root: NotFound check, then the loop seeded
with `{root: 0}`. -/
def depthRun (g : Graph) (r : String) : Except Err (AList Nat) :=
  if g.has_node r then bfsLoop g (bfsFuel g) [r] [(r, 0)] else .error .notFound

/-- `compute_depth(graph, root=None)`: default root is the first root
node (empty result if there is none). -/
def compute_depth (g : Graph) (root : Option String) : Except Err (AList Nat) :=
  match root with
  | some r => depthRun g r
  | none =>
    match g.roots with
    | [] => .ok []
    | r :: _ => depthRun g r

/-! ### Cycle detection (`detect_cycles`) -/

def WHITE : Nat := 0
def GRAY : Nat := 1
def BLACK : Nat := 2

/-- Fuel bound for one DFS traversal of `detect_cycles`. -/
def dfsFuel (g : Graph) : Nat := (maxAdj g + 2) * (g.nodes.length + 1) + maxAdj g + 2

/-- The back-edge cycle reconstruction: walk `parent` links from `u`
until reaching `v` (inclusive), accumulating; `some none` is the
`cur is None` break. -/
def walkParent (parent : AList (Option String)) :
    Nat → String → String → List String → Except Err (List String)
  | 0, _, _, _ => .error .fuel
  | fuel+1, cur, v, acc =>
    if cur = v then .ok acc
    else
      match getA parent cur with
      | none => .error .notFound
      | some none => .ok acc
      | some (some p) => walkParent parent fuel p v (acc ++ [p])

/-- The `while stack:` loop of one DFS traversal. A frame is
`(node, remaining-neighbors)`; the head frame is the stack top. -/
def dfsLoop (g : Graph) :
    Nat → List (String × List String) → AList Nat → AList (Option String) →
    List (List String) →
    Except Err (AList Nat × AList (Option String) × List (List String))
  | 0, _, _, _, _ => .error .fuel
  | _+1, [], color, parent, cycles => .ok (color, parent, cycles)
  | fuel+1, (u, []) :: rest, color, parent, cycles =>
    dfsLoop g fuel rest (setA color u BLACK) parent cycles
  | fuel+1, (u, v :: vs) :: rest, color, parent, cycles =>
    match getA color v with
    | none => .error .notFound
    | some c =>
      if c = GRAY then
        match walkParent parent (parent.length + 1) u v [v, u] with
        | .error e => .error e
        | .ok cyc => dfsLoop g fuel ((u, vs) :: rest) color parent (cycles ++ [cyc.reverse])
      else if c = WHITE then
        match g.neighbors v with
        | none => .error .notFound
        | some nv =>
          dfsLoop g fuel ((v, nv) :: (u, vs) :: rest)
            (setA color v GRAY) (setA parent v (some u)) cycles
      else dfsLoop g fuel ((u, vs) :: rest) color parent cycles

/-- The `for start in graph.node_names()` outer loop of `detect_cycles`. -/
def detectOuter (g : Graph) :
    List String → AList Nat → AList (Option String) → List (List String) →
    Except Err (AList Nat × AList (Option String) × List (List String))
  | [], color, parent, cycles => .ok (color, parent, cycles)
  | s :: rest, color, parent, cycles =>
    match getA color s with
    | none => .error .notFound
    | some c =>
      if c ≠ WHITE then detectOuter g rest color parent cycles
      else
        match g.neighbors s with
        | none => .error .notFound
        | some ns =>
          match dfsLoop g (dfsFuel g) [(s, ns)] (setA color s GRAY) parent cycles with
          | .error e => .error e
          | .ok (c', p', cy') => detectOuter g rest c' p' cy'

/-- `detect_cycles(graph)`: three-color iterative DFS reporting one
reconstructed cycle per back edge. -/
def detect_cycles (g : Graph) : Except Err (List (List String)) :=
  match detectOuter g g.node_names (initMap g.node_names WHITE)
      (initMap g.node_names none) [] with
  | .error e => .error e
  | .ok (_, _, cycles) => .ok cycles

/-! ### Topological sort (`topological_sort`, Kahn's algorithm) -/

/-- Fuel bound for Kahn's loop. -/
def kahnFuel (g : Graph) : Nat := g.nodes.length + 2 * sumAdj g + 2

/-- `in_degree[dep] = in_degree.get(dep, 0) + 1` over one neighbor list.
Counters are integers (Python `int` can go negative on decrement). -/
def bumpAll : List String → AList Int → AList Int
  | [], m => m
  | dep :: rest, m => bumpAll rest (setA m dep ((getA m dep).getD 0 + 1))

/-- In-degree initialization over all nodes. -/
def initInDeg (g : Graph) : List String → AList Int → Except Err (AList Int)
  | [], m => .ok m
  | node :: rest, m =>
    match g.neighbors node with
    | none => .error .notFound
    | some ns => initInDeg g rest (bumpAll ns m)

/-- `in_degree[dep] -= 1; if in_degree[dep] == 0: queue.append(dep)` over
one neighbor list, returning the updated counters and queue additions. -/
def kahnDec : List String → AList Int → List String → Except Err (AList Int × List String)
  | [], m, qa => .ok (m, qa)
  | dep :: rest, m, qa =>
    match getA m dep with
    | none => .error .notFound
    | some d => kahnDec rest (setA m dep (d - 1)) (if d - 1 = 0 then qa ++ [dep] else qa)

/-- The `while queue:` loop of Kahn's algorithm (FIFO deque). -/
def kahnLoop (g : Graph) :
    Nat → List String → AList Int → List String → Except Err (List String)
  | 0, _, _, _ => .error .fuel
  | _+1, [], _, order => .ok order
  | fuel+1, node :: qrest, m, order =>
    match g.neighbors node with
    | none => .error .notFound
    | some ns =>
      match kahnDec ns m [] with
      | .error e => .error e
      | .ok (m', qa) => kahnLoop g fuel (qrest ++ qa) m' (order ++ [node])

/-- `topological_sort(graph)`: Kahn's algorithm; `cycleError` when the
produced order misses nodes. -/
def topological_sort (g : Graph) : Except Err (List String) :=
  match initInDeg g g.node_names (initMap g.node_names 0) with
  | .error e => .error e
  | .ok m =>
    match kahnLoop g (kahnFuel g) ((m.filter (fun p => decide (p.2 = 0))).map Prod.fst) m [] with
    | .error e => .error e
    | .ok order => if order.length = g.node_count then .ok order else .error .cycleError

/-! ### Strongly connected components (`strongly_connected_components`) -/

/-- Mutable traversal state of iterative Tarjan: discovery indices,
lowlinks, on-stack flags, the component stack (head = top), collected
components, and the global index counter. -/
structure TState where
  idx : AList Nat
  low : AList Nat
  ons : AList Bool
  sstack : List String
  comps : List (List String)
  counter : Nat
deriving DecidableEq

/-- Outcome of scanning the pending neighbors of the top frame: either a
descent into unvisited `v` (with its neighbor list and the frame's
remaining neighbors), or exhaustion. -/
inductive ScanOut where
  | advanced (v : String) (vnbrs : List String) (rest : List String) (st : TState)
  | exhausted (st : TState)

/-- The `for v in neighbors_iter` scan with break-on-descent: on-stack
neighbors tighten `low[u]` to `min(low[u], idx[v])`; an unvisited
neighbor is assigned a fresh index/lowlink, pushed on the component
stack, and descended into. -/
def sccScan (g : Graph) (u : String) : List String → TState → Except Err ScanOut
  | [], st => .ok (.exhausted st)
  | v :: rest, st =>
    if (getA st.idx v).isSome then
      if (getA st.ons v).getD false then
        match getA st.low u, getA st.idx v with
        | some lu, some iv => sccScan g u rest { st with low := setA st.low u (min lu iv) }
        | _, _ => .error .notFound
      else sccScan g u rest st
    else
      match g.neighbors v with
      | none => .error .notFound
      | some nv => .ok (.advanced v nv rest
          { st with
              idx := setA st.idx v st.counter, low := setA st.low v st.counter,
              counter := st.counter + 1, ons := setA st.ons v true,
              sstack := v :: st.sstack })

/-- Pop the component stack down to and including `u`, clearing on-stack
flags; `none` models the `IndexError` of popping an empty stack. -/
def popComp (u : String) (ons : AList Bool) :
    List String → Option (AList Bool × List String × List String)
  | [] => none
  | w :: rest =>
    if w = u then some (setA ons w false, [w], rest)
    else
      match popComp u (setA ons w false) rest with
      | none => none
      | some (ons', comp, rest') => some (ons', w :: comp, rest')

/-- The `while call_stack:` loop of iterative Tarjan. On exhaustion of
the top frame `u`: close a component when `low[u] == idx[u]`, then pop
the frame and propagate `low[u]` into the parent's lowlink. -/
def sccLoop (g : Graph) : Nat → List (String × List String) → TState → Except Err TState
  | 0, _, _ => .error .fuel
  | _+1, [], st => .ok st
  | fuel+1, (u, vs) :: rest, st =>
    match sccScan g u vs st with
    | .error e => .error e
    | .ok (.advanced v nv vs' st') => sccLoop g fuel ((v, nv) :: (u, vs') :: rest) st'
    | .ok (.exhausted st') =>
      match getA st'.low u, getA st'.idx u with
      | some lu, some iu =>
        match (if lu = iu then
                 match popComp u st'.ons st'.sstack with
                 | none => Except.error Err.notFound
                 | some (ons', comp, sstack') =>
                     Except.ok { st' with ons := ons', sstack := sstack',
                                          comps := st'.comps ++ [comp] }
               else Except.ok st') with
        | .error e => .error e
        | .ok st'' =>
          match rest with
          | [] => sccLoop g fuel [] st''
          | (p, pvs) :: prest =>
            match getA st''.low p, getA st''.low u with
            | some lp, some lu2 =>
                sccLoop g fuel ((p, pvs) :: prest) { st'' with low := setA st''.low p (min lp lu2) }
            | _, _ => .error .notFound
      | _, _ => .error .notFound

/-- Fuel bound for the Tarjan loop. -/
def sccFuel (g : Graph) : Nat := 2 * (g.nodes.length + sumAdj g + 1) + 2

/-- The `for start in graph.node_names()` outer loop of Tarjan. -/
def sccOuter (g : Graph) : List String → TState → Except Err TState
  | [], st => .ok st
  | s :: rest, st =>
    if (getA st.idx s).isSome then sccOuter g rest st
    else
      match g.neighbors s with
      | none => .error .notFound
      | some ns =>
        match sccLoop g (sccFuel g) [(s, ns)]
            { st with
                idx := setA st.idx s st.counter, low := setA st.low s st.counter,
                counter := st.counter + 1, ons := setA st.ons s true,
                sstack := s :: st.sstack } with
        | .error e => .error e
        | .ok st' => sccOuter g rest st'

/-- Stable insertion (descending by length): the element goes after every
earlier element of length `≥` its own. -/
def insDesc (x : List String) : List (List String) → List (List String)
  | [] => [x]
  | y :: ys => if y.length ≤ x.length then x :: y :: ys else y :: insDesc x ys

/-- Stable sort descending by length — extensionally equal to Python's
stable `sorted(key=len, reverse=True)`. -/
def sortDesc : List (List String) → List (List String)
  | [] => []
  | x :: xs => insDesc x (sortDesc xs)

/-- `strongly_connected_components(graph)`: iterative Tarjan, then
non-trivial components (size > 1) sorted by size descending, followed by
the trivial ones in collection order. -/
def strongly_connected_components (g : Graph) : Except Err (List (List String)) :=
  match sccOuter g g.node_names ⟨[], [], [], [], [], 0⟩ with
  | .error e => .error e
  | .ok st =>
      .ok (sortDesc (st.comps.filter (fun s => decide (1 < s.length))) ++
           st.comps.filter (fun s => decide (s.length = 1)))

/-- The full invariant of the iterative Tarjan loop on state `st` with
call stack `cstack`. -/
def TJ (g : Graph) (cstack : List (String × List String)) (st : TState) : Prop :=
  keysA st.idx = keysA st.low ∧
  (keysA st.idx).Nodup ∧
  keysA st.idx ⊆ g.node_names ∧
  (∀ x, x ∈ keysA st.idx ↔ (x ∈ st.sstack ∨ x ∈ st.comps.flatten)) ∧
  (st.sstack ++ st.comps.flatten).Nodup ∧
  (∀ x, (getA st.ons x).getD false = true ↔ x ∈ st.sstack) ∧
  (∀ x ∈ keysA st.idx, valOf st.idx x < st.counter) ∧
  (∀ x y, x ∈ keysA st.idx → y ∈ keysA st.idx → valOf st.idx x = valOf st.idx y → x = y) ∧
  List.Pairwise (fun a b => valOf st.idx b < valOf st.idx a) st.sstack ∧
  (∀ x ∈ st.sstack, valOf st.low x ≤ valOf st.idx x) ∧
  (∀ x ∈ st.sstack, ∃ z, z ∈ st.sstack ∧ valOf st.idx z = valOf st.low x ∧
    Relation.ReflTransGen (Edge g) x z) ∧
  (∀ x ∈ st.sstack, x ∉ cstack.map Prod.fst → valOf st.low x < valOf st.idx x) ∧
  SegOK g st.low (cstack.map Prod.fst) st.sstack ∧
  List.Chain' (fun fa fb => Edge g fb.1 fa.1) cstack ∧
  List.Pairwise (fun fa fb => valOf st.idx fb.1 < valOf st.idx fa.1) cstack ∧
  FrameScanned g st.idx st.low st.comps cstack ∧
  FinishedScanned g st.idx st.low st.comps st.sstack (cstack.map Prod.fst) ∧
  CompsOK g st.comps ∧
  CompsClosed g st.comps

/-- The between-traversal state of iterative Tarjan: empty component
stack, cleared flags, and the indexed nodes partitioned into the closed
components. -/
def TJ0 (g : Graph) (st : TState) : Prop :=
  keysA st.idx = keysA st.low ∧
  (keysA st.idx).Nodup ∧
  keysA st.idx ⊆ g.node_names ∧
  st.sstack = [] ∧
  (∀ x, x ∈ keysA st.idx ↔ x ∈ st.comps.flatten) ∧
  st.comps.flatten.Nodup ∧
  (∀ x, (getA st.ons x).getD false = false) ∧
  (∀ x ∈ keysA st.idx, valOf st.idx x < st.counter) ∧
  (∀ x y, x ∈ keysA st.idx → y ∈ keysA st.idx → valOf st.idx x = valOf st.idx y → x = y) ∧
  CompsOK g st.comps ∧
  CompsClosed g st.comps

/-! ### Summary statistics (`graph_stats`) -/

/-- The stats record returned by `graph_stats`. The Python float
`round(edge_count / node_count, 2)` is modelled over `ℚ`. -/
structure Stats where
  node_count : Nat
  edge_count : Nat
  root_nodes : List String
  leaf_nodes : List String
  leaf_count : Nat
  max_depth : Nat
  has_cycles : Bool
  cycle_count : Nat
  cycles : List (List String)
  avg_direct_deps : ℚ
deriving DecidableEq

/-- `[n for n in graph.node_names() if len(graph.neighbors(n)) == 0]`. -/
def leavesM (g : Graph) : List String → Except Err (List String)
  | [] => .ok []
  | n :: rest =>
    match g.neighbors n with
    | none => .error .notFound
    | some l =>
      match leavesM g rest with
      | .error e => .error e
      | .ok ls => .ok (if l.length = 0 then n :: ls else ls)

/-- Rounding to two decimal places over `ℚ` (model of Python's
`round(x, 2)` on the float quotient). -/
def round2 (q : ℚ) : ℚ := (round (q * 100) : ℚ) / 100

/-- `graph_stats(graph)`: composition of roots, BFS depth from the first
root, cycle detection, and leaf counting. -/
def graph_stats (g : Graph) : Except Err Stats :=
  match (match g.roots with | [] => Except.ok [] | r :: _ => compute_depth g (some r)) with
  | .error e => .error e
  | .ok depths =>
    match detect_cycles g with
    | .error e => .error e
    | .ok cycles =>
      match leavesM g g.node_names with
      | .error e => .error e
      | .ok leaves =>
        .ok { node_count := g.node_count,
              edge_count := g.edge_count,
              root_nodes := g.roots,
              leaf_nodes := leaves,
              leaf_count := leaves.length,
              max_depth := (depths.map Prod.snd).foldr max 0,
              has_cycles := decide (0 < cycles.length),
              cycle_count := cycles.length,
              cycles := cycles,
              avg_direct_deps :=
                if g.node_count = 0 then 0
                else round2 ((g.edge_count : ℚ) / (g.node_count : ℚ)) }

end DGVis


namespace DGVis

/-! ### Association-list lemmas -/

theorem keysA_nil {α : Type} : keysA ([] : AList α) = [] := rfl

theorem keysA_cons {α : Type} (a : String) (b : α) (tl : AList α) :
    keysA ((a, b) :: tl) = a :: keysA tl := rfl

theorem keysA_append {α : Type} (l m : AList α) :
    keysA (l ++ m) = keysA l ++ keysA m := by
  simp [keysA]

theorem getA_setA_self {α : Type} (l : AList α) (k : String) (v : α) :
    getA (setA l k v) k = some v := by
  induction l with
  | nil => simp [setA, getA]
  | cons hd tl ih =>
    obtain ⟨k1, v1⟩ := hd
    by_cases h : k1 = k
    · simp [setA, h, getA]
    · simp [setA, h, getA, ih]

theorem getA_setA_ne {α : Type} (l : AList α) (k k' : String) (v : α) (h : k' ≠ k) :
    getA (setA l k v) k' = getA l k' := by
  induction l with
  | nil =>
    simp only [setA, getA]
    rw [if_neg (fun hh => h hh.symm)]
  | cons hd tl ih =>
    obtain ⟨k1, v1⟩ := hd
    by_cases hh : k1 = k
    · subst hh
      simp only [setA, if_pos rfl, getA]
      rw [if_neg (fun e => h e.symm), if_neg (fun e => h e.symm)]
    · simp only [setA, if_neg hh, getA, ih]

theorem mem_keysA_iff_getA {α : Type} (l : AList α) (k : String) :
    k ∈ keysA l ↔ (getA l k).isSome := by
  induction l with
  | nil => simp [keysA, getA]
  | cons hd tl ih =>
    obtain ⟨k1, v1⟩ := hd
    rw [keysA_cons]
    by_cases h : k1 = k
    · simp [getA, h]
    · simp only [getA, if_neg h, List.mem_cons]
      constructor
      · intro hc
        rcases hc with hc | hc
        · exact absurd hc.symm h
        · exact ih.mp hc
      · intro hs
        exact Or.inr (ih.mpr hs)

theorem getA_eq_none_iff {α : Type} (l : AList α) (k : String) :
    getA l k = none ↔ k ∉ keysA l := by
  rw [mem_keysA_iff_getA]
  cases h : getA l k <;> simp [h]

theorem getA_isSome_iff {α : Type} (l : AList α) (k : String) :
    (getA l k).isSome ↔ k ∈ keysA l := (mem_keysA_iff_getA l k).symm

theorem keysA_setA_of_mem {α : Type} (l : AList α) (k : String) (v : α)
    (h : k ∈ keysA l) : keysA (setA l k v) = keysA l := by
  induction l with
  | nil => simp [keysA] at h
  | cons hd tl ih =>
    obtain ⟨k1, v1⟩ := hd
    by_cases hh : k1 = k
    · simp [setA, hh, keysA_cons]
    · rw [keysA_cons] at h
      have h2 : k ∈ keysA tl := by
        rcases List.mem_cons.mp h with h1 | h1
        · exact absurd h1.symm hh
        · exact h1
      simp [setA, hh, keysA_cons, ih h2]

theorem keysA_setA_of_not_mem {α : Type} (l : AList α) (k : String) (v : α)
    (h : k ∉ keysA l) : keysA (setA l k v) = keysA l ++ [k] := by
  induction l with
  | nil => simp [setA, keysA]
  | cons hd tl ih =>
    obtain ⟨k1, v1⟩ := hd
    rw [keysA_cons] at h
    have h1 : k1 ≠ k := fun hh => h (by simp [hh])
    have h2 : k ∉ keysA tl := fun hh => h (by simp [hh])
    simp [setA, h1, keysA_cons, ih h2]

theorem length_setA_of_mem {α : Type} (l : AList α) (k : String) (v : α)
    (h : k ∈ keysA l) : (setA l k v).length = l.length := by
  induction l with
  | nil => simp [keysA] at h
  | cons hd tl ih =>
    obtain ⟨k1, v1⟩ := hd
    by_cases hh : k1 = k
    · simp [setA, hh]
    · rw [keysA_cons] at h
      have h2 : k ∈ keysA tl := by
        rcases List.mem_cons.mp h with h1 | h1
        · exact absurd h1.symm hh
        · exact h1
      simp [setA, hh, ih h2]

theorem length_setA_of_not_mem {α : Type} (l : AList α) (k : String) (v : α)
    (h : k ∉ keysA l) : (setA l k v).length = l.length + 1 := by
  induction l with
  | nil => simp [setA]
  | cons hd tl ih =>
    obtain ⟨k1, v1⟩ := hd
    rw [keysA_cons] at h
    have h1 : k1 ≠ k := fun hh => h (by simp [hh])
    have h2 : k ∉ keysA tl := fun hh => h (by simp [hh])
    simp [setA, h1, ih h2]

theorem getA_initMap {α : Type} (names : List String) (v : α) (k : String) :
    getA (initMap names v) k = if k ∈ names then some v else none := by
  induction names with
  | nil => simp [initMap, getA]
  | cons hd tl ih =>
    by_cases h : hd = k
    · simp [initMap, getA, h]
    · have h' : k ≠ hd := fun hh => h hh.symm
      simp only [initMap, List.map_cons, getA, if_neg h, List.mem_cons]
      rw [show (List.map (fun n => (n, v)) tl) = initMap tl v from rfl, ih]
      by_cases hk : k ∈ tl <;> simp [hk, h']

theorem keysA_initMap {α : Type} (names : List String) (v : α) :
    keysA (initMap names v) = names := by
  induction names with
  | nil => rfl
  | cons hd tl ih =>
    simp only [initMap, List.map_cons, keysA_cons]
    rw [show (List.map (fun n => (n, v)) tl) = initMap tl v from rfl, ih]

theorem getA_append {α : Type} (l m : AList α) (k : String) :
    getA (l ++ m) k = match getA l k with | some v => some v | none => getA m k := by
  induction l with
  | nil => simp [getA]
  | cons hd tl ih =>
    obtain ⟨k1, v1⟩ := hd
    by_cases h : k1 = k
    · simp [getA, h]
    · simp [getA, h, ih]

end DGVis

namespace DGVis

theorem updA_nil {α : Type} (d : AList α) : updA d [] = d := rfl

theorem updA_cons {α : Type} (d : AList α) (k1 : String) (v1 : α) (rest : AList α) :
    updA d ((k1, v1) :: rest) = updA (setA d k1 v1) rest := rfl

theorem getA_updA_not_mem {α : Type} (d new : AList α) (k : String)
    (h : k ∉ keysA new) : getA (updA d new) k = getA d k := by
  induction new generalizing d with
  | nil => rfl
  | cons hd rest ih =>
    obtain ⟨k1, v1⟩ := hd
    rw [keysA_cons] at h
    have h1 : k ≠ k1 := fun hh => h (by simp [hh])
    have h2 : k ∉ keysA rest := fun hh => h (by simp [hh])
    rw [updA_cons, ih _ h2, getA_setA_ne _ _ _ _ h1]

theorem getA_updA {α : Type} (d new : AList α) (k : String)
    (hm : (keysA new).Nodup) :
    getA (updA d new) k =
      match getA new k with | some v => some v | none => getA d k := by
  induction new generalizing d with
  | nil => rfl
  | cons hd rest ih =>
    obtain ⟨k1, v1⟩ := hd
    rw [keysA_cons] at hm
    have hnd : (keysA rest).Nodup := hm.of_cons
    have hnm : k1 ∉ keysA rest := by
      intro hc
      exact (List.nodup_cons.mp hm).1 hc
    by_cases h : k = k1
    · subst h
      rw [updA_cons, getA_updA_not_mem _ _ _ hnm, getA_setA_self]
      simp [getA]
    · rw [updA_cons, ih _ hnd]
      have h1 : getA ((k1, v1) :: rest) k = getA rest k := by
        simp only [getA]
        rw [if_neg (fun hh => h hh.symm)]
      rw [h1]
      cases hr : getA rest k with
      | some v => simp
      | none => simp [getA_setA_ne _ _ _ _ h]

/-- Unfolding `add_node` on an existing node. -/
theorem add_node_existing (g : Graph) (name : String) (version : Option String)
    (meta : AList String) (nd : Node) (h : getA g.nodes name = some nd) :
    g.add_node name version meta =
      { g with nodes := setA g.nodes name (Node.mk nd.name
          (match version with | none => nd.version | some v => some v)
          (updA nd.metadata meta)) } := by
  unfold Graph.add_node
  rw [h]

/-- Claim C9: re-adding an existing node name merges the newly supplied
version and metadata into the existing node (a supplied version
overwrites the stored one; metadata is merged key-by-key with the new
bindings winning), does not create a duplicate node (node count and key
list unchanged), and leaves the adjacency structure — hence all existing
outgoing edges of that node — untouched. -/
theorem claim_C9 (g : Graph) (name : String) (version : Option String)
    (meta : AList String) (nd : Node)
    (h : getA g.nodes name = some nd) (hm : (keysA meta).Nodup) :
    (g.add_node name version meta).adj = g.adj ∧
    (g.add_node name version meta).node_count = g.node_count ∧
    keysA (g.add_node name version meta).nodes = keysA g.nodes ∧
    ∃ nd', getA (g.add_node name version meta).nodes name = some nd' ∧
      (∀ v, version = some v → nd'.version = some v) ∧
      (∀ k v, getA meta k = some v → getA nd'.metadata k = some v) ∧
      (∀ k, getA meta k = none → getA nd'.metadata k = getA nd.metadata k) := by
  have hmem : name ∈ keysA g.nodes := by
    rw [mem_keysA_iff_getA, h]
    rfl
  rw [add_node_existing g name version meta nd h]
  refine ⟨rfl, ?_, ?_, ?_⟩
  · simpa [Graph.node_count] using length_setA_of_mem g.nodes name _ hmem
  · exact keysA_setA_of_mem g.nodes name _ hmem
  · refine ⟨Node.mk nd.name
        (match version with | none => nd.version | some v => some v)
        (updA nd.metadata meta), getA_setA_self _ _ _, ?_, ?_, ?_⟩
    · intro v hv
      subst hv
      rfl
    · intro k v hkv
      have h2 := getA_updA nd.metadata meta k hm
      rw [hkv] at h2
      exact h2
    · intro k hkn
      have h2 := getA_updA nd.metadata meta k hm
      rw [hkn] at h2
      exact h2

/-- Claim C9 witness: concrete instantiation on a one-node graph. -/
theorem claim_C9_witness :
    getA (Graph.empty.add_node "a" (some "1") [("x", "old"), ("y", "keep")]).nodes "a" =
        some ⟨"a", some "1", [("x", "old"), ("y", "keep")]⟩ ∧
    (keysA [("x", "new")]).Nodup ∧
    (((Graph.empty.add_node "a" (some "1") [("x", "old"), ("y", "keep")]).add_node
        "a" (some "2") [("x", "new")]).adj =
      (Graph.empty.add_node "a" (some "1") [("x", "old"), ("y", "keep")]).adj ∧
     ((Graph.empty.add_node "a" (some "1") [("x", "old"), ("y", "keep")]).add_node
        "a" (some "2") [("x", "new")]).node_count =
      (Graph.empty.add_node "a" (some "1") [("x", "old"), ("y", "keep")]).node_count ∧
     keysA (((Graph.empty.add_node "a" (some "1") [("x", "old"), ("y", "keep")]).add_node
        "a" (some "2") [("x", "new")]).nodes) =
      keysA (Graph.empty.add_node "a" (some "1") [("x", "old"), ("y", "keep")]).nodes ∧
     ∃ nd', getA (((Graph.empty.add_node "a" (some "1") [("x", "old"), ("y", "keep")]).add_node
        "a" (some "2") [("x", "new")]).nodes) "a" = some nd' ∧
       (∀ v, (some "2" : Option String) = some v → nd'.version = some v) ∧
       (∀ k v, getA [("x", "new")] k = some v → getA nd'.metadata k = some v) ∧
       (∀ k, getA [("x", "new")] k = none →
         getA nd'.metadata k =
           getA (⟨"a", some "1", [("x", "old"), ("y", "keep")]⟩ : Node).metadata k)) :=
  ⟨by decide, by decide,
    claim_C9 (Graph.empty.add_node "a" (some "1") [("x", "old"), ("y", "keep")]) "a"
      (some "2") [("x", "new")] ⟨"a", some "1", [("x", "old"), ("y", "keep")]⟩
      (by decide) (by decide)⟩

/-- Claim C10: re-adding an existing node with `version=None` leaves the
stored version unchanged; re-adding with no metadata keys leaves the
metadata unchanged; and in general only the supplied metadata keys are
overwritten — every other metadata entry keeps its value. -/
theorem claim_C10 (g : Graph) (name : String) (version : Option String)
    (meta : AList String) (nd : Node) (h : getA g.nodes name = some nd) :
    (∃ nd', getA (g.add_node name none meta).nodes name = some nd' ∧
       nd'.version = nd.version) ∧
    (∃ nd', getA (g.add_node name version []).nodes name = some nd' ∧
       nd'.metadata = nd.metadata) ∧
    (∃ nd', getA (g.add_node name version meta).nodes name = some nd' ∧
       ∀ k, k ∉ keysA meta → getA nd'.metadata k = getA nd.metadata k) := by
  refine ⟨?_, ?_, ?_⟩
  · rw [add_node_existing g name none meta nd h]
    exact ⟨Node.mk nd.name nd.version (updA nd.metadata meta),
      getA_setA_self _ _ _, rfl⟩
  · rw [add_node_existing g name version [] nd h]
    exact ⟨Node.mk nd.name
        (match version with | none => nd.version | some v => some v) nd.metadata,
      getA_setA_self _ _ _, rfl⟩
  · rw [add_node_existing g name version meta nd h]
    exact ⟨Node.mk nd.name
        (match version with | none => nd.version | some v => some v)
        (updA nd.metadata meta),
      getA_setA_self _ _ _, fun k hk => getA_updA_not_mem nd.metadata meta k hk⟩

/-- Claim C10 witness: concrete instantiation on a one-node graph. -/
theorem claim_C10_witness :
    getA (Graph.empty.add_node "a" (some "1") [("x", "old"), ("y", "keep")]).nodes "a" =
        some ⟨"a", some "1", [("x", "old"), ("y", "keep")]⟩ ∧
    ((∃ nd', getA (((Graph.empty.add_node "a" (some "1") [("x", "old"), ("y", "keep")]).add_node
        "a" none [("x", "new")]).nodes) "a" = some nd' ∧
       nd'.version = (⟨"a", some "1", [("x", "old"), ("y", "keep")]⟩ : Node).version) ∧
     (∃ nd', getA (((Graph.empty.add_node "a" (some "1") [("x", "old"), ("y", "keep")]).add_node
        "a" (some "9") []).nodes) "a" = some nd' ∧
       nd'.metadata = (⟨"a", some "1", [("x", "old"), ("y", "keep")]⟩ : Node).metadata) ∧
     (∃ nd', getA (((Graph.empty.add_node "a" (some "1") [("x", "old"), ("y", "keep")]).add_node
        "a" (some "9") [("x", "new")]).nodes) "a" = some nd' ∧
       ∀ k, k ∉ keysA [("x", "new")] →
         getA nd'.metadata k =
           getA (⟨"a", some "1", [("x", "old"), ("y", "keep")]⟩ : Node).metadata k)) :=
  ⟨by decide,
    claim_C10 (Graph.empty.add_node "a" (some "1") [("x", "old"), ("y", "keep")]) "a"
      (some "9") [("x", "new")] ⟨"a", some "1", [("x", "old"), ("y", "keep")]⟩ (by decide)⟩

end DGVis

namespace DGVis

/-- Claim C1 (refutation): on the graph with edges a→b and b→a, the node
`a` itself IS a member of `transitive_deps(G, a)` — the visited-set loop
never excludes the start node once a cycle leads back to it, contradicting
both the spec and the function's own docstring (`excluding itself`). -/
theorem claim_C1_bug :
    transitive_deps (build_graph [("a", ["b"]), ("b", ["a"])]) "a" =
      .ok ["b", "a"] ∧
    "a" ∈ ["b", "a"] := by
  constructor
  · rfl
  · simp

/-- Claim C7: on the self-loop graph a→a, `detect_cycles` reports exactly
the single cycle `[a, a]`, and `strongly_connected_components` returns
exactly one component `[a]`, of size 1, classified trivial: the raw
Tarjan output is `[[a]]`, its non-trivial (size>1) group is empty, and
the result is the empty non-trivial group followed by the trivial one. -/
theorem claim_C7 :
    detect_cycles (build_graph [("a", ["a"])]) = .ok [["a", "a"]] ∧
    strongly_connected_components (build_graph [("a", ["a"])]) = .ok [["a"]] ∧
    (∃ st, sccOuter (build_graph [("a", ["a"])])
        (build_graph [("a", ["a"])]).node_names ⟨[], [], [], [], [], 0⟩ = .ok st ∧
      st.comps = [["a"]] ∧
      st.comps.filter (fun s => decide (1 < s.length)) = [] ∧
      sortDesc (st.comps.filter (fun s => decide (1 < s.length))) ++
        st.comps.filter (fun s => decide (s.length = 1)) = [["a"]]) := by
  refine ⟨rfl, rfl, ⟨⟨[("a", 0)], [("a", 0)], [("a", false)], [], [["a"]], 1⟩,
    rfl, rfl, rfl, rfl⟩⟩

/-- Claim C4 (counterexample): on the self-loop graph a→a the returned
component `[a]` does NOT have size greater than 1, yet all of its members
lie on a common cycle (the closed walk a→a), so the claimed equivalence
`size > 1 ↔ members on a common cycle` fails as stated. -/
theorem claim_C4_counterexample :
    strongly_connected_components (build_graph [("a", ["a"])]) = .ok [["a"]] ∧
    ¬ (1 < (["a"] : List String).length) ∧
    CommonCycle (build_graph [("a", ["a"])]) ["a"] := by
  refine ⟨rfl, by simp, ⟨["a", "a"], by simp, ?_, rfl, by simp⟩⟩
  simp only [List.chain'_cons, List.chain'_singleton, and_true]
  exact ⟨["a"], rfl, by simp⟩

end DGVis

namespace DGVis

/-! ### Graph-structure helper lemmas -/

theorem getA_mem {α : Type} (l : AList α) (k : String) (v : α)
    (h : getA l k = some v) : (k, v) ∈ l := by
  induction l with
  | nil => simp [getA] at h
  | cons hd tl ih =>
    obtain ⟨k1, v1⟩ := hd
    by_cases hh : k1 = k
    · subst hh
      simp [getA] at h
      simp [h]
    · simp only [getA, if_neg hh] at h
      exact List.mem_cons_of_mem _ (ih h)

theorem nbrs_subset_dstsAll (g : Graph) (u : String) (l : List String)
    (h : getA g.adj u = some l) : l ⊆ dstsAll g := by
  intro x hx
  have hm : (u, l) ∈ g.adj := getA_mem _ _ _ h
  simp only [dstsAll, List.mem_flatten, List.mem_map]
  exact ⟨l, ⟨(u, l), hm, rfl⟩, hx⟩

theorem le_foldr_max (l : List Nat) (x : Nat) (h : x ∈ l) : x ≤ l.foldr max 0 := by
  induction l with
  | nil => simp at h
  | cons hd tl ih =>
    rcases List.mem_cons.mp h with h1 | h1
    · subst h1
      simp [List.foldr]
    · exact le_trans (ih h1) (by simp [List.foldr])

theorem nbrs_length_le_maxAdj (g : Graph) (u : String) (l : List String)
    (h : getA g.adj u = some l) : l.length ≤ maxAdj g := by
  have hm : (u, l) ∈ g.adj := getA_mem _ _ _ h
  exact le_foldr_max _ _ (by
    simp only [maxAdj, List.mem_map]
    exact ⟨(u, l), hm, rfl⟩)

theorem length_dstsAll (g : Graph) : (dstsAll g).length = sumAdj g := by
  rw [dstsAll, List.length_flatten, List.map_map, sumAdj]
  rfl

theorem nodup_subset_length {l₁ l₂ : List String} (h : l₁.Nodup) (hs : l₁ ⊆ l₂) :
    l₁.length ≤ l₂.length :=
  (h.subperm hs).length_le

/-- Under `WF`, every edge destination is an adjacency key. -/
theorem dst_mem_adj_keys (g : Graph) (hwf : WF g) (x : String)
    (h : x ∈ dstsAll g) : x ∈ keysA g.adj := by
  obtain ⟨hk, _, hc, _⟩ := hwf
  rw [hk]
  simp only [dstsAll, List.mem_flatten, List.mem_map] at h
  obtain ⟨l, ⟨p, hp, hpl⟩, hx⟩ := h
  exact hc p hp x (hpl ▸ hx)

/-- Under `WF`, a node-map key is an adjacency key. -/
theorem node_mem_adj_keys (g : Graph) (hwf : WF g) (x : String)
    (h : x ∈ keysA g.nodes) : x ∈ keysA g.adj := by
  obtain ⟨hk, _, _, _⟩ := hwf
  rw [hk]
  exact h

/-! ### `transitive_deps` never exhausts fuel on well-formed graphs -/

theorem transLoop_ok (g : Graph) (hwf : WF g) :
    ∀ fuel stack visited,
      stack ⊆ dstsAll g → visited ⊆ dstsAll g → visited.Nodup →
      stack.length + (maxAdj g + 1) * (sumAdj g + 1 - visited.length) < fuel →
      ∃ r, transLoop g fuel stack visited = .ok r := by
  intro fuel
  induction fuel with
  | zero => intro stack visited _ _ _ h; omega
  | succ fuel ih =>
    intro stack visited hst hvs hnd hμ
    match stack with
    | [] => exact ⟨visited, rfl⟩
    | cur :: rest =>
      by_cases hcv : cur ∈ visited
      · rw [transLoop, if_pos hcv]
        exact ih rest visited (fun x hx => hst (List.mem_cons_of_mem _ hx)) hvs hnd
          (by simp at hμ ⊢; omega)
      · have hcd : cur ∈ dstsAll g := hst (List.mem_cons_self _ _)
        have hck : cur ∈ keysA g.adj := dst_mem_adj_keys g hwf cur hcd
        obtain ⟨ns, hns⟩ := Option.isSome_iff_exists.mp ((getA_isSome_iff _ _).mpr hck)
        rw [transLoop, if_neg hcv]
        simp only [Graph.neighbors, hns]
        have hvs' : visited ++ [cur] ⊆ dstsAll g := by
          intro x hx
          rcases List.mem_append.mp hx with h1 | h1
          · exact hvs h1
          · simpa using (List.mem_singleton.mp h1) ▸ hcd
        have hnd' : (visited ++ [cur]).Nodup := by
          simp [List.nodup_append, hnd, hcv]
        have hlen : (visited ++ [cur]).length ≤ sumAdj g := by
          have := nodup_subset_length hnd' hvs'
          rwa [length_dstsAll g] at this
        refine ih _ _ ?_ hvs' hnd' ?_
        · intro x hx
          rcases List.mem_append.mp hx with h1 | h1
          · exact nbrs_subset_dstsAll g cur ns hns (List.mem_of_mem_filter
              (List.mem_reverse.mp h1))
          · exact hst (List.mem_cons_of_mem _ h1)
        · have hf : (ns.filter (fun x => decide (x ∉ visited ++ [cur]))).length ≤ maxAdj g :=
            le_trans (List.length_filter_le _ _) (nbrs_length_le_maxAdj g cur ns hns)
          have hv1 : visited.length + 1 ≤ sumAdj g := by
            have h5 := nodup_subset_length hnd' hvs'
            rw [length_dstsAll g] at h5
            simpa using h5
          have e1 : sumAdj g + 1 - visited.length = (sumAdj g - visited.length) + 1 := by
            omega
          have e2 : sumAdj g + 1 - (visited ++ [cur]).length = sumAdj g - visited.length := by
            simp only [List.length_append, List.length_singleton]
            omega
          rw [e1, Nat.mul_succ] at hμ
          rw [e2]
          simp only [List.length_append, List.length_reverse, List.length_cons] at hμ ⊢
          omega

/-- On a well-formed graph, `transitive_deps` succeeds on every existing
node. -/
theorem transitive_deps_ok (g : Graph) (hwf : WF g) (node : String)
    (h : g.has_node node = true) : ∃ r, transitive_deps g node = .ok r := by
  have hk : node ∈ keysA g.adj := by
    apply node_mem_adj_keys g hwf
    rw [mem_keysA_iff_getA]
    exact h
  obtain ⟨ns, hns⟩ := Option.isSome_iff_exists.mp ((getA_isSome_iff _ _).mpr hk)
  rw [transitive_deps, if_pos h]
  simp only [Graph.neighbors, hns]
  apply transLoop_ok g hwf
  · intro x hx
    exact nbrs_subset_dstsAll g node ns hns (List.mem_reverse.mp hx)
  · simp
  · simp
  · have h1 : ns.reverse.length ≤ maxAdj g := by
      rw [List.length_reverse]
      exact nbrs_length_le_maxAdj g node ns hns
    simp only [transFuel, List.length_nil, Nat.sub_zero]
    have h3 : (maxAdj g + 1) * (sumAdj g + 2) = (maxAdj g + 1) * (sumAdj g + 1)
        + (maxAdj g + 1) := by
      rw [← Nat.mul_succ]
    omega

end DGVis

namespace DGVis

theorem keysA_length {α : Type} (l : AList α) : (keysA l).length = l.length :=
  List.length_map _ _

/-- Full specification of the BFS inner neighbor pass: it never fails
when `node` is mapped, extends the depth map exactly by the fresh
neighbors `anew` (appended to the queue additions), assigns them
`depth[node] + 1`, and leaves existing entries untouched. -/
theorem bfsFold_spec (node : String) :
    ∀ (ns : List String) (depth : AList Nat) (qadd : List String) (dn : Nat),
      getA depth node = some dn →
      ∃ depth' anew, bfsFold node ns depth qadd = .ok (depth', qadd ++ anew) ∧
        keysA depth' = keysA depth ++ anew ∧
        anew ⊆ ns ∧
        (∀ k, k ∈ keysA depth → getA depth' k = getA depth k) ∧
        (∀ k ∈ anew, getA depth' k = some (dn + 1)) ∧
        (∀ k ∈ ns, k ∈ keysA depth') ∧
        anew.Nodup ∧ (∀ k ∈ anew, k ∉ keysA depth) := by
  intro ns
  induction ns with
  | nil =>
    intro depth qadd dn hdn
    exact ⟨depth, [], by simp [bfsFold], by simp, by simp, fun k _ => rfl,
      by simp, by simp, by simp, by simp⟩
  | cons dep rest ih =>
    intro depth qadd dn hdn
    by_cases hdep : (getA depth dep).isSome
    · obtain ⟨depth', anew, hrun, hkeys, hsub, hold, hnew, hcov, hnd, hfresh⟩ :=
        ih depth qadd dn hdn
      refine ⟨depth', anew, ?_, hkeys, ?_, hold, hnew, ?_, hnd, hfresh⟩
      · rw [bfsFold, if_pos hdep]
        exact hrun
      · exact fun x hx => List.mem_cons_of_mem _ (hsub hx)
      · intro k hk
        rcases List.mem_cons.mp hk with h1 | h1
        · subst h1
          rw [hkeys]
          exact List.mem_append_left _ ((mem_keysA_iff_getA _ _).mpr hdep)
        · exact hcov k h1
    · have hdm : dep ∉ keysA depth := by
        rw [mem_keysA_iff_getA]
        exact hdep
      have hdepne : dep ≠ node := by
        intro hh
        subst hh
        rw [hdn] at hdep
        exact hdep rfl
      have hnode1 : getA (setA depth dep (dn + 1)) node = some dn := by
        rw [getA_setA_ne _ _ _ _ (fun hh => hdepne hh.symm)]
        exact hdn
      obtain ⟨depth', anew', hrun, hkeys, hsub, hold, hnew, hcov, hnd, hfresh⟩ :=
        ih (setA depth dep (dn + 1)) (qadd ++ [dep]) dn hnode1
      have hkeys1 : keysA (setA depth dep (dn + 1)) = keysA depth ++ [dep] :=
        keysA_setA_of_not_mem _ _ _ hdm
      refine ⟨depth', dep :: anew', ?_, ?_, ?_, ?_, ?_, ?_, ?_, ?_⟩
      · rw [bfsFold, if_neg hdep, hdn]
        show bfsFold node rest (setA depth dep (dn + 1)) (qadd ++ [dep]) =
          Except.ok (depth', qadd ++ dep :: anew')
        rw [hrun]
        simp
      · rw [hkeys, hkeys1]
        simp
      · intro x hx
        rcases List.mem_cons.mp hx with h1 | h1
        · simp [h1]
        · exact List.mem_cons_of_mem _ (hsub h1)
      · intro k hk
        have hkne : k ≠ dep := fun hh => hdm (hh ▸ hk)
        rw [hold k (by rw [hkeys1]; exact List.mem_append_left _ hk),
          getA_setA_ne _ _ _ _ hkne]
      · intro k hk
        rcases List.mem_cons.mp hk with h1 | h1
        · subst h1
          rw [hold k (by rw [hkeys1]; simp), getA_setA_self]
        · exact hnew k h1
      · intro k hk
        rcases List.mem_cons.mp hk with h1 | h1
        · subst h1
          rw [hkeys, hkeys1]
          simp
        · exact hcov k h1
      · refine List.nodup_cons.mpr ⟨?_, hnd⟩
        intro hc
        exact (hfresh dep hc) (by rw [hkeys1]; simp)
      · intro k hk
        rcases List.mem_cons.mp hk with h1 | h1
        · subst h1
          exact hdm
        · intro hc
          exact (hfresh k h1) (by rw [hkeys1]; exact List.mem_append_left _ hc)

end DGVis


namespace DGVis

/-- Master invariant proof for the BFS loop: on a well-formed graph it
terminates within the fuel bound, and its result maps the root to 0,
maps only nodes reachable from the root, and satisfies the edge
inequality `depth[v] ≤ depth[u] + 1` for every mapped `u`. -/
theorem bfsLoop_inv (g : Graph) (hwf : WF g) (r : String) :
    ∀ fuel queue depth lo,
      queue ⊆ keysA depth →
      keysA depth ⊆ keysA g.adj →
      (keysA depth).Nodup →
      queue.Nodup →
      getA depth r = some 0 →
      (∀ x ∈ keysA depth, Relation.ReflTransGen (Edge g) r x) →
      (∀ u, u ∈ keysA depth → u ∉ queue → ∀ ns, getA g.adj u = some ns →
        ∀ v ∈ ns, ∃ du dv, getA depth u = some du ∧ getA depth v = some dv ∧
          dv ≤ du + 1) →
      (∃ q1 q2, queue = q1 ++ q2 ∧ (∀ x ∈ q1, getA depth x = some lo) ∧
        (∀ x ∈ q2, getA depth x = some (lo + 1))) →
      (∀ x ∈ keysA depth, ∃ dx, getA depth x = some dx ∧ dx ≤ lo + 1) →
      queue.length + (g.nodes.length - depth.length) < fuel →
      ∃ d, bfsLoop g fuel queue depth = .ok d ∧
        getA d r = some 0 ∧
        (∀ x ∈ keysA d, Relation.ReflTransGen (Edge g) r x) ∧
        (∀ u, u ∈ keysA d → ∀ ns, getA g.adj u = some ns →
          ∀ v ∈ ns, ∃ du dv, getA d u = some du ∧ getA d v = some dv ∧
            dv ≤ du + 1) := by
  intro fuel
  induction fuel with
  | zero =>
    intro queue depth lo _ _ _ _ _ _ _ _ _ h
    omega
  | succ fuel ih =>
    intro queue depth lo hqk hka hknd hqnd hr0 hreach hproc hlev hbound hμ
    match queue with
    | [] =>
      refine ⟨depth, rfl, hr0, hreach, ?_⟩
      intro u hu ns hns v hv
      exact hproc u hu (by simp) ns hns v hv
    | node :: qrest =>
      have hnk : node ∈ keysA depth := hqk (List.mem_cons_self _ _)
      have hna : node ∈ keysA g.adj := hka hnk
      obtain ⟨ns, hns⟩ := Option.isSome_iff_exists.mp ((getA_isSome_iff _ _).mpr hna)
      obtain ⟨dn, hdn⟩ := Option.isSome_iff_exists.mp ((getA_isSome_iff _ _).mpr hnk)
      obtain ⟨depth', anew, hrun, hkeys, hsub, hold, hnew, hcov, hand, hfresh⟩ :=
        bfsFold_spec node ns depth [] dn hdn
      rw [List.nil_append] at hrun
      obtain ⟨q1, q2, hq12, hv1, hv2⟩ := hlev
      -- where the popped node sits in the two-level queue structure
      have hdncase : (∃ q1rest, q1 = node :: q1rest ∧ dn = lo) ∨
          (q1 = [] ∧ q2 = node :: qrest ∧ dn = lo + 1) := by
        cases q1 with
        | nil =>
          right
          have hq2 : q2 = node :: qrest := by simpa using hq12.symm
          refine ⟨rfl, hq2, ?_⟩
          have h2 := hv2 node (by rw [hq2]; exact List.mem_cons_self _ _)
          rw [hdn] at h2
          exact Option.some.inj h2
        | cons n1 q1rest =>
          left
          rw [List.cons_append] at hq12
          have he1 : node = n1 := (List.cons.inj hq12).1
          refine ⟨q1rest, by rw [he1], ?_⟩
          have h1 := hv1 node (by rw [← he1]; exact List.mem_cons_self _ _)
          rw [hdn] at h1
          exact Option.some.inj h1
      have hlodn : lo ≤ dn := by
        rcases hdncase with ⟨_, _, h⟩ | ⟨_, _, h⟩ <;> omega
      -- shared invariant transfers
      have hqk' : qrest ++ anew ⊆ keysA depth' := by
        intro x hx
        rw [hkeys]
        rcases List.mem_append.mp hx with h1 | h1
        · exact List.mem_append_left _ (hqk (List.mem_cons_of_mem _ h1))
        · exact List.mem_append_right _ h1
      have hka' : keysA depth' ⊆ keysA g.adj := by
        rw [hkeys]
        intro x hx
        rcases List.mem_append.mp hx with h1 | h1
        · exact hka h1
        · exact dst_mem_adj_keys g hwf x (nbrs_subset_dstsAll g node ns hns (hsub h1))
      have hknd' : (keysA depth').Nodup := by
        rw [hkeys]
        exact List.Nodup.append hknd hand (fun a ha hb => hfresh a hb ha)
      have hqnd' : (qrest ++ anew).Nodup := by
        refine List.Nodup.append (hqnd.of_cons) hand ?_
        intro a ha hb
        exact hfresh a hb (hqk (List.mem_cons_of_mem _ ha))
      have hrk : r ∈ keysA depth := by
        rw [mem_keysA_iff_getA, hr0]
        rfl
      have hr0' : getA depth' r = some 0 := by
        rw [hold r hrk]
        exact hr0
      have hreach' : ∀ x ∈ keysA depth', Relation.ReflTransGen (Edge g) r x := by
        intro x hx
        rw [hkeys] at hx
        rcases List.mem_append.mp hx with h1 | h1
        · exact hreach x h1
        · exact Relation.ReflTransGen.tail (hreach node hnk) ⟨ns, hns, hsub h1⟩
      have hbound_dn : ∀ x ∈ keysA depth, ∃ dx, getA depth x = some dx ∧ dx ≤ dn + 1 := by
        intro x hx
        obtain ⟨dx, hdx, hle⟩ := hbound x hx
        exact ⟨dx, hdx, by omega⟩
      have hproc' : ∀ u, u ∈ keysA depth' → u ∉ qrest ++ anew →
          ∀ ns0, getA g.adj u = some ns0 →
          ∀ v ∈ ns0, ∃ du dv, getA depth' u = some du ∧ getA depth' v = some dv ∧
            dv ≤ du + 1 := by
        intro u hu hnq ns0 hns0 v hv
        rw [hkeys] at hu
        rcases List.mem_append.mp hu with hu1 | hu1
        swap
        · exact absurd (List.mem_append_right qrest hu1) hnq
        · by_cases hun : u = node
          · subst hun
            have hns0' : ns0 = ns := by
              rw [hns] at hns0
              exact (Option.some.inj hns0).symm
            subst hns0'
            refine ⟨dn, ?_⟩
            have hvk : v ∈ keysA depth' := hcov v hv
            rw [hkeys] at hvk
            rcases List.mem_append.mp hvk with hv1' | hv1'
            · obtain ⟨dv, hdv, hle⟩ := hbound_dn v hv1'
              exact ⟨dv, by rw [hold u hu1]; exact hdn, by rw [hold v hv1']; exact hdv, hle⟩
            · exact ⟨dn + 1, by rw [hold u hu1]; exact hdn, hnew v hv1', le_refl _⟩
          · have hnq1 : u ∉ (node :: qrest) := by
              intro hc
              rcases List.mem_cons.mp hc with h1 | h1
              · exact hun h1
              · exact hnq (List.mem_append_left _ h1)
            obtain ⟨du, dv, h1, h2, h3⟩ := hproc u hu1 hnq1 ns0 hns0 v hv
            have hvk : v ∈ keysA depth := by
              rw [mem_keysA_iff_getA, h2]
              rfl
            exact ⟨du, dv, by rw [hold u hu1]; exact h1, by rw [hold v hvk]; exact h2, h3⟩
      have hdlen : depth'.length = depth.length + anew.length := by
        have h1 : (keysA depth').length = (keysA depth).length + anew.length := by
          rw [hkeys, List.length_append]
        rwa [keysA_length, keysA_length] at h1
      have hdle : depth'.length ≤ g.nodes.length := by
        have h1 := nodup_subset_length hknd' hka'
        have h2 : (keysA g.adj).length = g.nodes.length := by
          rw [hwf.1, keysA_length]
        rw [keysA_length] at h1
        omega
      have hμ' : (qrest ++ anew).length + (g.nodes.length - depth'.length) < fuel := by
        rw [List.length_append]
        simp only [List.length_cons] at hμ
        omega
      have hstep : bfsLoop g (fuel + 1) (node :: qrest) depth =
          bfsLoop g fuel (qrest ++ anew) depth' := by
        rw [bfsLoop]
        simp only [Graph.neighbors, hns]
        rw [hrun]
      rcases hdncase with ⟨q1rest, hq1, hdnlo⟩ | ⟨hq1, hq2, hdnlo⟩
      · -- popped from the front level: stay at level `lo`
        have hsplit : qrest = q1rest ++ q2 := by
          rw [hq1, List.cons_append] at hq12
          exact (List.cons.inj hq12).2
        have hlev' : ∃ a b, qrest ++ anew = a ++ b ∧
            (∀ x ∈ a, getA depth' x = some lo) ∧
            (∀ x ∈ b, getA depth' x = some (lo + 1)) := by
          refine ⟨q1rest, q2 ++ anew, by rw [hsplit, List.append_assoc], ?_, ?_⟩
          · intro x hx
            have hxk : x ∈ keysA depth := hqk (List.mem_cons_of_mem _ (by rw [hsplit]; exact List.mem_append_left _ hx))
            rw [hold x hxk]
            exact hv1 x (by rw [hq1]; exact List.mem_cons_of_mem _ hx)
          · intro x hx
            rcases List.mem_append.mp hx with h1 | h1
            · have hxk : x ∈ keysA depth := hqk (List.mem_cons_of_mem _ (by rw [hsplit]; exact List.mem_append_right _ h1))
              rw [hold x hxk]
              exact hv2 x h1
            · rw [hnew x h1, hdnlo]
        have hbound' : ∀ x ∈ keysA depth', ∃ dx, getA depth' x = some dx ∧ dx ≤ lo + 1 := by
          intro x hx
          rw [hkeys] at hx
          rcases List.mem_append.mp hx with h1 | h1
          · obtain ⟨dx, hdx, hle⟩ := hbound x h1
            exact ⟨dx, by rw [hold x h1]; exact hdx, hle⟩
          · exact ⟨dn + 1, hnew x h1, by omega⟩
        obtain ⟨d, hd, hc0, hcr, hcp⟩ :=
          ih (qrest ++ anew) depth' lo hqk' hka' hknd' hqnd' hr0' hreach' hproc' hlev' hbound' hμ'
        exact ⟨d, by rw [hstep]; exact hd, hc0, hcr, hcp⟩
      · -- front level exhausted: advance to level `lo + 1`
        have hlev' : ∃ a b, qrest ++ anew = a ++ b ∧
            (∀ x ∈ a, getA depth' x = some (lo + 1)) ∧
            (∀ x ∈ b, getA depth' x = some (lo + 1 + 1)) := by
          refine ⟨qrest, anew, rfl, ?_, ?_⟩
          · intro x hx
            have hxk : x ∈ keysA depth := hqk (List.mem_cons_of_mem _ hx)
            rw [hold x hxk]
            exact hv2 x (by rw [hq2]; exact List.mem_cons_of_mem _ hx)
          · intro x hx
            rw [hnew x hx, hdnlo]
        have hbound' : ∀ x ∈ keysA depth', ∃ dx, getA depth' x = some dx ∧
            dx ≤ lo + 1 + 1 := by
          intro x hx
          rw [hkeys] at hx
          rcases List.mem_append.mp hx with h1 | h1
          · obtain ⟨dx, hdx, hle⟩ := hbound x h1
            exact ⟨dx, by rw [hold x h1]; exact hdx, by omega⟩
          · exact ⟨dn + 1, hnew x h1, by omega⟩
        obtain ⟨d, hd, hc0, hcr, hcp⟩ :=
          ih (qrest ++ anew) depth' (lo + 1) hqk' hka' hknd' hqnd' hr0' hreach' hproc' hlev' hbound' hμ'
        exact ⟨d, by rw [hstep]; exact hd, hc0, hcr, hcp⟩

end DGVis

namespace DGVis

/-- BFS from an existing root succeeds and satisfies the depth contract. -/
theorem depthRun_spec (g : Graph) (hwf : WF g) (r : String)
    (hr : g.has_node r = true) :
    ∃ d, depthRun g r = .ok d ∧
      getA d r = some 0 ∧
      (∀ x ∈ keysA d, Relation.ReflTransGen (Edge g) r x) ∧
      (∀ u, u ∈ keysA d → ∀ ns, getA g.adj u = some ns →
        ∀ v ∈ ns, ∃ du dv, getA d u = some du ∧ getA d v = some dv ∧
          dv ≤ du + 1) := by
  have hrk : r ∈ keysA g.nodes := by
    rw [mem_keysA_iff_getA]
    exact hr
  have hn1 : 1 ≤ g.nodes.length := by
    have : (keysA g.nodes).length ≠ 0 := by
      intro hc
      rw [List.length_eq_zero] at hc
      rw [hc] at hrk
      simp at hrk
    rw [keysA_length] at this
    omega
  rw [depthRun, if_pos hr]
  exact bfsLoop_inv g hwf r (bfsFuel g) [r] [(r, 0)] 0
    (by intro x hx; simpa [keysA] using List.mem_singleton.mp hx)
    (by intro x hx
        have : x = r := by simpa [keysA] using hx
        subst this
        exact node_mem_adj_keys g hwf x hrk)
    (by simp [keysA])
    (by simp)
    (by simp [getA])
    (by intro x hx
        have : x = r := by simpa [keysA] using hx
        subst this
        exact Relation.ReflTransGen.refl)
    (by intro u hu hnq
        have : u = r := by simpa [keysA] using hu
        subst this
        simp at hnq)
    ⟨[r], [], rfl, by simp [getA], by simp⟩
    (by intro x hx
        have : x = r := by simpa [keysA] using hx
        subst this
        exact ⟨0, by simp [getA], by omega⟩)
    (by simp only [List.length_singleton, List.length_cons, List.length_nil, bfsFuel]
        omega)

/-- Claim C6: for every well-formed graph and existing root r,
`compute_depth(G, r)` succeeds; its result maps r to 0, satisfies
`depth[v] ≤ depth[u] + 1` for every edge u→v with both endpoints in the
mapping, and contains no node that is unreachable from r. -/
theorem claim_C6 (g : Graph) (hwf : WF g) (r : String)
    (hr : g.has_node r = true) :
    ∃ d, compute_depth g (some r) = .ok d ∧
      getA d r = some 0 ∧
      (∀ u v, Edge g u v → u ∈ keysA d → v ∈ keysA d →
        ∃ du dv, getA d u = some du ∧ getA d v = some dv ∧ dv ≤ du + 1) ∧
      (∀ x, ¬ Relation.ReflTransGen (Edge g) r x → x ∉ keysA d) := by
  obtain ⟨d, hd, h0, hre, hpr⟩ := depthRun_spec g hwf r hr
  refine ⟨d, hd, h0, ?_, ?_⟩
  · intro u v he hu _
    obtain ⟨ns, hns, hv⟩ := he
    exact hpr u hu ns hns v hv
  · intro x hx hc
    exact hx (hre x hc)

/-- Claim C6 witness: the diamond graph with root `app`. -/
theorem claim_C6_witness :
    WF (build_graph [("app", ["a", "b"]), ("a", ["c"]), ("b", ["c"]), ("c", [])]) ∧
    (build_graph [("app", ["a", "b"]), ("a", ["c"]), ("b", ["c"]),
        ("c", [])]).has_node "app" = true ∧
    (∃ d, compute_depth (build_graph [("app", ["a", "b"]), ("a", ["c"]), ("b", ["c"]),
        ("c", [])]) (some "app") = .ok d ∧
      getA d "app" = some 0 ∧
      (∀ u v, Edge (build_graph [("app", ["a", "b"]), ("a", ["c"]), ("b", ["c"]),
          ("c", [])]) u v → u ∈ keysA d → v ∈ keysA d →
        ∃ du dv, getA d u = some du ∧ getA d v = some dv ∧ dv ≤ du + 1) ∧
      (∀ x, ¬ Relation.ReflTransGen (Edge (build_graph [("app", ["a", "b"]),
          ("a", ["c"]), ("b", ["c"]), ("c", [])])) "app" x → x ∉ keysA d)) :=
  ⟨by decide, by decide,
    claim_C6 (build_graph [("app", ["a", "b"]), ("a", ["c"]), ("b", ["c"]), ("c", [])])
      (by decide) "app" (by decide)⟩

/-- Claim C5: on a well-formed graph, a node name absent from the graph
makes the neighbor query, `compute_depth` with that explicit root, and
`transitive_deps` with that target all fail with the NotFound condition;
when the name is present, none of the three fails. -/
theorem claim_C5 (g : Graph) (hwf : WF g) (n : String) :
    (g.has_node n = false →
      g.neighbors n = none ∧
      compute_depth g (some n) = .error .notFound ∧
      transitive_deps g n = .error .notFound) ∧
    (g.has_node n = true →
      (∃ l, g.neighbors n = some l) ∧
      (∃ d, compute_depth g (some n) = .ok d) ∧
      (∃ s, transitive_deps g n = .ok s)) := by
  constructor
  · intro habs
    have hnn : n ∉ keysA g.nodes := by
      rw [mem_keysA_iff_getA]
      rw [Graph.has_node] at habs
      simp [habs]
    refine ⟨?_, ?_, ?_⟩
    · rw [Graph.neighbors, getA_eq_none_iff, hwf.1]
      exact hnn
    · rw [compute_depth, depthRun, if_neg (by simp [habs])]
    · rw [transitive_deps, if_neg (by simp [habs])]
  · intro hpres
    refine ⟨?_, ?_, ?_⟩
    · rw [Graph.neighbors, ← Option.isSome_iff_exists, getA_isSome_iff, hwf.1,
        mem_keysA_iff_getA]
      exact hpres
    · obtain ⟨d, hd, _⟩ := depthRun_spec g hwf n hpres
      exact ⟨d, by rw [compute_depth]; exact hd⟩
    · exact transitive_deps_ok g hwf n hpres

/-- Claim C5 witness: the diamond graph, once with the absent name
`ghost` and once with the present name `app`. -/
theorem claim_C5_witness :
    WF (build_graph [("app", ["a", "b"]), ("a", ["c"]), ("b", ["c"]), ("c", [])]) ∧
    (((build_graph [("app", ["a", "b"]), ("a", ["c"]), ("b", ["c"]),
          ("c", [])]).has_node "ghost" = false →
        (build_graph [("app", ["a", "b"]), ("a", ["c"]), ("b", ["c"]),
          ("c", [])]).neighbors "ghost" = none ∧
        compute_depth (build_graph [("app", ["a", "b"]), ("a", ["c"]), ("b", ["c"]),
          ("c", [])]) (some "ghost") = .error .notFound ∧
        transitive_deps (build_graph [("app", ["a", "b"]), ("a", ["c"]), ("b", ["c"]),
          ("c", [])]) "ghost" = .error .notFound) ∧
      ((build_graph [("app", ["a", "b"]), ("a", ["c"]), ("b", ["c"]),
          ("c", [])]).has_node "ghost" = true →
        (∃ l, (build_graph [("app", ["a", "b"]), ("a", ["c"]), ("b", ["c"]),
          ("c", [])]).neighbors "ghost" = some l) ∧
        (∃ d, compute_depth (build_graph [("app", ["a", "b"]), ("a", ["c"]), ("b", ["c"]),
          ("c", [])]) (some "ghost") = .ok d) ∧
        (∃ s, transitive_deps (build_graph [("app", ["a", "b"]), ("a", ["c"]), ("b", ["c"]),
          ("c", [])]) "ghost" = .ok s))) ∧
    (((build_graph [("app", ["a", "b"]), ("a", ["c"]), ("b", ["c"]),
          ("c", [])]).has_node "app" = false →
        (build_graph [("app", ["a", "b"]), ("a", ["c"]), ("b", ["c"]),
          ("c", [])]).neighbors "app" = none ∧
        compute_depth (build_graph [("app", ["a", "b"]), ("a", ["c"]), ("b", ["c"]),
          ("c", [])]) (some "app") = .error .notFound ∧
        transitive_deps (build_graph [("app", ["a", "b"]), ("a", ["c"]), ("b", ["c"]),
          ("c", [])]) "app" = .error .notFound) ∧
      ((build_graph [("app", ["a", "b"]), ("a", ["c"]), ("b", ["c"]),
          ("c", [])]).has_node "app" = true →
        (∃ l, (build_graph [("app", ["a", "b"]), ("a", ["c"]), ("b", ["c"]),
          ("c", [])]).neighbors "app" = some l) ∧
        (∃ d, compute_depth (build_graph [("app", ["a", "b"]), ("a", ["c"]), ("b", ["c"]),
          ("c", [])]) (some "app") = .ok d) ∧
        (∃ s, transitive_deps (build_graph [("app", ["a", "b"]), ("a", ["c"]), ("b", ["c"]),
          ("c", [])]) "app" = .ok s))) :=
  ⟨by decide,
    claim_C5 (build_graph [("app", ["a", "b"]), ("a", ["c"]), ("b", ["c"]), ("c", [])])
      (by decide) "ghost",
    claim_C5 (build_graph [("app", ["a", "b"]), ("a", ["c"]), ("b", ["c"]), ("c", [])])
      (by decide) "app"⟩

end DGVis

namespace DGVis

/-! ### Kahn's algorithm: counting lemmas -/

theorem mem_outList_iff_Edge (g : Graph) (u v : String) :
    v ∈ outList g u ↔ Edge g u v := by
  rw [outList, Edge]
  cases h : getA g.adj u with
  | none =>
    simp only [Option.getD_none, List.not_mem_nil, false_iff]
    rintro ⟨l, hl, _⟩
    exact Option.noConfusion hl
  | some l =>
    simp only [Option.getD_some]
    constructor
    · intro hv
      exact ⟨l, rfl, hv⟩
    · rintro ⟨l', hl', hv⟩
      rw [Option.some.injEq] at hl'
      exact hl' ▸ hv

theorem getA_of_mem_nodup {α : Type} (m : AList α) (k : String) (x : α)
    (hnd : (keysA m).Nodup) (h : (k, x) ∈ m) : getA m k = some x := by
  induction m with
  | nil => simp at h
  | cons hd tl ih =>
    obtain ⟨k1, v1⟩ := hd
    rw [keysA_cons] at hnd
    rcases List.mem_cons.mp h with h1 | h1
    · rw [Prod.mk.injEq] at h1
      simp [getA, h1.1, h1.2]
    · have hk : k ∈ keysA tl := by
        rw [mem_keysA_iff_getA, ih (List.nodup_cons.mp hnd).2 h1]
        rfl
      have hne : k1 ≠ k := fun he => (List.nodup_cons.mp hnd).1 (he ▸ hk)
      rw [getA, if_neg hne]
      exact ih (List.nodup_cons.mp hnd).2 h1

theorem sumPos_setA (m : AList Int) (k : String) (d w : Int)
    (h : getA m k = some d) :
    sumPos (setA m k w) + d.toNat = sumPos m + w.toNat := by
  induction m with
  | nil => simp [getA] at h
  | cons hd tl ih =>
    obtain ⟨k1, v1⟩ := hd
    by_cases hh : k1 = k
    · subst hh
      rw [getA, if_pos rfl] at h
      rw [Option.some.injEq] at h
      subst h
      have hset : setA ((k1, v1) :: tl) k1 w = (k1, w) :: tl := by
        simp [setA]
      rw [hset]
      simp only [sumPos, List.map_cons, List.sum_cons]
      omega
    · rw [getA, if_neg hh] at h
      simp only [setA, if_neg hh, sumPos, List.map_cons, List.sum_cons]
      have := ih h
      simp only [sumPos] at this
      omega

theorem perm_order_extra {order N : List String} (hnd : order.Nodup)
    (hsub : order ⊆ N) : ∃ extra, List.Perm N (order ++ extra) := by
  obtain ⟨l, hlp, hls⟩ := hnd.subperm hsub
  obtain ⟨extra, he⟩ := List.Sublist.exists_perm_append hls
  exact ⟨extra, he.trans (hlp.append_right extra)⟩

theorem indegFrom_append (g : Graph) (us1 us2 : List String) (v : String) :
    indegFrom g (us1 ++ us2) v = indegFrom g us1 v + indegFrom g us2 v := by
  simp [indegFrom]

theorem indegFrom_cons (g : Graph) (u : String) (us : List String) (v : String) :
    indegFrom g (u :: us) v = (outList g u).count v + indegFrom g us v := by
  simp [indegFrom]

theorem indegFrom_perm (g : Graph) {us us' : List String} (h : List.Perm us us')
    (v : String) : indegFrom g us v = indegFrom g us' v :=
  (h.map (fun u => (outList g u).count v)).sum_eq

/-- If every in-edge source of `v` lies in `order` (a duplicate-free
sub-collection of the duplicate-free source list `N`), the in-degree of
`v` from `N` equals that from `order`. -/
theorem indegFrom_eq_of_closed (g : Graph) {order N : List String} (v : String)
    (hN : N.Nodup) (hnd : order.Nodup) (hsub : order ⊆ N)
    (hclosed : ∀ u, Edge g u v → u ∈ order) :
    indegFrom g N v = indegFrom g order v := by
  obtain ⟨extra, hperm⟩ := perm_order_extra hnd hsub
  rw [indegFrom_perm g hperm v, indegFrom_append]
  have hdisj : order.Disjoint extra := by
    have h1 : (order ++ extra).Nodup := (hperm.nodup_iff).mp hN
    exact (List.nodup_append.mp h1).2.2
  have hz : indegFrom g extra v = 0 := by
    rw [indegFrom]
    apply List.sum_eq_zero
    intro x hx
    rw [List.mem_map] at hx
    obtain ⟨u, hu, hux⟩ := hx
    rw [← hux, List.count_eq_zero]
    intro hc
    have he : Edge g u v := (mem_outList_iff_Edge g u v).mp hc
    exact hdisj (hclosed u he) hu
  omega

/-- Counter positivity: the in-degree from `order` never exceeds that
from the full duplicate-free source list `N`. -/
theorem indegFrom_le (g : Graph) {order N : List String} (v : String)
    (hN : N.Nodup) (hnd : order.Nodup) (hsub : order ⊆ N) :
    indegFrom g order v ≤ indegFrom g N v := by
  obtain ⟨extra, hperm⟩ := perm_order_extra hnd hsub
  rw [indegFrom_perm g hperm v, indegFrom_append]
  omega

/-- If the in-degree from `N` strictly exceeds that from `order`, some
source outside `order` (but in `N`) has an edge into `v`. -/
theorem exists_outside_source (g : Graph) {order N : List String} (v : String)
    (hN : N.Nodup) (hnd : order.Nodup) (hsub : order ⊆ N)
    (hlt : indegFrom g order v < indegFrom g N v) :
    ∃ u, u ∈ N ∧ u ∉ order ∧ Edge g u v := by
  obtain ⟨extra, hperm⟩ := perm_order_extra hnd hsub
  rw [indegFrom_perm g hperm v, indegFrom_append] at hlt
  have hx : 0 < indegFrom g extra v := by omega
  rw [indegFrom] at hx
  obtain ⟨t, ht, htpos⟩ : ∃ t ∈ extra.map (fun u => (outList g u).count v), 0 < t := by
    by_contra hall
    push_neg at hall
    have : (extra.map (fun u => (outList g u).count v)).sum = 0 :=
      List.sum_eq_zero (fun x hx2 => Nat.le_zero.mp (hall x hx2))
    omega
  rw [List.mem_map] at ht
  obtain ⟨u, hu, hut⟩ := ht
  have hdisj : order.Disjoint extra := by
    have h1 : (order ++ extra).Nodup := (hperm.nodup_iff).mp hN
    exact (List.nodup_append.mp h1).2.2
  refine ⟨u, ?_, fun ho => hdisj ho hu, ?_⟩
  · exact hperm.mem_iff.mpr (List.mem_append_right _ hu)
  · rw [← mem_outList_iff_Edge]
    rw [← hut] at htpos
    exact List.count_pos_iff.mp htpos

end DGVis

namespace DGVis

/-! ### Kahn's algorithm: initialization and decrement passes -/

theorem bumpAll_spec : ∀ (ns : List String) (m : AList Int),
    (∀ x ∈ ns, x ∈ keysA m) →
    keysA (bumpAll ns m) = keysA m ∧
    (∀ v c, getA m v = some c →
      getA (bumpAll ns m) v = some (c + (ns.count v : Int))) ∧
    sumPos (bumpAll ns m) ≤ sumPos m + ns.length := by
  intro ns
  induction ns with
  | nil =>
    intro m _
    refine ⟨rfl, ?_, by simp [bumpAll]⟩
    intro v c hc
    simpa [bumpAll] using hc
  | cons dep rest ih =>
    intro m hks
    have hdk : dep ∈ keysA m := hks dep (List.mem_cons_self _ _)
    obtain ⟨cd, hcd⟩ := Option.isSome_iff_exists.mp ((getA_isSome_iff _ _).mpr hdk)
    have hstep : bumpAll (dep :: rest) m = bumpAll rest (setA m dep (cd + 1)) := by
      rw [bumpAll, hcd]
      rfl
    have hkeys1 : keysA (setA m dep (cd + 1)) = keysA m := keysA_setA_of_mem _ _ _ hdk
    obtain ⟨ihk, ihv, ihs⟩ := ih (setA m dep (cd + 1))
      (fun x hx => by rw [hkeys1]; exact hks x (List.mem_cons_of_mem _ hx))
    refine ⟨by rw [hstep, ihk, hkeys1], ?_, ?_⟩
    · intro v c hc
      rw [hstep]
      by_cases hv : v = dep
      · subst hv
        rw [hcd] at hc
        rw [Option.some.injEq] at hc
        subst hc
        have h2 := ihv v (cd + 1) (getA_setA_self _ _ _)
        rw [h2, List.count_cons_self]
        congr 1
        push_cast
        ring
      · have h1 : getA (setA m dep (cd + 1)) v = some c := by
          rw [getA_setA_ne _ _ _ _ hv]
          exact hc
        rw [ihv v c h1, List.count_cons_of_ne hv]
    · have h2 := sumPos_setA m dep cd (cd + 1) hcd
      have h3 : (cd + 1).toNat ≤ cd.toNat + 1 := by omega
      rw [hstep]
      calc sumPos (bumpAll rest (setA m dep (cd + 1)))
          ≤ sumPos (setA m dep (cd + 1)) + rest.length := ihs
        _ ≤ sumPos m + 1 + rest.length := by omega
        _ = sumPos m + (dep :: rest).length := by simp [List.length_cons]; omega

theorem initInDeg_spec (g : Graph) : ∀ (names : List String) (m : AList Int),
    (∀ u ∈ names, ∀ x ∈ outList g u, x ∈ keysA m) →
    (∀ u ∈ names, u ∈ keysA g.adj) →
    ∃ m', initInDeg g names m = .ok m' ∧
      keysA m' = keysA m ∧
      (∀ v c, getA m v = some c →
        getA m' v = some (c + (indegFrom g names v : Int))) ∧
      sumPos m' ≤ sumPos m + (names.map (fun u => (outList g u).length)).sum := by
  intro names
  induction names with
  | nil =>
    intro m _ _
    refine ⟨m, rfl, rfl, ?_, by simp⟩
    intro v c hc
    simpa [indegFrom] using hc
  | cons node rest ih =>
    intro m hdst hadj
    have hna : node ∈ keysA g.adj := hadj node (List.mem_cons_self _ _)
    obtain ⟨ns, hns⟩ := Option.isSome_iff_exists.mp ((getA_isSome_iff _ _).mpr hna)
    have hout : outList g node = ns := by
      rw [outList, hns]
      rfl
    obtain ⟨bk, bv, bs⟩ := bumpAll_spec ns m
      (fun x hx => hdst node (List.mem_cons_self _ _) x (by rw [hout]; exact hx))
    obtain ⟨m', hrun, hk, hv, hs⟩ := ih (bumpAll ns m)
      (fun u hu x hx => by rw [bk]; exact hdst u (List.mem_cons_of_mem _ hu) x hx)
      (fun u hu => hadj u (List.mem_cons_of_mem _ hu))
    refine ⟨m', ?_, by rw [hk, bk], ?_, ?_⟩
    · rw [initInDeg]
      simp only [Graph.neighbors, hns]
      exact hrun
    · intro v c hc
      have h1 := bv v c hc
      have h2 := hv v _ h1
      rw [h2, indegFrom_cons, hout]
      congr 1
      push_cast
      ring
    · calc sumPos m' ≤ sumPos (bumpAll ns m)
            + (rest.map (fun u => (outList g u).length)).sum := hs
        _ ≤ sumPos m + ns.length + (rest.map (fun u => (outList g u).length)).sum := by
            omega
        _ = sumPos m + ((node :: rest).map (fun u => (outList g u).length)).sum := by
            rw [List.map_cons, List.sum_cons, hout]
            omega

theorem sum_outList_keys : ∀ (l : AList (List String)), (keysA l).Nodup →
    ((keysA l).map (fun u => ((getA l u).getD []).length)).sum =
      (l.map (fun p => p.2.length)).sum := by
  intro l
  induction l with
  | nil => simp [keysA]
  | cons hd tl ih =>
    obtain ⟨k, lst⟩ := hd
    intro hnd
    rw [keysA_cons] at hnd
    obtain ⟨hk, htl⟩ := List.nodup_cons.mp hnd
    rw [keysA_cons, List.map_cons, List.sum_cons, List.map_cons, List.sum_cons]
    have hhd : getA ((k, lst) :: tl) k = some lst := by
      simp [getA]
    rw [hhd]
    have hcong : (keysA tl).map (fun u => ((getA ((k, lst) :: tl) u).getD []).length) =
        (keysA tl).map (fun u => ((getA tl u).getD []).length) := by
      apply List.map_congr_left
      intro u hu
      have hne : k ≠ u := fun he => hk (he ▸ hu)
      rw [getA, if_neg hne]
    rw [hcong, ih htl]
    rfl

theorem kahnDec_spec : ∀ (ns : List String) (m : AList Int) (qa : List String),
    ns.Nodup → (∀ x ∈ ns, x ∈ keysA m) →
    ∃ m' qnew, kahnDec ns m qa = .ok (m', qa ++ qnew) ∧
      keysA m' = keysA m ∧
      (∀ v c, getA m v = some c →
        getA m' v = some (c - (ns.count v : Int))) ∧
      sumPos m' + qnew.length ≤ sumPos m ∧
      qnew ⊆ ns ∧ qnew.Nodup ∧
      (∀ v, v ∈ qnew ↔ (v ∈ ns ∧ getA m v = some 1)) := by
  intro ns
  induction ns with
  | nil =>
    intro m qa _ _
    refine ⟨m, [], by simp [kahnDec], rfl, ?_, by simp, by simp, by simp, by simp⟩
    intro v c hc
    simpa using hc
  | cons dep rest ih =>
    intro m qa hnd hks
    obtain ⟨hdnr, hrnd⟩ := List.nodup_cons.mp hnd
    have hdk : dep ∈ keysA m := hks dep (List.mem_cons_self _ _)
    obtain ⟨d, hd⟩ := Option.isSome_iff_exists.mp ((getA_isSome_iff _ _).mpr hdk)
    have hkeys1 : keysA (setA m dep (d - 1)) = keysA m := keysA_setA_of_mem _ _ _ hdk
    obtain ⟨m', qnew', hrun, hk, hv, hs, hsub, hqnd, hmem⟩ :=
      ih (setA m dep (d - 1)) (if d - 1 = 0 then qa ++ [dep] else qa) hrnd
        (fun x hx => by rw [hkeys1]; exact hks x (List.mem_cons_of_mem _ hx))
    have hstep : kahnDec (dep :: rest) m qa =
        kahnDec rest (setA m dep (d - 1)) (if d - 1 = 0 then qa ++ [dep] else qa) := by
      rw [kahnDec, hd]
    have hrcd : rest.count dep = 0 := List.count_eq_zero.mpr hdnr
    have hvdep : ∀ v c, getA m v = some c →
        getA m' v = some (c - ((dep :: rest).count v : Int)) := by
      intro v c hc
      by_cases hve : v = dep
      · subst hve
        rw [hd] at hc
        rw [Option.some.injEq] at hc
        subst hc
        have h2 := hv v (d - 1) (getA_setA_self _ _ _)
        rw [h2, List.count_cons_self, hrcd]
        congr 1
        push_cast
        ring
      · have h1 : getA (setA m dep (d - 1)) v = some c := by
          rw [getA_setA_ne _ _ _ _ hve]
          exact hc
        rw [hv v c h1, List.count_cons_of_ne hve]
    have hsum := sumPos_setA m dep d (d - 1) hd
    by_cases hd1 : d - 1 = 0
    · rw [if_pos hd1] at hrun
      refine ⟨m', dep :: qnew', ?_, by rw [hk, hkeys1], hvdep, ?_, ?_, ?_, ?_⟩
      · rw [hstep, if_pos hd1, hrun]
        simp
      · by_cases hdpos : d = 1
        · subst hdpos
          simp only [List.length_cons]
          omega
        · -- d - 1 = 0 with d ≠ 1 is impossible over ℤ
          omega
      · intro x hx
        rcases List.mem_cons.mp hx with h1 | h1
        · simp [h1]
        · exact List.mem_cons_of_mem _ (hsub h1)
      · refine List.nodup_cons.mpr ⟨fun hc => hdnr (hsub hc), hqnd⟩
      · intro v
        constructor
        · intro hvq
          rcases List.mem_cons.mp hvq with h1 | h1
          · subst h1
            have hde : d = 1 := by omega
            exact ⟨List.mem_cons_self _ _, by rw [hd, hde]⟩
          · obtain ⟨h2, h3⟩ := (hmem v).mp h1
            have hvne : v ≠ dep := fun he => hdnr (he ▸ h2)
            rw [getA_setA_ne _ _ _ _ hvne] at h3
            exact ⟨List.mem_cons_of_mem _ h2, h3⟩
        · rintro ⟨h2, h3⟩
          rcases List.mem_cons.mp h2 with h4 | h4
          · subst h4
            exact List.mem_cons_self _ _
          · have hvne : v ≠ dep := fun he => hdnr (he ▸ h4)
            refine List.mem_cons_of_mem _ ((hmem v).mpr ⟨h4, ?_⟩)
            rw [getA_setA_ne _ _ _ _ hvne]
            exact h3
    · rw [if_neg hd1] at hrun
      refine ⟨m', qnew', ?_, by rw [hk, hkeys1], hvdep, ?_, ?_, hqnd, ?_⟩
      · rw [hstep, if_neg hd1, hrun]
      · omega
      · exact fun x hx => List.mem_cons_of_mem _ (hsub hx)
      · intro v
        rw [hmem v]
        constructor
        · rintro ⟨h2, h3⟩
          have hvne : v ≠ dep := fun he => hdnr (he ▸ h2)
          rw [getA_setA_ne _ _ _ _ hvne] at h3
          exact ⟨List.mem_cons_of_mem _ h2, h3⟩
        · rintro ⟨h2, h3⟩
          rcases List.mem_cons.mp h2 with h4 | h4
          · subst h4
            rw [hd] at h3
            rw [Option.some.injEq] at h3
            omega
          · have hvne : v ≠ dep := fun he => hdnr (he ▸ h4)
            refine ⟨h4, ?_⟩
            rw [getA_setA_ne _ _ _ _ hvne]
            exact h3

end DGVis

namespace DGVis

theorem edge_src_mem (g : Graph) (u v : String) (h : Edge g u v) :
    u ∈ keysA g.adj := by
  obtain ⟨l, hl, _⟩ := h
  rw [mem_keysA_iff_getA, hl]
  rfl

theorem edge_dst_mem (g : Graph) (hwf : WF g) (u v : String) (h : Edge g u v) :
    v ∈ keysA g.nodes := by
  obtain ⟨l, hl, hv⟩ := h
  exact hwf.2.2.1 (u, l) (getA_mem _ _ _ hl) v hv

/-- If the in-degree from `N` is matched by the in-degree from the
sub-collection `order`, every in-edge source lies in `order`. -/
theorem closed_of_indeg_eq (g : Graph) {order N : List String} (v : String)
    (hN : N.Nodup) (hnd : order.Nodup) (hsub : order ⊆ N)
    (heq : indegFrom g N v = indegFrom g order v)
    (hEdgeN : ∀ u, Edge g u v → u ∈ N) :
    ∀ u, Edge g u v → u ∈ order := by
  intro u he
  obtain ⟨extra, hperm⟩ := perm_order_extra hnd hsub
  have hsum : indegFrom g N v = indegFrom g order v + indegFrom g extra v := by
    rw [indegFrom_perm g hperm v, indegFrom_append]
  have hz : indegFrom g extra v = 0 := by omega
  rcases List.mem_append.mp (hperm.mem_iff.mp (hEdgeN u he)) with h1 | h1
  · exact h1
  · exfalso
    have hc : (outList g u).count v = 0 := by
      by_contra hcc
      have h2 : 0 < (outList g u).count v := Nat.pos_of_ne_zero hcc
      have h3 : 0 < indegFrom g extra v := by
        rw [indegFrom]
        calc 0 < (outList g u).count v := h2
          _ ≤ ((extra.map (fun w => (outList g w).count v))).sum := by
            exact List.single_le_sum (fun x _ => Nat.zero_le x) _
              (List.mem_map.mpr ⟨u, h1, rfl⟩)
      omega
    rw [List.count_eq_zero] at hc
    exact hc ((mem_outList_iff_Edge g u v).mpr he)

/-- Master invariant proof of Kahn's `while queue:` loop. -/
theorem kahnLoop_inv (g : Graph) (hwf : WF g) :
    ∀ fuel queue m order,
      keysA m = g.node_names →
      (∀ v ∈ g.node_names, getA m v =
        some ((indegFrom g g.node_names v : Int) - (indegFrom g order v : Int))) →
      order.Nodup → queue.Nodup → (∀ x ∈ order, x ∉ queue) →
      order ⊆ g.node_names → queue ⊆ g.node_names →
      (∀ v, (v ∈ queue ∨ v ∈ order) → ∀ u, Edge g u v → u ∈ order) →
      (∀ v ∈ g.node_names, getA m v = some 0 → v ∈ queue ∨ v ∈ order) →
      order.Pairwise (fun a b => ¬ Edge g b a) →
      (∀ v ∈ order, ¬ Edge g v v) →
      queue.length + sumPos m < fuel →
      ∃ orderF, kahnLoop g fuel queue m order = .ok orderF ∧
        orderF.Nodup ∧ orderF ⊆ g.node_names ∧
        orderF.Pairwise (fun a b => ¬ Edge g b a) ∧
        (∀ v ∈ orderF, ¬ Edge g v v) ∧
        (∀ v ∈ orderF, ∀ u, Edge g u v → u ∈ orderF) ∧
        (∀ v ∈ g.node_names, v ∉ orderF →
          ∃ u, u ∈ g.node_names ∧ u ∉ orderF ∧ Edge g u v) := by
  have hNnd : (g.node_names).Nodup := hwf.2.1
  intro fuel
  induction fuel with
  | zero =>
    intro queue m order _ _ _ _ _ _ _ _ _ _ _ h
    omega
  | succ fuel ih =>
    intro queue m order hA1 hA2 hond hqnd hdisj hosub hqsub hA4 hA5 hA6 hA7 hμ
    match queue with
    | [] =>
      refine ⟨order, rfl, hond, hosub, hA6, hA7, ?_, ?_⟩
      · intro v hv u he
        exact hA4 v (Or.inr hv) u he
      · intro v hvN hvno
        have hc := hA2 v hvN
        have hne : (indegFrom g g.node_names v : Int) - (indegFrom g order v : Int) ≠ 0 := by
          intro h0
          rcases hA5 v hvN (by rw [hc, h0]) with h1 | h1
          · simp at h1
          · exact hvno h1
        have hle := indegFrom_le g v hNnd hond hosub
        have hlt : indegFrom g order v < indegFrom g g.node_names v := by omega
        obtain ⟨u, hu1, hu2, hu3⟩ := exists_outside_source g v hNnd hond hosub hlt
        exact ⟨u, hu1, hu2, hu3⟩
    | node :: qrest =>
      have hnN : node ∈ g.node_names := hqsub (List.mem_cons_self _ _)
      have hna : node ∈ keysA g.adj := node_mem_adj_keys g hwf node hnN
      obtain ⟨ns, hns⟩ := Option.isSome_iff_exists.mp ((getA_isSome_iff _ _).mpr hna)
      have hout : outList g node = ns := by
        rw [outList, hns]
        rfl
      have hnsnd : ns.Nodup := hwf.2.2.2 (node, ns) (getA_mem _ _ _ hns)
      have hnssub : ns ⊆ g.node_names :=
        fun x hx => hwf.2.2.1 (node, ns) (getA_mem _ _ _ hns) x hx
      have hnsm : ∀ x ∈ ns, x ∈ keysA m := fun x hx => by
        rw [hA1]
        exact hnssub hx
      obtain ⟨m', qnew, hrun, hK1, hK2, hK3, hK4, hK5, hK6⟩ :=
        kahnDec_spec ns m [] hnsnd hnsm
      rw [List.nil_append] at hrun
      -- every queued or ordered node currently has counter zero
      have hzero_qo : ∀ v, (v ∈ node :: qrest ∨ v ∈ order) → getA m v = some 0 := by
        intro v hv
        have hvN : v ∈ g.node_names := by
          rcases hv with h1 | h1
          · exact hqsub h1
          · exact hosub h1
        have hcl : ∀ u, Edge g u v → u ∈ order := hA4 v hv
        have heq : indegFrom g g.node_names v = indegFrom g order v :=
          indegFrom_eq_of_closed g v hNnd hond hosub hcl
        rw [hA2 v hvN, heq]
        simp
      -- new-queue members had counter one, so they are fresh
      have hqnew_fresh : ∀ v ∈ qnew, v ∉ (node :: qrest) ∧ v ∉ order := by
        intro v hv
        obtain ⟨hvns, hv1⟩ := (hK6 v).mp hv
        constructor
        · intro hc
          rw [hzero_qo v (Or.inl hc)] at hv1
          rw [Option.some.injEq] at hv1
          omega
        · intro hc
          rw [hzero_qo v (Or.inr hc)] at hv1
          rw [Option.some.injEq] at hv1
          omega
      have hnodeo : node ∉ order := fun hc => hdisj node hc (List.mem_cons_self _ _)
      have hond' : (order ++ [node]).Nodup := by
        rw [List.nodup_append]
        exact ⟨hond, List.nodup_singleton _, by
          intro a ha hb
          rw [List.mem_singleton] at hb
          exact hnodeo (hb ▸ ha)⟩
      have hqnd' : (qrest ++ qnew).Nodup := by
        rw [List.nodup_append]
        refine ⟨hqnd.of_cons, hK5, ?_⟩
        intro a ha hb
        exact (hqnew_fresh a hb).1 (List.mem_cons_of_mem _ ha)
      have hdisj' : ∀ x ∈ order ++ [node], x ∉ qrest ++ qnew := by
        intro x hx hc
        rcases List.mem_append.mp hc with hc1 | hc1
        · rcases List.mem_append.mp hx with hx1 | hx1
          · exact hdisj x hx1 (List.mem_cons_of_mem _ hc1)
          · rw [List.mem_singleton] at hx1
            exact (List.nodup_cons.mp hqnd).1 (hx1 ▸ hc1)
        · rcases List.mem_append.mp hx with hx1 | hx1
          · exact (hqnew_fresh x hc1).2 hx1
          · rw [List.mem_singleton] at hx1
            exact (hqnew_fresh x hc1).1 (hx1 ▸ List.mem_cons_self _ _)
      have hosub' : order ++ [node] ⊆ g.node_names := by
        intro x hx
        rcases List.mem_append.mp hx with h1 | h1
        · exact hosub h1
        · rw [List.mem_singleton] at h1
          exact h1 ▸ hnN
      have hqsub' : qrest ++ qnew ⊆ g.node_names := by
        intro x hx
        rcases List.mem_append.mp hx with h1 | h1
        · exact hqsub (List.mem_cons_of_mem _ h1)
        · exact hnssub (hK4 h1)
      -- updated counter semantics
      have hA2' : ∀ v ∈ g.node_names, getA m' v =
          some ((indegFrom g g.node_names v : Int)
            - (indegFrom g (order ++ [node]) v : Int)) := by
        intro v hvN
        have h1 := hK2 v _ (hA2 v hvN)
        have hz : indegFrom g [] v = 0 := rfl
        rw [h1, indegFrom_append, indegFrom_cons, hz, hout]
        congr 1
        push_cast
        ring
      -- edge-closure for the new state
      have hA4' : ∀ v, (v ∈ qrest ++ qnew ∨ v ∈ order ++ [node]) →
          ∀ u, Edge g u v → u ∈ order ++ [node] := by
        intro v hv u he
        rcases hv with hv | hv
        · rcases List.mem_append.mp hv with h1 | h1
          · exact List.mem_append_left _ (hA4 v (Or.inl (List.mem_cons_of_mem _ h1)) u he)
          · -- fresh queue member: counter dropped to zero
            obtain ⟨hvns, hv1⟩ := (hK6 v).mp h1
            have hvN : v ∈ g.node_names := hnssub hvns
            have hcnt : ns.count v = 1 := by
              have hle1 := List.nodup_iff_count_le_one.mp hnsnd v
              have hge1 := List.count_pos_iff.mpr hvns
              omega
            have hv0 : getA m' v = some 0 := by
              rw [hK2 v 1 hv1, hcnt]
              simp
            have heq : indegFrom g g.node_names v = indegFrom g (order ++ [node]) v := by
              have h2 := hA2' v hvN
              rw [hv0] at h2
              have hle := indegFrom_le g v hNnd hond' hosub'
              rw [Option.some.injEq] at h2
              omega
            exact closed_of_indeg_eq g v hNnd hond' hosub' heq
              (fun u' he' => by
                have h3 := edge_src_mem g u' v he'
                rw [hwf.1] at h3
                exact h3) u he
        · rcases List.mem_append.mp hv with h1 | h1
          · exact List.mem_append_left _ (hA4 v (Or.inr h1) u he)
          · rw [List.mem_singleton] at h1
            subst h1
            exact List.mem_append_left _
              (hA4 v (Or.inl (List.mem_cons_self _ _)) u he)
      have hA5' : ∀ v ∈ g.node_names, getA m' v = some 0 →
          v ∈ qrest ++ qnew ∨ v ∈ order ++ [node] := by
        intro v hvN hv0
        have hold := hA2 v hvN
        have h1 := hK2 v _ hold
        rw [hv0] at h1
        have h1' : (indegFrom g g.node_names v : Int) - (indegFrom g order v : Int)
            - (ns.count v : Int) = 0 := by
          rw [Option.some.injEq] at h1
          omega
        by_cases hcnt : ns.count v = 0
        · have hvz : getA m v = some 0 := by
            rw [hold]
            rw [hcnt] at h1'
            push_cast at h1'
            congr 1
            omega
          rcases hA5 v hvN hvz with h2 | h2
          · rcases List.mem_cons.mp h2 with h3 | h3
            · subst h3
              exact Or.inr (List.mem_append_right _ (List.mem_singleton.mpr rfl))
            · exact Or.inl (List.mem_append_left _ h3)
          · exact Or.inr (List.mem_append_left _ h2)
        · have hvns : v ∈ ns := by
            by_contra hc
            exact hcnt (List.count_eq_zero.mpr hc)
          have hcnt1 : ns.count v = 1 := by
            have hle1 := List.nodup_iff_count_le_one.mp hnsnd v
            omega
          have hv1 : getA m v = some 1 := by
            rw [hold]
            rw [hcnt1] at h1'
            push_cast at h1'
            congr 1
            omega
          exact Or.inl (List.mem_append_right _ ((hK6 v).mpr ⟨hvns, hv1⟩))
      have hA6' : (order ++ [node]).Pairwise (fun a b => ¬ Edge g b a) := by
        rw [List.pairwise_append]
        refine ⟨hA6, List.pairwise_singleton _ _, ?_⟩
        intro a ha b hb
        rw [List.mem_singleton] at hb
        subst hb
        intro he
        exact hnodeo (hA4 a (Or.inr ha) b he)
      have hA7' : ∀ v ∈ order ++ [node], ¬ Edge g v v := by
        intro v hv
        rcases List.mem_append.mp hv with h1 | h1
        · exact hA7 v h1
        · rw [List.mem_singleton] at h1
          subst h1
          intro he
          exact hnodeo (hA4 v (Or.inl (List.mem_cons_self _ _)) v he)
      have hμ' : (qrest ++ qnew).length + sumPos m' < fuel := by
        rw [List.length_append]
        simp only [List.length_cons] at hμ
        omega
      obtain ⟨orderF, hrunF, p1, p2, p3, p4, p5, p6⟩ :=
        ih (qrest ++ qnew) m' (order ++ [node]) (by rw [hK1, hA1]) hA2' hond' hqnd'
          (fun x hx => hdisj' x hx) hosub' hqsub' hA4' hA5' hA6' hA7' hμ'
      refine ⟨orderF, ?_, p1, p2, p3, p4, p5, p6⟩
      rw [kahnLoop]
      simp only [Graph.neighbors, hns]
      rw [hrun]
      exact hrunF

end DGVis

namespace DGVis

theorem sumPos_initMap (names : List String) : sumPos (initMap names 0) = 0 := by
  induction names with
  | nil => rfl
  | cons hd tl ih => simpa [initMap, sumPos] using ih

/-- Running `topological_sort` on a well-formed graph: the Kahn loop
always completes, yielding an order with the invariant properties; the
function then succeeds iff the order covers every node. -/
theorem topo_run (g : Graph) (hwf : WF g) :
    ∃ orderF, topological_sort g =
        (if orderF.length = g.node_count then .ok orderF else .error .cycleError) ∧
      orderF.Nodup ∧ orderF ⊆ g.node_names ∧
      orderF.Pairwise (fun a b => ¬ Edge g b a) ∧
      (∀ v ∈ orderF, ¬ Edge g v v) ∧
      (∀ v ∈ orderF, ∀ u, Edge g u v → u ∈ orderF) ∧
      (∀ v ∈ g.node_names, v ∉ orderF →
        ∃ u, u ∈ g.node_names ∧ u ∉ orderF ∧ Edge g u v) := by
  have hNnd : (g.node_names).Nodup := hwf.2.1
  obtain ⟨m₁, hrun₁, hkeys₁, hv₁, hs₁⟩ := initInDeg_spec g g.node_names
    (initMap g.node_names 0)
    (by
      intro u _ x hx
      rw [keysA_initMap]
      rw [mem_outList_iff_Edge] at hx
      exact edge_dst_mem g hwf u x hx)
    (fun u hu => node_mem_adj_keys g hwf u hu)
  rw [keysA_initMap] at hkeys₁
  have hval : ∀ v ∈ g.node_names, getA m₁ v = some ((indegFrom g g.node_names v : Int)) := by
    intro v hv
    have h0 : getA (initMap g.node_names (0 : Int)) v = some 0 := by
      rw [getA_initMap, if_pos hv]
    have := hv₁ v 0 h0
    simpa using this
  have hgetzero : ∀ v, v ∈ (m₁.filter (fun p => decide (p.2 = 0))).map Prod.fst →
      getA m₁ v = some 0 := by
    intro v hv
    rw [List.mem_map] at hv
    obtain ⟨p, hp, hpv⟩ := hv
    rw [List.mem_filter] at hp
    have hz : p.2 = 0 := by
      have := hp.2
      simpa using this
    have : getA m₁ p.1 = some p.2 :=
      getA_of_mem_nodup m₁ p.1 p.2 (by rw [hkeys₁]; exact hNnd) (by
        rcases p with ⟨a, b⟩
        exact hp.1)
    rw [hpv] at this
    rw [this, hz]
  have hqsub0 : (m₁.filter (fun p => decide (p.2 = 0))).map Prod.fst ⊆ g.node_names := by
    intro x hx
    rw [List.mem_map] at hx
    obtain ⟨p, hp, hpv⟩ := hx
    rw [List.mem_filter] at hp
    rw [← hkeys₁]
    rw [← hpv]
    exact List.mem_map_of_mem Prod.fst hp.1
  have hqnd0 : ((m₁.filter (fun p => decide (p.2 = 0))).map Prod.fst).Nodup := by
    have hsl : List.Sublist ((m₁.filter (fun p => decide (p.2 = 0))).map Prod.fst)
        (m₁.map Prod.fst) := (List.filter_sublist m₁).map Prod.fst
    exact List.Nodup.sublist hsl (by rw [show m₁.map Prod.fst = keysA m₁ from rfl, hkeys₁]; exact hNnd)
  obtain ⟨q0, hq0⟩ : ∃ q0, q0 = (m₁.filter (fun p => decide (p.2 = 0))).map Prod.fst :=
    ⟨_, rfl⟩
  rw [← hq0] at hgetzero hqsub0 hqnd0
  obtain ⟨orderF, hrunK, p1, p2, p3, p4, p5, p6⟩ := kahnLoop_inv g hwf (kahnFuel g)
    q0 m₁ []
    hkeys₁
    (by
      intro v hv
      rw [hval v hv]
      have hz : indegFrom g [] v = 0 := rfl
      rw [hz]
      simp)
    (by simp)
    hqnd0
    (by simp)
    (by simp)
    hqsub0
    (by
      intro v hv u he
      rcases hv with hv | hv
      swap
      · simp at hv
      · exfalso
        have h0 := hgetzero v hv
        have hvN : v ∈ g.node_names := hqsub0 hv
        rw [hval v hvN] at h0
        rw [Option.some.injEq] at h0
        have hdeg : indegFrom g g.node_names v = 0 := by exact_mod_cast h0
        have huN : u ∈ g.node_names := by
          have := edge_src_mem g u v he
          rw [hwf.1] at this
          exact this
        have hpos : 0 < indegFrom g g.node_names v := by
          rw [indegFrom]
          calc 0 < (outList g u).count v :=
              List.count_pos_iff.mpr ((mem_outList_iff_Edge g u v).mpr he)
            _ ≤ _ := List.single_le_sum (fun x _ => Nat.zero_le x) _
                (List.mem_map.mpr ⟨u, huN, rfl⟩)
        omega)
    (by
      intro v _ h0
      left
      have hm : (v, (0 : Int)) ∈ m₁ := getA_mem _ _ _ h0
      rw [hq0, List.mem_map]
      exact ⟨(v, 0), List.mem_filter.mpr ⟨hm, by simp⟩, rfl⟩)
    (by simp)
    (by simp)
    (by
      have hq : q0.length ≤ g.nodes.length := by
        rw [hq0, List.length_map]
        calc (m₁.filter (fun p => decide (p.2 = 0))).length ≤ m₁.length :=
            List.length_filter_le _ _
          _ = (keysA m₁).length := (keysA_length m₁).symm
          _ = (g.node_names).length := by rw [hkeys₁]
          _ = g.nodes.length := keysA_length g.nodes
      have hsum : (g.node_names.map (fun u => (outList g u).length)).sum = sumAdj g := by
        have h1 : g.node_names = keysA g.adj := hwf.1.symm
        have h2 := sum_outList_keys g.adj (by rw [hwf.1]; exact hNnd)
        rw [h1, sumAdj, ← h2]
        rfl
      rw [sumPos_initMap] at hs₁
      rw [hsum] at hs₁
      rw [kahnFuel]
      omega)
  refine ⟨orderF, ?_, p1, p2, p3, p4, p5, p6⟩
  simp only [topological_sort, hrun₁]
  rw [← hq0, hrunK]

end DGVis

namespace DGVis

/-- In a finite set where every member has an in-neighbor inside the
set, some node lies on a cycle (by pigeonhole on predecessor iterates). -/
theorem exists_cycle_of_pred (g : Graph) (S : List String) (hne : S ≠ [])
    (hpred : ∀ v ∈ S, ∃ u, u ∈ S ∧ Edge g u v) :
    ∃ n, Relation.TransGen (Edge g) n n := by
  have hchoice : ∀ v : {x // x ∈ S}, ∃ u : {x // x ∈ S}, Edge g u.1 v.1 := by
    intro v
    obtain ⟨u, hu, he⟩ := hpred v.1 v.2
    exact ⟨⟨u, hu⟩, he⟩
  choose f hf using hchoice
  obtain ⟨v₀, hv₀⟩ : ∃ v, v ∈ S := by
    cases S with
    | nil => exact absurd rfl hne
    | cons a t => exact ⟨a, List.mem_cons_self _ _⟩
  have hstep : ∀ k : Nat, Edge g (f^[k+1] ⟨v₀, hv₀⟩).1 (f^[k] ⟨v₀, hv₀⟩).1 := by
    intro k
    rw [Function.iterate_succ_apply']
    exact hf _
  have hchain : ∀ b a, a < b →
      Relation.TransGen (Edge g) (f^[b] ⟨v₀, hv₀⟩).1 (f^[a] ⟨v₀, hv₀⟩).1 := by
    intro b
    induction b with
    | zero => intro a h; omega
    | succ b ihb =>
      intro a h
      by_cases hab : a = b
      · subst hab
        exact Relation.TransGen.single (hstep a)
      · exact (Relation.TransGen.single (hstep b)).trans (ihb a (by omega))
  have hpig : ∃ i j : Fin (S.length + 1), i ≠ j ∧
      (f^[i.1] ⟨v₀, hv₀⟩).1 = (f^[j.1] ⟨v₀, hv₀⟩).1 := by
    have hcard : S.toFinset.card < (Finset.univ : Finset (Fin (S.length + 1))).card := by
      rw [Finset.card_univ, Fintype.card_fin]
      exact Nat.lt_succ_of_le (List.toFinset_card_le S)
    obtain ⟨i, _, j, _, hij, he⟩ := Finset.exists_ne_map_eq_of_card_lt_of_maps_to
      hcard (fun (i : Fin (S.length + 1)) _ => List.mem_toFinset.mpr (f^[i.1] ⟨v₀, hv₀⟩).2)
    exact ⟨i, j, hij, he⟩
  obtain ⟨i, j, hij, he⟩ := hpig
  rcases Nat.lt_trichotomy i.1 j.1 with h | h | h
  · exact ⟨_, he ▸ hchain j.1 i.1 h⟩
  · exact absurd (Fin.ext h) hij
  · exact ⟨_, he.symm ▸ hchain i.1 j.1 h⟩

/-- In a duplicate-free order with no back edges and no self-loops,
every edge goes from an earlier to a later position. -/
theorem indexOf_lt_of_edge (g : Graph) (order : List String)
    (hnd : order.Nodup)
    (hpair : order.Pairwise (fun a b => ¬ Edge g b a))
    (hself : ∀ v ∈ order, ¬ Edge g v v)
    (u v : String) (he : Edge g u v) (hu : u ∈ order) (hv : v ∈ order) :
    List.indexOf u order < List.indexOf v order := by
  have hne : u ≠ v := fun he2 => hself v hv (he2 ▸ he)
  have hiu := List.indexOf_lt_length.mpr hu
  have hiv := List.indexOf_lt_length.mpr hv
  rcases Nat.lt_trichotomy (List.indexOf u order) (List.indexOf v order) with h | h | h
  · exact h
  · exfalso
    apply hne
    have h1 : order.get ⟨List.indexOf u order, hiu⟩ = u := List.indexOf_get hiu
    have h2 : order.get ⟨List.indexOf v order, hiv⟩ = v := List.indexOf_get hiv
    rw [← h1, ← h2]
    congr 1
    exact Fin.ext h
  · exfalso
    have hp := List.pairwise_iff_get.mp hpair ⟨List.indexOf v order, hiv⟩
      ⟨List.indexOf u order, hiu⟩ h
    rw [List.indexOf_get hiu, List.indexOf_get hiv] at hp
    exact hp he

/-- A successful topological sort certifies acyclicity. -/
theorem acyclic_of_topo_ok (g : Graph) (hwf : WF g) (l : List String)
    (h : topological_sort g = .ok l) : Acyclic g := by
  obtain ⟨orderF, heq, p1, p2, p3, p4, p5, p6⟩ := topo_run g hwf
  rw [heq] at h
  by_cases hc : orderF.length = g.node_count
  swap
  · rw [if_neg hc] at h
    exact absurd h (by simp)
  rw [if_pos hc] at h
  rw [Except.ok.injEq] at h
  subst h
  have hNlen : (g.node_names).length = g.node_count := keysA_length g.nodes
  have hperm : List.Perm orderF g.node_names :=
    (p1.subperm p2).perm_of_length_le (by omega)
  intro n hTG
  have hmono : ∀ a b, Relation.TransGen (Edge g) a b →
      List.indexOf a orderF < List.indexOf b orderF := by
    intro a b hab
    induction hab with
    | single he =>
      refine indexOf_lt_of_edge g orderF p1 p3 p4 _ _ he ?_ ?_
      · refine hperm.mem_iff.mpr ?_
        have h3 := edge_src_mem g _ _ he
        rw [hwf.1] at h3
        exact h3
      · exact hperm.mem_iff.mpr (edge_dst_mem g hwf _ _ he)
    | tail hab2 he2 ih =>
      have h2 := indexOf_lt_of_edge g orderF p1 p3 p4 _ _ he2
        (by
          refine hperm.mem_iff.mpr ?_
          have h3 := edge_src_mem g _ _ he2
          rw [hwf.1] at h3
          exact h3)
        (hperm.mem_iff.mpr (edge_dst_mem g hwf _ _ he2))
      omega
  exact absurd (hmono n n hTG) (lt_irrefl _)

/-- On an acyclic well-formed graph, `topological_sort` succeeds with a
permutation of all node names in which every edge source precedes its
destination. -/
theorem topo_ok_of_acyclic (g : Graph) (hwf : WF g) (hac : Acyclic g) :
    ∃ order, topological_sort g = .ok order ∧
      List.Perm order g.node_names ∧
      ∀ u v, Edge g u v → List.indexOf u order < List.indexOf v order := by
  have hNnd : (g.node_names).Nodup := hwf.2.1
  obtain ⟨orderF, heq, p1, p2, p3, p4, p5, p6⟩ := topo_run g hwf
  have hcov : ∀ v ∈ g.node_names, v ∈ orderF := by
    by_contra hc
    push_neg at hc
    obtain ⟨v0, hv0N, hv0no⟩ := hc
    have hv0S : v0 ∈ g.node_names.filter (fun v => decide (v ∉ orderF)) :=
      List.mem_filter.mpr ⟨hv0N, by simpa using hv0no⟩
    obtain ⟨n, hn⟩ := exists_cycle_of_pred g
      (g.node_names.filter (fun v => decide (v ∉ orderF)))
      (List.ne_nil_of_mem hv0S)
      (by
        intro v hv
        rw [List.mem_filter] at hv
        obtain ⟨u, huN, huno, hue⟩ := p6 v hv.1 (by simpa using hv.2)
        exact ⟨u, List.mem_filter.mpr ⟨huN, by simpa using huno⟩, hue⟩)
    exact hac n hn
  have hperm : List.Perm orderF g.node_names :=
    (p1.subperm p2).antisymm (hNnd.subperm hcov)
  have hlen : orderF.length = g.node_count := by
    rw [hperm.length_eq]
    exact keysA_length g.nodes
  refine ⟨orderF, by rw [heq, if_pos hlen], hperm, ?_⟩
  intro u v he
  refine indexOf_lt_of_edge g orderF p1 p3 p4 u v he ?_ ?_
  · refine hperm.mem_iff.mpr ?_
    have h3 := edge_src_mem g _ _ he
    rw [hwf.1] at h3
    exact h3
  · exact hperm.mem_iff.mpr (edge_dst_mem g hwf _ _ he)

/-- Claim C3: on every well-formed acyclic graph, `topological_sort`
returns a permutation of all node names (each exactly once, including
nodes appearing only as edge destinations), with every edge source
placed before its destination. -/
theorem claim_C3 (g : Graph) (hwf : WF g) (hac : Acyclic g) :
    ∃ order, topological_sort g = .ok order ∧
      List.Perm order g.node_names ∧
      (∀ v ∈ g.node_names, order.count v = 1) ∧
      (∀ u v, Edge g u v → List.indexOf u order < List.indexOf v order) := by
  obtain ⟨order, h1, h2, h3⟩ := topo_ok_of_acyclic g hwf hac
  refine ⟨order, h1, h2, ?_, h3⟩
  intro v hv
  rw [h2.count_eq]
  exact List.count_eq_one_of_mem hwf.2.1 hv

/-- Claim C3 witness: the diamond graph (acyclicity certified through
its successful topological sort). -/
theorem claim_C3_witness :
    WF (build_graph [("app", ["a", "b"]), ("a", ["c"]), ("b", ["c"]), ("c", [])]) ∧
    Acyclic (build_graph [("app", ["a", "b"]), ("a", ["c"]), ("b", ["c"]), ("c", [])]) ∧
    (∃ order, topological_sort (build_graph [("app", ["a", "b"]), ("a", ["c"]),
        ("b", ["c"]), ("c", [])]) = .ok order ∧
      List.Perm order (build_graph [("app", ["a", "b"]), ("a", ["c"]), ("b", ["c"]),
        ("c", [])]).node_names ∧
      (∀ v ∈ (build_graph [("app", ["a", "b"]), ("a", ["c"]), ("b", ["c"]),
        ("c", [])]).node_names, order.count v = 1) ∧
      (∀ u v, Edge (build_graph [("app", ["a", "b"]), ("a", ["c"]), ("b", ["c"]),
          ("c", [])]) u v →
        List.indexOf u order < List.indexOf v order)) :=
  ⟨by decide,
    acyclic_of_topo_ok (build_graph [("app", ["a", "b"]), ("a", ["c"]), ("b", ["c"]),
      ("c", [])]) (by decide) ["app", "a", "b", "c"] rfl,
    claim_C3 (build_graph [("app", ["a", "b"]), ("a", ["c"]), ("b", ["c"]), ("c", [])])
      (by decide)
      (acyclic_of_topo_ok (build_graph [("app", ["a", "b"]), ("a", ["c"]), ("b", ["c"]),
        ("c", [])]) (by decide) ["app", "a", "b", "c"] rfl)⟩

end DGVis

namespace DGVis

/-! ### DFS cycle detection: support lemmas -/

theorem wcnt_le_length (color : AList Nat) : wcnt color ≤ color.length :=
  List.length_filter_le _ _

theorem wcnt_cons (k : String) (c : Nat) (tl : AList Nat) :
    wcnt ((k, c) :: tl) = (if c = 0 then 1 else 0) + wcnt tl := by
  by_cases hc : c = 0
  · simp [wcnt, List.filter_cons, hc]
    omega
  · simp [wcnt, List.filter_cons, hc]

theorem wcnt_setA_le (color : AList Nat) (k : String) (w : Nat) (hw : w ≠ 0) :
    wcnt (setA color k w) ≤ wcnt color := by
  induction color with
  | nil => simp [setA, wcnt, hw]
  | cons hd tl ih =>
    obtain ⟨k1, c1⟩ := hd
    by_cases hh : k1 = k
    · subst hh
      have h1 : setA ((k1, c1) :: tl) k1 w = (k1, w) :: tl := by
        simp [setA]
      rw [h1, wcnt_cons, wcnt_cons, if_neg hw]
      by_cases hc1 : c1 = 0 <;> simp [hc1] <;> omega
    · have h1 : setA ((k1, c1) :: tl) k w = (k1, c1) :: setA tl k w := by
        simp [setA, hh]
      rw [h1, wcnt_cons, wcnt_cons]
      omega

theorem wcnt_setA_lt (color : AList Nat) (k : String) (w : Nat)
    (hk : getA color k = some 0) (hw : w ≠ 0) :
    wcnt (setA color k w) + 1 = wcnt color := by
  induction color with
  | nil => simp [getA] at hk
  | cons hd tl ih =>
    obtain ⟨k1, c1⟩ := hd
    by_cases hh : k1 = k
    · subst hh
      rw [getA, if_pos rfl] at hk
      rw [Option.some.injEq] at hk
      have h1 : setA ((k1, c1) :: tl) k1 w = (k1, w) :: tl := by
        simp [setA]
      rw [h1, wcnt_cons, wcnt_cons, if_neg hw, if_pos hk]
      omega
    · rw [getA, if_neg hh] at hk
      have h1 : setA ((k1, c1) :: tl) k w = (k1, c1) :: setA tl k w := by
        simp [setA, hh]
      rw [h1, wcnt_cons, wcnt_cons]
      have := ih hk
      omega

theorem framesOK_mono (g : Graph) (color color' : AList Nat) :
    ∀ (stack : List (String × List String)) (ab ab' : List String),
      framesOK g color stack ab →
      (∀ v, (getA color v = some 2 ∨ v ∈ ab) → (getA color' v = some 2 ∨ v ∈ ab')) →
      framesOK g color' stack ab' := by
  intro stack
  induction stack with
  | nil => intro ab ab' _ _; trivial
  | cons f rest ih =>
    obtain ⟨u, rem⟩ := f
    intro ab ab' hok htr
    obtain ⟨⟨cons, hc, hcv⟩, hrest⟩ := hok
    refine ⟨⟨cons, hc, fun v hv => htr v (hcv v hv)⟩, ?_⟩
    refine ih (ab ++ [u]) (ab' ++ [u]) hrest ?_
    intro v hv
    rcases hv with hv | hv
    · rcases htr v (Or.inl hv) with h | h
      · exact Or.inl h
      · exact Or.inr (List.mem_append_left _ h)
    · rcases List.mem_append.mp hv with h | h
      · rcases htr v (Or.inr h) with h2 | h2
        · exact Or.inl h2
        · exact Or.inr (List.mem_append_left _ h2)
      · exact Or.inr (List.mem_append_right _ h)

theorem rank_le_blackMax (color : AList Nat) (rank : String → Nat) (x : String)
    (hx : getA color x = some 2) :
    rank x ≤ ((color.filter (fun kv => decide (kv.2 = 2))).map
      (fun kv => rank kv.1)).foldr max 0 := by
  apply le_foldr_max
  rw [List.mem_map]
  exact ⟨(x, 2), List.mem_filter.mpr ⟨getA_mem _ _ _ hx, by simp⟩, rfl⟩

/-- The parent-chain walk of the cycle reconstruction succeeds and
certifies reachability of the walk start from the back-edge target. -/
theorem walkParent_ok (g : Graph) (parent : AList (Option String))
    (hpe : ∀ x p, getA parent x = some (some p) → Edge g p x) (v : String) :
    ∀ (ss : List String) (fuel : Nat),
      List.Chain' (fun a b => getA parent a = some (some b)) ss →
      ss.length ≤ fuel → ∀ cur, ss.head? = some cur → v ∈ ss → ∀ acc,
      ∃ out, walkParent parent fuel cur v acc = .ok out ∧
        Relation.ReflTransGen (Edge g) v cur := by
  intro ss
  induction ss with
  | nil =>
    intro fuel _ _ cur hh
    exact absurd hh (by simp)
  | cons cur₀ ss' ih =>
    intro fuel hchain hfuel cur hh hv acc
    have hcur : cur = cur₀ := by
      rw [List.head?_cons, Option.some.injEq] at hh
      exact hh.symm
    subst hcur
    match fuel, hfuel with
    | f + 1, hfuel =>
      by_cases hcv : cur = v
      · subst hcv
        exact ⟨acc, by rw [walkParent, if_pos rfl], Relation.ReflTransGen.refl⟩
      · have hvss' : v ∈ ss' := by
          rcases List.mem_cons.mp hv with h | h
          · exact absurd h.symm hcv
          · exact h
        match ss', hvss' with
        | next :: ss'', hvss' =>
          rw [List.chain'_cons] at hchain
          obtain ⟨hlink, hchain'⟩ := hchain
          obtain ⟨out, hout, hrtg⟩ := ih f hchain'
            (by simpa using Nat.lt_succ_iff.mp (by simpa using hfuel))
            next (by rw [List.head?_cons]) hvss' (acc ++ [next])
          refine ⟨out, ?_, ?_⟩
          · rw [walkParent, if_neg hcv, hlink]
            exact hout
          · exact Relation.ReflTransGen.tail hrtg (hpe cur next hlink)

end DGVis

namespace DGVis

theorem chain'_setA (parent : AList (Option String)) (v : String) (w : Option String) :
    ∀ ss : List String, v ∉ ss →
      List.Chain' (fun a b => getA parent a = some (some b)) ss →
      List.Chain' (fun a b => getA (setA parent v w) a = some (some b)) ss := by
  intro ss
  induction ss with
  | nil => intro _ _; trivial
  | cons a t ih =>
    intro hv hch
    match t with
    | [] => exact List.chain'_singleton a
    | b :: t' =>
      rw [List.chain'_cons] at hch ⊢
      have hav : a ≠ v := fun he => hv (he ▸ List.mem_cons_self _ _)
      refine ⟨?_, ih (fun hc => hv (List.mem_cons_of_mem _ hc)) hch.2⟩
      rw [getA_setA_ne _ _ _ _ hav]
      exact hch.1

/-- Master invariant proof of one DFS traversal of `detect_cycles`: on a
well-formed graph the loop completes; colors stay valid and only move
forward; every reported cycle certifies a real cycle; and if no cycle
has been reported, the finished (BLACK) region carries a
reverse-topological rank certificate. -/
theorem dfsLoop_inv (g : Graph) (hwf : WF g) :
    ∀ fuel stack color parent cycles,
      keysA color = g.node_names →
      keysA parent = g.node_names →
      (stack.map Prod.fst).Nodup →
      (∀ u ∈ stack.map Prod.fst, getA color u = some GRAY) →
      (∀ x, getA color x = some GRAY → x ∈ stack.map Prod.fst) →
      List.Chain' (fun a b => getA parent a = some (some b)) (stack.map Prod.fst) →
      (∀ x p, getA parent x = some (some p) → Edge g p x) →
      (∀ f ∈ stack, ∃ cons, getA g.adj f.1 = some (cons ++ f.2)) →
      (cycles = [] → framesOK g color stack []) →
      (∀ x c, getA color x = some c → c = WHITE ∨ c = GRAY ∨ c = BLACK) →
      (cycles = [] → ∃ rank, BlackClosed g color rank) →
      (cycles ≠ [] → ∃ n, Relation.TransGen (Edge g) n n) →
      (maxAdj g + 2) * wcnt color + sumRem stack + stack.length < fuel →
      ∃ color' parent' cycles',
        dfsLoop g fuel stack color parent cycles = .ok (color', parent', cycles') ∧
        keysA color' = g.node_names ∧
        keysA parent' = g.node_names ∧
        (∀ x, getA color' x ≠ some GRAY) ∧
        (∀ x, getA color' x = some WHITE → getA color x = some WHITE) ∧
        (∀ x, getA color x = some BLACK → getA color' x = some BLACK) ∧
        (∀ x c, getA color' x = some c → c = WHITE ∨ c = GRAY ∨ c = BLACK) ∧
        (∀ x p, getA parent' x = some (some p) → Edge g p x) ∧
        (∃ ext, cycles' = cycles ++ ext) ∧
        (cycles' ≠ [] → ∃ n, Relation.TransGen (Edge g) n n) ∧
        (cycles' = [] → ∃ rank, BlackClosed g color' rank) := by
  intro fuel
  induction fuel with
  | zero =>
    intro stack color parent cycles _ _ _ _ _ _ _ _ _ _ _ _ h
    omega
  | succ fuel ih =>
    intro stack color parent cycles hK1 hK2 hND hGR hGS hCH hPE hB5 hFO hCV hBC hIC hμ
    match stack with
    | [] =>
      refine ⟨color, parent, cycles, rfl, hK1, hK2, ?_, fun _ h => h, fun _ h => h,
        hCV, hPE, ⟨[], by simp⟩, hIC, hBC⟩
      intro x hx
      have := hGS x hx
      simp at this
    | (u, []) :: rest =>
      have hu_mem : u ∈ ((u, ([] : List String)) :: rest).map Prod.fst := by
        simp
      have hu_gray : getA color u = some GRAY := hGR u hu_mem
      have hu_keys : u ∈ keysA color := by
        rw [mem_keysA_iff_getA, hu_gray]
        rfl
      have hK1' : keysA (setA color u BLACK) = g.node_names := by
        rw [keysA_setA_of_mem _ _ _ hu_keys, hK1]
      have hu_rest : u ∉ rest.map Prod.fst := by
        have := hND
        simp only [List.map_cons] at this
        exact (List.nodup_cons.mp this).1
      have hGR' : ∀ x ∈ rest.map Prod.fst, getA (setA color u BLACK) x = some GRAY := by
        intro x hx
        have hne : x ≠ u := fun he => hu_rest (he ▸ hx)
        rw [getA_setA_ne _ _ _ _ hne]
        exact hGR x (by simp [hx])
      have hGS' : ∀ x, getA (setA color u BLACK) x = some GRAY →
          x ∈ rest.map Prod.fst := by
        intro x hx
        have hne : x ≠ u := by
          intro he
          subst he
          rw [getA_setA_self] at hx
          rw [Option.some.injEq] at hx
          exact absurd hx (by decide)
        rw [getA_setA_ne _ _ _ _ hne] at hx
        have := hGS x hx
        simp only [List.map_cons, List.mem_cons] at this
        rcases this with h | h
        · exact absurd h hne
        · exact h
      have hCH' : List.Chain' (fun a b => getA parent a = some (some b))
          (rest.map Prod.fst) := by
        have := hCH
        simp only [List.map_cons] at this
        exact this.tail
      have hCV' : ∀ x c, getA (setA color u BLACK) x = some c →
          c = WHITE ∨ c = GRAY ∨ c = BLACK := by
        intro x c hx
        by_cases hxe : x = u
        · subst hxe
          rw [getA_setA_self] at hx
          rw [Option.some.injEq] at hx
          right; right
          exact hx.symm
        · rw [getA_setA_ne _ _ _ _ hxe] at hx
          exact hCV x c hx
      have hBmono : ∀ x, getA color x = some BLACK → getA (setA color u BLACK) x = some BLACK := by
        intro x hx
        by_cases hxe : x = u
        · subst hxe
          exact getA_setA_self _ _ _
        · rw [getA_setA_ne _ _ _ _ hxe]
          exact hx
      have hWmono : ∀ x, getA (setA color u BLACK) x = some WHITE →
          getA color x = some WHITE := by
        intro x hx
        by_cases hxe : x = u
        · subst hxe
          rw [getA_setA_self] at hx
          rw [Option.some.injEq] at hx
          exact absurd hx (by decide)
        · rw [getA_setA_ne _ _ _ _ hxe] at hx
          exact hx
      have hFO' : cycles = [] → framesOK g (setA color u BLACK) rest [] := by
        intro hcyc
        have h0 := hFO hcyc
        obtain ⟨_, hrest⟩ := h0
        refine framesOK_mono g color (setA color u BLACK) rest ([] ++ [u]) [] hrest ?_
        intro y hy
        rcases hy with hy | hy
        · have hyne : y ≠ u := by
            intro he
            subst he
            rw [hu_gray] at hy
            rw [Option.some.injEq] at hy
            exact absurd hy (by decide)
          left
          rw [getA_setA_ne _ _ _ _ hyne]
          exact hy
        · left
          have hyu : y = u := by simpa using hy
          subst hyu
          exact getA_setA_self _ _ _
      have hBC' : cycles = [] → ∃ rank, BlackClosed g (setA color u BLACK) rank := by
        intro hcyc
        obtain ⟨rank, hrank⟩ := hBC hcyc
        obtain ⟨⟨cons, hadj, hcv⟩, _⟩ := hFO hcyc
        rw [List.append_nil] at hadj
        refine ⟨Function.update rank u
          (((color.filter (fun kv => decide (kv.2 = 2))).map
            (fun kv => rank kv.1)).foldr max 0 + 1), ?_⟩
        intro w hw v hv
        by_cases hwu : w = u
        · subst hwu
          have houtw : outList g w = cons := by
            rw [outList, hadj]
            rfl
          rw [houtw] at hv
          have hvb : getA color v = some 2 := by
            rcases hcv v hv with h | h
            · exact h
            · simp at h
          have hvne : v ≠ w := by
            intro he
            subst he
            rw [hu_gray] at hvb
            rw [Option.some.injEq] at hvb
            exact absurd hvb (by decide)
          constructor
          · rw [getA_setA_ne _ _ _ _ hvne]
            exact hvb
          · rw [Function.update_noteq hvne, Function.update_same]
            exact Nat.lt_succ_of_le (rank_le_blackMax color rank v hvb)
        · rw [getA_setA_ne _ _ _ _ hwu] at hw
          obtain ⟨hvb, hrk⟩ := hrank w hw v hv
          have hvne : v ≠ u := by
            intro he
            subst he
            rw [hu_gray] at hvb
            rw [Option.some.injEq] at hvb
            exact absurd hvb (by decide)
          constructor
          · rw [getA_setA_ne _ _ _ _ hvne]
            exact hvb
          · rw [Function.update_noteq hvne, Function.update_noteq hwu]
            exact hrk
      have hμ' : (maxAdj g + 2) * wcnt (setA color u BLACK) + sumRem rest +
          rest.length < fuel := by
        have h1 : wcnt (setA color u BLACK) ≤ wcnt color :=
          wcnt_setA_le color u BLACK (by decide)
        have h2 : (maxAdj g + 2) * wcnt (setA color u BLACK) ≤
            (maxAdj g + 2) * wcnt color := Nat.mul_le_mul_left _ h1
        have h3 : sumRem (((u, []) : String × List String) :: rest) = sumRem rest := by
          simp [sumRem]
        rw [h3] at hμ
        simp only [List.length_cons] at hμ
        omega
      obtain ⟨c', p', cy', hrun, q1, q2, q3, q4, q5, q6, q7, q8, q9, q10⟩ :=
        ih rest (setA color u BLACK) parent cycles hK1' hK2
          (by
            have := hND
            simp only [List.map_cons] at this
            exact (List.nodup_cons.mp this).2)
          hGR' hGS' hCH' hPE
          (fun f hf => hB5 f (List.mem_cons_of_mem _ hf))
          hFO' hCV' hBC' hIC hμ'
      refine ⟨c', p', cy', ?_, q1, q2, q3,
        fun x hx => hWmono x (q4 x hx),
        fun x hx => q5 x (hBmono x hx),
        q6, q7, q8, q9, q10⟩
      rw [dfsLoop]
      exact hrun
    | (u, v :: vs) :: rest =>
      obtain ⟨cons, hadj⟩ := hB5 (u, v :: vs) (List.mem_cons_self _ _)
      have hvN : v ∈ g.node_names :=
        hwf.2.2.1 (u, cons ++ v :: vs) (getA_mem _ _ _ hadj) v (by simp)
      have hvck : v ∈ keysA color := by
        rw [hK1]
        exact hvN
      obtain ⟨c, hc⟩ := Option.isSome_iff_exists.mp ((getA_isSome_iff _ _).mpr hvck)
      have hEuv : Edge g u v := ⟨cons ++ v :: vs, hadj, by simp⟩
      have hB5u' : ∃ cons2, getA g.adj u = some (cons2 ++ vs) :=
        ⟨cons ++ [v], by rw [hadj]; simp⟩
      by_cases hcg : c = GRAY
      · -- back edge: report a cycle and keep scanning
        subst hcg
        have hsn_sub : ((u, v :: vs) :: rest).map Prod.fst ⊆ keysA parent := by
          intro x hx
          rw [hK2, ← hK1, mem_keysA_iff_getA, hGR x hx]
          rfl
        have hlen : (((u, v :: vs) :: rest).map Prod.fst).length ≤ parent.length + 1 := by
          have h1 := nodup_subset_length hND hsn_sub
          rw [keysA_length] at h1
          omega
        have hvss : v ∈ ((u, v :: vs) :: rest).map Prod.fst := hGS v hc
        obtain ⟨out, hwalk, hrtg⟩ := walkParent_ok g parent hPE v
          (((u, v :: vs) :: rest).map Prod.fst) (parent.length + 1) hCH hlen u
          (by simp) hvss [v, u]
        have hloop : ∃ n, Relation.TransGen (Edge g) n n :=
          ⟨v, Relation.TransGen.tail' hrtg hEuv⟩
        have hμ' : (maxAdj g + 2) * wcnt color + sumRem ((u, vs) :: rest) +
            ((u, vs) :: rest).length < fuel := by
          have h3 : sumRem ((u, v :: vs) :: rest) = sumRem ((u, vs) :: rest) + 1 := by
            simp [sumRem]
            omega
          rw [h3] at hμ
          simp only [List.length_cons] at hμ ⊢
          omega
        obtain ⟨c', p', cy', hrun, q1, q2, q3, q4, q5, q6, q7, q8, q9, q10⟩ :=
          ih ((u, vs) :: rest) color parent (cycles ++ [out.reverse]) hK1 hK2
            hND hGR hGS hCH hPE
            (by
              intro f hf
              rcases List.mem_cons.mp hf with h1 | h1
              · subst h1
                exact hB5u'
              · exact hB5 f (List.mem_cons_of_mem _ h1))
            (fun hcyc => absurd hcyc (by simp))
            hCV
            (fun hcyc => absurd hcyc (by simp))
            (fun _ => hloop)
            hμ'
        obtain ⟨ext, hext⟩ := q8
        refine ⟨c', p', cy', ?_, q1, q2, q3, q4, q5, q6, q7,
          ⟨[out.reverse] ++ ext, by rw [hext]; simp⟩, q9, q10⟩
        rw [dfsLoop]
        simp only [hc, if_true]
        rw [hwalk]
        exact hrun
      · by_cases hcw : c = WHITE
        · -- unvisited neighbor: descend
          subst hcw
          have hva : v ∈ keysA g.adj := node_mem_adj_keys g hwf v hvN
          obtain ⟨nv, hnv⟩ := Option.isSome_iff_exists.mp ((getA_isSome_iff _ _).mpr hva)
          have hvpk : v ∈ keysA parent := by
            rw [hK2]
            exact hvN
          have hvsn : v ∉ ((u, v :: vs) :: rest).map Prod.fst := by
            intro hc2
            have := hGR v hc2
            rw [hc] at this
            rw [Option.some.injEq] at this
            exact absurd this (by decide)
          have hK1' : keysA (setA color v GRAY) = g.node_names := by
            rw [keysA_setA_of_mem _ _ _ hvck, hK1]
          have hK2' : keysA (setA parent v (some u)) = g.node_names := by
            rw [keysA_setA_of_mem _ _ _ hvpk, hK2]
          have hND' : (((v, nv) :: (u, vs) :: rest).map Prod.fst).Nodup := by
            simp only [List.map_cons]
            refine List.nodup_cons.mpr ⟨?_, ?_⟩
            · intro hc2
              exact hvsn (by simpa using hc2)
            · simpa using hND
          have hGR' : ∀ x ∈ ((v, nv) :: (u, vs) :: rest).map Prod.fst,
              getA (setA color v GRAY) x = some GRAY := by
            intro x hx
            simp only [List.map_cons, List.mem_cons] at hx
            rcases hx with h1 | h1
            · subst h1
              exact getA_setA_self _ _ _
            · have hxv : x ≠ v := by
                intro he
                subst he
                exact hvsn (by simpa using h1)
              rw [getA_setA_ne _ _ _ _ hxv]
              exact hGR x (by simpa using h1)
          have hGS' : ∀ x, getA (setA color v GRAY) x = some GRAY →
              x ∈ ((v, nv) :: (u, vs) :: rest).map Prod.fst := by
            intro x hx
            by_cases hxv : x = v
            · subst hxv
              simp
            · rw [getA_setA_ne _ _ _ _ hxv] at hx
              have := hGS x hx
              simp only [List.map_cons, List.mem_cons] at this ⊢
              tauto
          have hCH' : List.Chain' (fun a b => getA (setA parent v (some u)) a =
              some (some b)) (((v, nv) :: (u, vs) :: rest).map Prod.fst) := by
            simp only [List.map_cons]
            rw [List.chain'_cons]
            constructor
            · exact getA_setA_self _ _ _
            · have h1 : List.Chain' (fun a b => getA parent a = some (some b))
                  (u :: rest.map Prod.fst) := by
                simpa using hCH
              have h2 := chain'_setA parent v (some u) (u :: rest.map Prod.fst)
                (by
                  intro hc2
                  exact hvsn (by simpa using hc2))
                h1
              simpa using h2
          have hPE' : ∀ x p, getA (setA parent v (some u)) x = some (some p) →
              Edge g p x := by
            intro x p hx
            by_cases hxv : x = v
            · subst hxv
              rw [getA_setA_self] at hx
              rw [Option.some.injEq, Option.some.injEq] at hx
              rw [← hx]
              exact hEuv
            · rw [getA_setA_ne _ _ _ _ hxv] at hx
              exact hPE x p hx
          have hB5' : ∀ f ∈ ((v, nv) :: (u, vs) :: rest),
              ∃ cons2, getA g.adj f.1 = some (cons2 ++ f.2) := by
            intro f hf
            rcases List.mem_cons.mp hf with h1 | h1
            · subst h1
              exact ⟨[], by simp [hnv]⟩
            · rcases List.mem_cons.mp h1 with h2 | h2
              · subst h2
                exact hB5u'
              · exact hB5 f (List.mem_cons_of_mem _ h2)
          have hFO' : cycles = [] →
              framesOK g (setA color v GRAY) ((v, nv) :: (u, vs) :: rest) [] := by
            intro hcyc
            obtain ⟨⟨cons0, hadj0, hcv0⟩, hrest0⟩ := hFO hcyc
            refine ⟨⟨[], by simp [hnv], by simp⟩, ⟨cons0 ++ [v], ?_, ?_⟩, ?_⟩
            · rw [hadj0]
              simp
            · intro x hx
              rcases List.mem_append.mp hx with h1 | h1
              · rcases hcv0 x h1 with h2 | h2
                · left
                  have hxv : x ≠ v := by
                    intro he
                    subst he
                    rw [hc] at h2
                    rw [Option.some.injEq] at h2
                    exact absurd h2 (by decide)
                  rw [getA_setA_ne _ _ _ _ hxv]
                  exact h2
                · simp at h2
              · right
                simpa using h1
            · refine framesOK_mono g color (setA color v GRAY) rest
                ([] ++ [u]) (([] ++ [v]) ++ [u]) hrest0 ?_
              intro y hy
              rcases hy with hy | hy
              · have hyv : y ≠ v := by
                  intro he
                  subst he
                  rw [hc] at hy
                  rw [Option.some.injEq] at hy
                  exact absurd hy (by decide)
                left
                rw [getA_setA_ne _ _ _ _ hyv]
                exact hy
              · right
                simp only [List.nil_append] at hy ⊢
                rcases List.mem_singleton.mp hy with h1
                simp [h1]
          have hCV' : ∀ x c2, getA (setA color v GRAY) x = some c2 →
              c2 = WHITE ∨ c2 = GRAY ∨ c2 = BLACK := by
            intro x c2 hx
            by_cases hxv : x = v
            · subst hxv
              rw [getA_setA_self] at hx
              rw [Option.some.injEq] at hx
              right; left
              exact hx.symm
            · rw [getA_setA_ne _ _ _ _ hxv] at hx
              exact hCV x c2 hx
          have hBC' : cycles = [] → ∃ rank, BlackClosed g (setA color v GRAY) rank := by
            intro hcyc
            obtain ⟨rank, hrank⟩ := hBC hcyc
            refine ⟨rank, ?_⟩
            intro w hw y hy
            have hwv : w ≠ v := by
              intro he
              subst he
              rw [getA_setA_self] at hw
              rw [Option.some.injEq] at hw
              exact absurd hw (by decide)
            rw [getA_setA_ne _ _ _ _ hwv] at hw
            obtain ⟨hyb, hyr⟩ := hrank w hw y hy
            have hyv : y ≠ v := by
              intro he
              subst he
              rw [hc] at hyb
              rw [Option.some.injEq] at hyb
              exact absurd hyb (by decide)
            rw [getA_setA_ne _ _ _ _ hyv]
            exact ⟨hyb, hyr⟩
          have hμ' : (maxAdj g + 2) * wcnt (setA color v GRAY) +
              sumRem ((v, nv) :: (u, vs) :: rest) +
              ((v, nv) :: (u, vs) :: rest).length < fuel := by
            have h1 : wcnt (setA color v GRAY) + 1 = wcnt color :=
              wcnt_setA_lt color v GRAY hc (by decide)
            have h2 : (maxAdj g + 2) * wcnt color =
                (maxAdj g + 2) * wcnt (setA color v GRAY) + (maxAdj g + 2) := by
              rw [← h1, Nat.mul_succ]
            have h3 : nv.length ≤ maxAdj g := nbrs_length_le_maxAdj g v nv hnv
            have h4 : sumRem ((v, nv) :: (u, vs) :: rest) =
                nv.length + sumRem ((u, vs) :: rest) := by
              simp [sumRem]
            have h5 : sumRem ((u, v :: vs) :: rest) = sumRem ((u, vs) :: rest) + 1 := by
              simp [sumRem]
              omega
            rw [h2, h5] at hμ
            rw [h4]
            simp only [List.length_cons] at hμ ⊢
            omega
          obtain ⟨c', p', cy', hrun, q1, q2, q3, q4, q5, q6, q7, q8, q9, q10⟩ :=
            ih ((v, nv) :: (u, vs) :: rest) (setA color v GRAY)
              (setA parent v (some u)) cycles hK1' hK2' hND' hGR' hGS' hCH' hPE'
              hB5' hFO' hCV' hBC' hIC hμ'
          refine ⟨c', p', cy', ?_, q1, q2, q3, ?_, ?_, q6, q7, q8, q9, q10⟩
          · rw [dfsLoop]
            simp only [hc, if_true]
            simp only [Graph.neighbors, hnv]
            exact hrun
          · intro x hx
            have h1 := q4 x hx
            have hxv : x ≠ v := by
              intro he
              subst he
              rw [getA_setA_self] at h1
              rw [Option.some.injEq] at h1
              exact absurd h1 (by decide)
            rw [getA_setA_ne _ _ _ _ hxv] at h1
            exact h1
          · intro x hx
            have hxv : x ≠ v := by
              intro he
              subst he
              rw [hc] at hx
              rw [Option.some.injEq] at hx
              exact absurd hx (by decide)
            refine q5 x ?_
            rw [getA_setA_ne _ _ _ _ hxv]
            exact hx
        · -- already finished neighbor: skip
          have hcb : c = BLACK := by
            rcases hCV v c hc with h | h | h
            · exact absurd h hcw
            · exact absurd h hcg
            · exact h
          subst hcb
          have hμ' : (maxAdj g + 2) * wcnt color + sumRem ((u, vs) :: rest) +
              ((u, vs) :: rest).length < fuel := by
            have h3 : sumRem ((u, v :: vs) :: rest) = sumRem ((u, vs) :: rest) + 1 := by
              simp [sumRem]
              omega
            rw [h3] at hμ
            simp only [List.length_cons] at hμ ⊢
            omega
          obtain ⟨c', p', cy', hrun, q1, q2, q3, q4, q5, q6, q7, q8, q9, q10⟩ :=
            ih ((u, vs) :: rest) color parent cycles hK1 hK2 hND hGR hGS hCH hPE
              (by
                intro f hf
                rcases List.mem_cons.mp hf with h1 | h1
                · subst h1
                  exact hB5u'
                · exact hB5 f (List.mem_cons_of_mem _ h1))
              (by
                intro hcyc
                obtain ⟨⟨cons0, hadj0, hcv0⟩, hrest0⟩ := hFO hcyc
                refine ⟨⟨cons0 ++ [v], ?_, ?_⟩, hrest0⟩
                · rw [hadj0]
                  simp
                · intro x hx
                  rcases List.mem_append.mp hx with h1 | h1
                  · exact hcv0 x h1
                  · left
                    rw [List.mem_singleton.mp h1]
                    exact hc)
              hCV hBC hIC hμ'
          refine ⟨c', p', cy', ?_, q1, q2, q3, q4, q5, q6, q7, q8, q9, q10⟩
          rw [dfsLoop]
          simp only [hc]
          exact hrun

end DGVis

namespace DGVis

/-- Invariant proof of the outer start loop of `detect_cycles`. -/
theorem detectOuter_inv (g : Graph) (hwf : WF g) :
    ∀ (names : List String) color parent cycles,
      names ⊆ g.node_names →
      keysA color = g.node_names →
      keysA parent = g.node_names →
      (∀ x, getA color x ≠ some GRAY) →
      (∀ x c, getA color x = some c → c = WHITE ∨ c = GRAY ∨ c = BLACK) →
      (∀ x p, getA parent x = some (some p) → Edge g p x) →
      (cycles = [] → ∃ rank, BlackClosed g color rank) →
      (cycles ≠ [] → ∃ n, Relation.TransGen (Edge g) n n) →
      ∃ color' parent' cycles',
        detectOuter g names color parent cycles = .ok (color', parent', cycles') ∧
        keysA color' = g.node_names ∧
        (∀ x, getA color' x ≠ some GRAY) ∧
        (∀ x c, getA color' x = some c → c = WHITE ∨ c = GRAY ∨ c = BLACK) ∧
        (∀ s ∈ names, getA color' s = some BLACK) ∧
        (∀ x, getA color x = some BLACK → getA color' x = some BLACK) ∧
        (∃ ext, cycles' = cycles ++ ext) ∧
        (cycles' ≠ [] → ∃ n, Relation.TransGen (Edge g) n n) ∧
        (cycles' = [] → ∃ rank, BlackClosed g color' rank) := by
  intro names
  induction names with
  | nil =>
    intro color parent cycles _ hK1 hK2 hNG hCV hPE hBC hIC
    exact ⟨color, parent, cycles, rfl, hK1, hNG, hCV, by simp, fun _ h => h,
      ⟨[], by simp⟩, hIC, hBC⟩
  | cons s rest ihn =>
    intro color parent cycles hsub hK1 hK2 hNG hCV hPE hBC hIC
    have hsN : s ∈ g.node_names := hsub (List.mem_cons_self _ _)
    have hsk : s ∈ keysA color := by
      rw [hK1]
      exact hsN
    obtain ⟨c, hc⟩ := Option.isSome_iff_exists.mp ((getA_isSome_iff _ _).mpr hsk)
    by_cases hcw : c = WHITE
    · -- start a fresh traversal at s
      subst hcw
      have hsa : s ∈ keysA g.adj := node_mem_adj_keys g hwf s hsN
      obtain ⟨ns, hns⟩ := Option.isSome_iff_exists.mp ((getA_isSome_iff _ _).mpr hsa)
      have hspk : s ∈ keysA parent := by
        rw [hK2]
        exact hsN
      have hK1' : keysA (setA color s GRAY) = g.node_names := by
        rw [keysA_setA_of_mem _ _ _ hsk, hK1]
      have hμ : (maxAdj g + 2) * wcnt (setA color s GRAY) + sumRem [(s, ns)] +
          ([(s, ns)] : List (String × List String)).length < dfsFuel g := by
        have h1 : wcnt (setA color s GRAY) ≤ wcnt color :=
          wcnt_setA_le color s GRAY (by decide)
        have h2 : wcnt color ≤ color.length := wcnt_le_length color
        have h3 : color.length = g.nodes.length := by
          have := keysA_length color
          rw [hK1] at this
          have h4 : g.node_names.length = g.nodes.length := keysA_length g.nodes
          omega
        have h5 : (maxAdj g + 2) * wcnt (setA color s GRAY) ≤
            (maxAdj g + 2) * g.nodes.length := by
          apply Nat.mul_le_mul_left
          omega
        have h6 : sumRem [(s, ns)] = ns.length := by
          simp [sumRem]
        have h7 : ns.length ≤ maxAdj g := nbrs_length_le_maxAdj g s ns hns
        have h8 : (maxAdj g + 2) * (g.nodes.length + 1) =
            (maxAdj g + 2) * g.nodes.length + (maxAdj g + 2) := by
          rw [Nat.mul_succ]
        rw [dfsFuel, h6, h8]
        simp only [List.length_singleton]
        omega
      obtain ⟨c1, p1, cy1, hrun1, r1, r2, r3, r4, r5, r6, r7, r8, r9, r10⟩ :=
        dfsLoop_inv g hwf (dfsFuel g) [(s, ns)] (setA color s GRAY) parent cycles
          hK1' hK2
          (by simp)
          (by
            intro x hx
            have hxs : x = s := by simpa using hx
            subst hxs
            exact getA_setA_self _ _ _)
          (by
            intro x hx
            by_cases hxs : x = s
            · simp [hxs]
            · rw [getA_setA_ne _ _ _ _ hxs] at hx
              exact absurd hx (hNG x))
          (by simp)
          hPE
          (by
            intro f hf
            have hfs : f = (s, ns) := by simpa using hf
            subst hfs
            exact ⟨[], by simp [hns]⟩)
          (by
            intro hcyc
            exact ⟨⟨[], by simp [hns], by simp⟩, trivial⟩)
          (by
            intro x c2 hx
            by_cases hxs : x = s
            · subst hxs
              rw [getA_setA_self] at hx
              rw [Option.some.injEq] at hx
              right; left
              exact hx.symm
            · rw [getA_setA_ne _ _ _ _ hxs] at hx
              exact hCV x c2 hx)
          (by
            intro hcyc
            obtain ⟨rank, hrank⟩ := hBC hcyc
            refine ⟨rank, ?_⟩
            intro w hw y hy
            have hws : w ≠ s := by
              intro he
              subst he
              rw [getA_setA_self] at hw
              rw [Option.some.injEq] at hw
              exact absurd hw (by decide)
            rw [getA_setA_ne _ _ _ _ hws] at hw
            obtain ⟨hyb, hyr⟩ := hrank w hw y hy
            have hys : y ≠ s := by
              intro he
              subst he
              rw [hc] at hyb
              rw [Option.some.injEq] at hyb
              exact absurd hyb (by decide)
            rw [getA_setA_ne _ _ _ _ hys]
            exact ⟨hyb, hyr⟩)
          hIC hμ
      have hsblack1 : getA c1 s = some BLACK := by
        obtain ⟨cs, hcs⟩ := Option.isSome_iff_exists.mp
          ((getA_isSome_iff _ _).mpr (by rw [r1]; exact hsN))
        rcases r6 s cs hcs with h | h | h
        · exfalso
          subst h
          have := r4 s hcs
          rw [getA_setA_self] at this
          rw [Option.some.injEq] at this
          exact absurd this (by decide)
        · exfalso
          subst h
          exact (r3 s) hcs
        · subst h
          exact hcs
      obtain ⟨c', p', cy', hrun2, t1, t2, t3, t4, t5, t6, t7, t8⟩ :=
        ihn c1 p1 cy1 (fun x hx => hsub (List.mem_cons_of_mem _ hx))
          r1 r2 r3 r6 r7 r10 r9
      obtain ⟨ext1, hext1⟩ := r8
      obtain ⟨ext2, hext2⟩ := t6
      refine ⟨c', p', cy', ?_, t1, t2, t3, ?_, ?_, ?_, t7, t8⟩
      · rw [detectOuter]
        simp only [hc]
        rw [if_neg (by decide)]
        simp only [Graph.neighbors, hns]
        rw [hrun1]
        exact hrun2
      · intro x hx
        rcases List.mem_cons.mp hx with h1 | h1
        · subst h1
          exact t5 x hsblack1
        · exact t4 x h1
      · intro x hx
        refine t5 x (r5 x ?_)
        by_cases hxs : x = s
        · subst hxs
          rw [hc] at hx
          rw [Option.some.injEq] at hx
          exact absurd hx (by decide)
        · rw [getA_setA_ne _ _ _ _ hxs]
          exact hx
      · exact ⟨ext1 ++ ext2, by rw [hext2, hext1]; simp⟩
    · -- s already finished (it cannot be GRAY between traversals)
      have hcb : c = BLACK := by
        rcases hCV s c hc with h | h | h
        · exact absurd h hcw
        · exfalso
          subst h
          exact (hNG s) hc
        · exact h
      subst hcb
      obtain ⟨c', p', cy', hrun2, t1, t2, t3, t4, t5, t6, t7, t8⟩ :=
        ihn color parent cycles (fun x hx => hsub (List.mem_cons_of_mem _ hx))
          hK1 hK2 hNG hCV hPE hBC hIC
      refine ⟨c', p', cy', ?_, t1, t2, t3, ?_, t5, t6, t7, t8⟩
      · rw [detectOuter]
        simp only [hc]
        rw [if_pos (by decide)]
        exact hrun2
      · intro x hx
        rcases List.mem_cons.mp hx with h1 | h1
        · subst h1
          exact t5 x hc
        · exact t4 x h1

end DGVis

namespace DGVis

/-- `detect_cycles` on a well-formed graph: it succeeds; a non-empty
report certifies a cycle; an empty report certifies acyclicity. -/
theorem detect_spec (g : Graph) (hwf : WF g) :
    ∃ cycles, detect_cycles g = .ok cycles ∧
      (cycles ≠ [] → ∃ n, Relation.TransGen (Edge g) n n) ∧
      (cycles = [] → Acyclic g) := by
  obtain ⟨c', p', cy', hrun, t1, t2, t3, t4, t5, t6, t7, t8⟩ :=
    detectOuter_inv g hwf g.node_names (initMap g.node_names WHITE)
      (initMap g.node_names none) []
      (fun x hx => hx)
      (keysA_initMap _ _)
      (keysA_initMap _ _)
      (by
        intro x hx
        rw [getA_initMap] at hx
        by_cases hxm : x ∈ g.node_names
        · rw [if_pos hxm] at hx
          rw [Option.some.injEq] at hx
          exact absurd hx (by decide)
        · rw [if_neg hxm] at hx
          exact Option.noConfusion hx)
      (by
        intro x c hx
        rw [getA_initMap] at hx
        by_cases hxm : x ∈ g.node_names
        · rw [if_pos hxm] at hx
          rw [Option.some.injEq] at hx
          left
          exact hx.symm
        · rw [if_neg hxm] at hx
          exact Option.noConfusion hx)
      (by
        intro x p hx
        rw [getA_initMap] at hx
        by_cases hxm : x ∈ g.node_names
        · rw [if_pos hxm] at hx
          rw [Option.some.injEq] at hx
          exact Option.noConfusion hx
        · rw [if_neg hxm] at hx
          exact Option.noConfusion hx)
      (by
        intro _
        refine ⟨fun _ => 0, ?_⟩
        intro u hu
        rw [getA_initMap] at hu
        by_cases hxm : u ∈ g.node_names
        · rw [if_pos hxm] at hu
          rw [Option.some.injEq] at hu
          exact absurd hu (by decide)
        · rw [if_neg hxm] at hu
          exact Option.noConfusion hu)
      (fun h => absurd rfl h)
  refine ⟨cy', ?_, t7, ?_⟩
  · rw [detect_cycles, hrun]
  · intro hnil
    obtain ⟨rank, hrank⟩ := t8 hnil
    intro n hTG
    have hmono : ∀ a b, Relation.TransGen (Edge g) a b → rank b < rank a := by
      intro a b hab
      induction hab with
      | single he =>
        rename_i m
        have haN : a ∈ g.node_names := by
          have h1 := edge_src_mem g a m he
          rw [hwf.1] at h1
          exact h1
        have hablack := t4 a haN
        obtain ⟨_, hr⟩ := hrank a hablack m ((mem_outList_iff_Edge g a m).mpr he)
        exact hr
      | tail hab2 he2 ih =>
        rename_i m1 m2
        have hbN : m1 ∈ g.node_names := by
          have h1 := edge_src_mem g m1 m2 he2
          rw [hwf.1] at h1
          exact h1
        have hbblack := t4 m1 hbN
        obtain ⟨_, hr⟩ := hrank m1 hbblack m2 ((mem_outList_iff_Edge g m1 m2).mpr he2)
        omega
    exact absurd (hmono n n hTG) (lt_irrefl _)

/-- Claim C2: on every well-formed graph, `detect_cycles` returns the
empty list exactly when `topological_sort` succeeds (does not raise the
CycleError condition). -/
theorem claim_C2 (g : Graph) (hwf : WF g) :
    detect_cycles g = .ok [] ↔ ∃ l, topological_sort g = .ok l := by
  obtain ⟨cycles, hdet, hsound, hcomp⟩ := detect_spec g hwf
  constructor
  · intro h
    rw [hdet] at h
    rw [Except.ok.injEq] at h
    obtain ⟨l, hl, _, _⟩ := topo_ok_of_acyclic g hwf (hcomp h)
    exact ⟨l, hl⟩
  · rintro ⟨l, hl⟩
    have hac : Acyclic g := acyclic_of_topo_ok g hwf l hl
    have hnil : cycles = [] := by
      by_contra hc
      obtain ⟨n, hn⟩ := hsound hc
      exact hac n hn
    rw [hdet, hnil]

/-- Claim C2 witness: the diamond graph (acyclic: both sides hold) —
instantiating the equivalence at a concrete well-formed graph. -/
theorem claim_C2_witness :
    WF (build_graph [("app", ["a", "b"]), ("a", ["c"]), ("b", ["c"]), ("c", [])]) ∧
    (detect_cycles (build_graph [("app", ["a", "b"]), ("a", ["c"]), ("b", ["c"]),
        ("c", [])]) = .ok [] ↔
      ∃ l, topological_sort (build_graph [("app", ["a", "b"]), ("a", ["c"]),
        ("b", ["c"]), ("c", [])]) = .ok l) :=
  ⟨by decide,
    claim_C2 (build_graph [("app", ["a", "b"]), ("a", ["c"]), ("b", ["c"]), ("c", [])])
      (by decide)⟩

end DGVis

namespace DGVis

/-! ### Tarjan SCC: support lemmas -/

theorem setA_setA {α : Type} (m : AList α) (k : String) (a b : α) :
    setA (setA m k a) k b = setA m k b := by
  induction m with
  | nil => simp [setA]
  | cons hd tl ih =>
    obtain ⟨k1, v1⟩ := hd
    by_cases hh : k1 = k
    · simp [setA, hh]
    · simp [setA, hh, ih]

theorem setA_getA_self {α : Type} (m : AList α) (k : String) (v : α)
    (h : getA m k = some v) : setA m k v = m := by
  induction m with
  | nil => simp [getA] at h
  | cons hd tl ih =>
    obtain ⟨k1, v1⟩ := hd
    by_cases hh : k1 = k
    · subst hh
      rw [getA, if_pos rfl] at h
      rw [Option.some.injEq] at h
      simp [setA, h]
    · rw [getA, if_neg hh] at h
      simp [setA, hh, ih h]

/-- `popComp` on a stack `seg ++ u :: s'` with `u ∉ seg` pops exactly
`seg ++ [u]`, leaves `s'`, and clears exactly those on-stack flags. -/
theorem popComp_spec (u : String) :
    ∀ (seg : List String) (s' : List String) (ons : AList Bool), u ∉ seg →
      ∃ ons', popComp u ons (seg ++ u :: s') = some (ons', seg ++ [u], s') ∧
        (∀ x, getA ons' x = if x ∈ seg ++ [u] then some false else getA ons x) := by
  intro seg
  induction seg with
  | nil =>
    intro s' ons _
    refine ⟨setA ons u false, ?_, ?_⟩
    · simp [popComp]
    · intro x
      by_cases hx : x = u
      · subst hx
        simp [getA_setA_self, getA_setA_ne, getA_setA_self]
      · rw [getA_setA_ne _ _ _ _ hx]
        simp [hx]
  | cons w seg' ih =>
    intro s' ons hu
    have hwu : w ≠ u := fun he => hu (he ▸ List.mem_cons_self _ _)
    have hu' : u ∉ seg' := fun hc => hu (List.mem_cons_of_mem _ hc)
    obtain ⟨ons', hrun, hons⟩ := ih s' (setA ons w false) hu'
    refine ⟨ons', ?_, ?_⟩
    · rw [List.cons_append, popComp, if_neg hwu, hrun]
      rfl
    · intro x
      rw [hons x]
      by_cases hx : x ∈ seg' ++ [u]
      · rw [if_pos hx, if_pos (by
          rcases List.mem_append.mp hx with h | h
          · exact List.mem_append_left _ (List.mem_cons_of_mem _ h)
          · exact List.mem_append_right _ h)]
      · rw [if_neg hx]
        by_cases hxw : x = w
        · subst hxw
          rw [getA_setA_self, if_pos (by simp)]
        · rw [getA_setA_ne _ _ _ _ hxw, if_neg (by
            intro hc
            rcases List.mem_append.mp hc with h | h
            · rcases List.mem_cons.mp h with h1 | h1
              · exact hxw h1
              · exact hx (List.mem_append_left _ h1)
            · exact hx (List.mem_append_right _ h))]

end DGVis

namespace DGVis

/-- The neighbor scan of iterative Tarjan: it never fails when the frame
node has a lowlink and all pending neighbors are adjacency keys, and it
either exhausts the list (only tightening `low[u]`) or descends into the
first unindexed neighbor. -/
theorem sccScan_spec (g : Graph) (u : String) :
    ∀ (vs : List String) (st : TState),
      u ∈ keysA st.low →
      (∀ v ∈ vs, v ∈ keysA g.adj) →
      ∃ out, sccScan g u vs st = .ok out ∧
        ((∃ lu', out = ScanOut.exhausted { st with low := setA st.low u lu' }) ∨
         (∃ va nv vs' pre lu',
            vs = pre ++ va :: vs' ∧
            getA st.idx va = none ∧
            getA g.adj va = some nv ∧
            out = ScanOut.advanced va nv vs' (TState.mk (setA st.idx va st.counter)
              (setA (setA st.low u lu') va st.counter)
              (setA st.ons va true) (va :: st.sstack) st.comps (st.counter + 1)))) := by
  intro vs
  induction vs with
  | nil =>
    intro st hu _
    refine ⟨ScanOut.exhausted st, by rw [sccScan], ?_⟩
    left
    obtain ⟨lu, hlu⟩ := Option.isSome_iff_exists.mp ((getA_isSome_iff _ _).mpr hu)
    exact ⟨lu, by rw [setA_getA_self _ _ _ hlu]⟩
  | cons v rest ih =>
    intro st hu hadj
    by_cases hvi : (getA st.idx v).isSome
    · by_cases hvo : (getA st.ons v).getD false = true
      · obtain ⟨lu, hlu⟩ := Option.isSome_iff_exists.mp ((getA_isSome_iff _ _).mpr hu)
        obtain ⟨iv, hiv⟩ := Option.isSome_iff_exists.mp hvi
        have hu1 : u ∈ keysA (setA st.low u (min lu iv)) := by
          rw [keysA_setA_of_mem _ _ _ hu]
          exact hu
        obtain ⟨out, hrun, hcases⟩ := ih { st with low := setA st.low u (min lu iv) }
          hu1 (fun x hx => hadj x (List.mem_cons_of_mem _ hx))
        refine ⟨out, ?_, ?_⟩
        · rw [sccScan, if_pos hvi, if_pos hvo, hlu, hiv]
          exact hrun
        · rcases hcases with ⟨lu', hout⟩ | ⟨va, nv, vs', pre, lu', hsplit, hnone, hnv, hout⟩
          · left
            refine ⟨lu', ?_⟩
            rw [hout]
            simp only [setA_setA]
          · right
            refine ⟨va, nv, vs', v :: pre, lu', ?_, hnone, hnv, ?_⟩
            · rw [hsplit]
              rfl
            · rw [hout]
              simp only [setA_setA]
      · obtain ⟨out, hrun, hcases⟩ := ih st hu
          (fun x hx => hadj x (List.mem_cons_of_mem _ hx))
        refine ⟨out, ?_, ?_⟩
        · rw [sccScan, if_pos hvi, if_neg hvo]
          exact hrun
        · rcases hcases with ⟨lu', hout⟩ | ⟨va, nv, vs', pre, lu', hsplit, hnone, hnv, hout⟩
          · exact Or.inl ⟨lu', hout⟩
          · refine Or.inr ⟨va, nv, vs', v :: pre, lu', ?_, hnone, hnv, hout⟩
            rw [hsplit]
            rfl
    · have hva : v ∈ keysA g.adj := hadj v (List.mem_cons_self _ _)
      obtain ⟨nv, hnv⟩ := Option.isSome_iff_exists.mp ((getA_isSome_iff _ _).mpr hva)
      obtain ⟨lu, hlu⟩ := Option.isSome_iff_exists.mp ((getA_isSome_iff _ _).mpr hu)
      refine ⟨ScanOut.advanced v nv rest (TState.mk (setA st.idx v st.counter)
        (setA st.low v st.counter) (setA st.ons v true) (v :: st.sstack) st.comps
        (st.counter + 1)), ?_, ?_⟩
      · rw [sccScan, if_neg hvi, Graph.neighbors, hnv]
      · right
        refine ⟨v, nv, rest, [], lu, by simp, ?_, hnv, ?_⟩
        · rw [← Option.not_isSome_iff_eq_none]
          exact hvi
        · rw [setA_getA_self _ _ _ hlu]

end DGVis

namespace DGVis

/-- Extending the component stack below preserves the interleaving of
call-stack frame nodes into it. -/
theorem interleaved_extend :
    ∀ (us : List String) (s t : List String), Interleaved us s → Interleaved us (t ++ s)
  | [], _, _, _ => trivial
  | u :: us, s, t, ⟨seg, s', hdec, hrest⟩ =>
    ⟨t ++ seg, s', by rw [hdec]; simp, hrest⟩

/-- Fuel-sufficiency and structural invariants of the Tarjan loop: on a
well-formed graph the `while call_stack:` loop always completes, and the
index/lowlink maps keep a common duplicate-free key set of node names
with the component stack drawn from the indexed nodes. -/
theorem sccLoop_inv (g : Graph) (hwf : WF g) :
    ∀ fuel (cstack : List (String × List String)) (st : TState),
      keysA st.idx = keysA st.low →
      (keysA st.idx).Nodup →
      keysA st.idx ⊆ g.node_names →
      (∀ f ∈ cstack, f.1 ∈ keysA st.idx) →
      (∀ f ∈ cstack, ∃ cons, getA g.adj f.1 = some (cons ++ f.2)) →
      (∀ x ∈ st.sstack, x ∈ keysA st.idx) →
      st.sstack.Nodup →
      Interleaved (cstack.map Prod.fst) st.sstack →
      cstack.length + 2 * (g.nodes.length - (keysA st.idx).length) < fuel →
      ∃ st', sccLoop g fuel cstack st = .ok st' ∧
        keysA st'.idx = keysA st'.low ∧
        (keysA st'.idx).Nodup ∧
        keysA st'.idx ⊆ g.node_names ∧
        (∀ x ∈ st'.sstack, x ∈ keysA st'.idx) ∧
        st'.sstack.Nodup := by
  intro fuel
  induction fuel with
  | zero =>
    intro cstack st _ _ _ _ _ _ _ _ h
    omega
  | succ fuel ih =>
    intro cstack st hT1 hT1b hT2 hT3 hT4 hT5 hT5b hT6 hμ
    match cstack with
    | [] =>
      exact ⟨st, rfl, hT1, hT1b, hT2, hT5, hT5b⟩
    | (u, vs) :: rest =>
      have hu_idx : u ∈ keysA st.idx := hT3 (u, vs) (List.mem_cons_self _ _)
      have hu_low : u ∈ keysA st.low := by
        rw [← hT1]
        exact hu_idx
      obtain ⟨cons, hadj⟩ := hT4 (u, vs) (List.mem_cons_self _ _)
      have hvs_adj : ∀ v ∈ vs, v ∈ keysA g.adj := by
        intro v hv
        apply node_mem_adj_keys g hwf
        exact hwf.2.2.1 (u, cons ++ vs) (getA_mem _ _ _ hadj) v (by simp [hv])
      obtain ⟨out, hscan, hcases⟩ := sccScan_spec g u vs st hu_low hvs_adj
      rcases hcases with ⟨lu', hout⟩ | ⟨va, nv, vs', pre, lu', hsplit, hnone, hnv, hout⟩
      · -- neighbors exhausted: maybe close a component, then pop the frame
        subst hout
        obtain ⟨iu, hiu⟩ := Option.isSome_iff_exists.mp ((getA_isSome_iff _ _).mpr hu_idx)
        have hkeys1 : keysA (setA st.low u lu') = keysA st.low :=
          keysA_setA_of_mem _ _ _ hu_low
        have hT1' : keysA st.idx = keysA (setA st.low u lu') := by
          rw [hkeys1]
          exact hT1
        by_cases hroot : lu' = iu
        · -- low[u] == idx[u]: a component [.., u] is closed and popped
          obtain ⟨seg, s', hsdec, hinter'⟩ := hT6
          have hseg : u ∉ seg := by
            intro hc
            have hnd := hT5b
            rw [hsdec, List.nodup_append] at hnd
            exact hnd.2.2 hc (List.mem_cons_self _ _)
          obtain ⟨ons', hpop, honsv⟩ := popComp_spec u seg s' st.ons hseg
          have hs'_sub : ∀ x ∈ s', x ∈ keysA st.idx := by
            intro x hx
            apply hT5
            rw [hsdec]
            simp only [List.mem_append, List.mem_cons]
            exact Or.inr (Or.inr hx)
          have hs'_nd : s'.Nodup := by
            have hnd := hT5b
            rw [hsdec, List.nodup_append] at hnd
            exact (List.nodup_cons.mp hnd.2.1).2
          match rest, hinter' with
          | [], _ =>
            obtain ⟨st₄, h₄run, h₄c⟩ := ih []
              (TState.mk st.idx (setA st.low u lu') ons' s'
                (st.comps ++ [seg ++ [u]]) st.counter)
              hT1' hT1b hT2
              (by intro f hf; exact absurd hf (List.not_mem_nil f))
              (by intro f hf; exact absurd hf (List.not_mem_nil f))
              hs'_sub hs'_nd trivial
              (by simp only [List.length_nil, List.length_cons] at hμ ⊢; omega)
            refine ⟨st₄, ?_, h₄c⟩
            rw [sccLoop, hscan]
            simp only [getA_setA_self, hiu]
            rw [if_pos hroot, hsdec, hpop]
            exact h₄run
          | (p, pvs) :: prest, hinter' =>
            have hp_idx : p ∈ keysA st.idx :=
              hT3 (p, pvs) (List.mem_cons_of_mem _ (List.mem_cons_self _ _))
            have hp_low : p ∈ keysA (setA st.low u lu') := by
              rw [← hT1']
              exact hp_idx
            obtain ⟨lp, hlp⟩ :=
              Option.isSome_iff_exists.mp ((getA_isSome_iff _ _).mpr hp_low)
            obtain ⟨st₄, h₄run, h₄c⟩ := ih ((p, pvs) :: prest)
              (TState.mk st.idx (setA (setA st.low u lu') p (min lp lu')) ons' s'
                (st.comps ++ [seg ++ [u]]) st.counter)
              (by rw [keysA_setA_of_mem _ _ _ hp_low]; exact hT1')
              hT1b hT2
              (fun f hf => hT3 f (List.mem_cons_of_mem _ hf))
              (fun f hf => hT4 f (List.mem_cons_of_mem _ hf))
              hs'_sub hs'_nd hinter'
              (by simp only [List.length_cons] at hμ ⊢; omega)
            refine ⟨st₄, ?_, h₄c⟩
            rw [sccLoop, hscan]
            simp only [getA_setA_self, hiu]
            rw [if_pos hroot, hsdec, hpop]
            simp only [hlp, getA_setA_self]
            exact h₄run
        · -- low[u] ≠ idx[u]: the frame is popped without closing
          match rest, hT6 with
          | [], _ =>
            obtain ⟨st₄, h₄run, h₄c⟩ := ih []
              (TState.mk st.idx (setA st.low u lu') st.ons st.sstack
                st.comps st.counter)
              hT1' hT1b hT2
              (by intro f hf; exact absurd hf (List.not_mem_nil f))
              (by intro f hf; exact absurd hf (List.not_mem_nil f))
              hT5 hT5b trivial
              (by simp only [List.length_nil, List.length_cons] at hμ ⊢; omega)
            refine ⟨st₄, ?_, h₄c⟩
            rw [sccLoop, hscan]
            simp only [getA_setA_self, hiu]
            rw [if_neg hroot]
            exact h₄run
          | (p, pvs) :: prest, hT6 =>
            obtain ⟨seg, s', hsdec, hinter'⟩ := hT6
            have hp_idx : p ∈ keysA st.idx :=
              hT3 (p, pvs) (List.mem_cons_of_mem _ (List.mem_cons_self _ _))
            have hp_low : p ∈ keysA (setA st.low u lu') := by
              rw [← hT1']
              exact hp_idx
            obtain ⟨lp, hlp⟩ :=
              Option.isSome_iff_exists.mp ((getA_isSome_iff _ _).mpr hp_low)
            have hint2 : Interleaved (((p, pvs) :: prest).map Prod.fst) st.sstack := by
              have h2 := interleaved_extend _ s' (seg ++ [u]) hinter'
              rw [hsdec]
              have h3 : (seg ++ [u]) ++ s' = seg ++ u :: s' := by simp
              rw [← h3]
              exact h2
            obtain ⟨st₄, h₄run, h₄c⟩ := ih ((p, pvs) :: prest)
              (TState.mk st.idx (setA (setA st.low u lu') p (min lp lu')) st.ons st.sstack
                st.comps st.counter)
              (by rw [keysA_setA_of_mem _ _ _ hp_low]; exact hT1')
              hT1b hT2
              (fun f hf => hT3 f (List.mem_cons_of_mem _ hf))
              (fun f hf => hT4 f (List.mem_cons_of_mem _ hf))
              hT5 hT5b hint2
              (by simp only [List.length_cons] at hμ ⊢; omega)
            refine ⟨st₄, ?_, h₄c⟩
            rw [sccLoop, hscan]
            simp only [getA_setA_self, hiu]
            rw [if_neg hroot]
            simp only [hlp, getA_setA_self]
            exact h₄run
      · -- an unvisited neighbor: descend into it
        subst hout
        have hva_not : va ∉ keysA st.idx := by
          intro hc
          have h2 := (getA_isSome_iff st.idx va).mpr hc
          rw [hnone] at h2
          exact absurd h2 (by decide)
        have hva_adj : va ∈ keysA g.adj := by
          apply hvs_adj
          rw [hsplit]
          simp
        have hva_names : va ∈ g.node_names := by
          have h2 := hva_adj
          rw [hwf.1] at h2
          exact h2
        have hkeys1 : keysA (setA st.low u lu') = keysA st.low :=
          keysA_setA_of_mem _ _ _ hu_low
        have hva_low : va ∉ keysA (setA st.low u lu') := by
          rw [hkeys1, ← hT1]
          exact hva_not
        have hkI : keysA (setA st.idx va st.counter) = keysA st.idx ++ [va] :=
          keysA_setA_of_not_mem _ _ _ hva_not
        have hkL : keysA (setA (setA st.low u lu') va st.counter) =
            keysA (setA st.low u lu') ++ [va] :=
          keysA_setA_of_not_mem _ _ _ hva_low
        have hT1' : keysA (setA st.idx va st.counter) =
            keysA (setA (setA st.low u lu') va st.counter) := by
          rw [hkI, hkL, hkeys1, hT1]
        have hT1b' : (keysA (setA st.idx va st.counter)).Nodup := by
          rw [hkI, List.nodup_append]
          exact ⟨hT1b, List.nodup_singleton va,
            fun a ha hb => hva_not (by rw [List.mem_singleton] at hb; rw [← hb]; exact ha)⟩
        have hT2' : keysA (setA st.idx va st.counter) ⊆ g.node_names := by
          rw [hkI]
          intro x hx
          rcases List.mem_append.mp hx with h1 | h1
          · exact hT2 h1
          · rw [List.mem_singleton] at h1
            rw [h1]
            exact hva_names
        have hlen : (keysA st.idx).length + 1 ≤ g.nodes.length := by
          have h2 := nodup_subset_length hT1b' hT2'
          have h3 : g.node_names.length = g.nodes.length := keysA_length g.nodes
          rw [hkI] at h2
          simp only [List.length_append, List.length_singleton] at h2
          omega
        obtain ⟨st₄, h₄run, h₄c⟩ := ih ((va, nv) :: (u, vs') :: rest)
          (TState.mk (setA st.idx va st.counter)
            (setA (setA st.low u lu') va st.counter)
            (setA st.ons va true) (va :: st.sstack) st.comps (st.counter + 1))
          hT1' hT1b' hT2'
          (by
            intro f hf
            rcases List.mem_cons.mp hf with h1 | h1
            · rw [h1, hkI]
              simp
            · rcases List.mem_cons.mp h1 with h2 | h2
              · rw [h2, hkI]
                exact List.mem_append_left _ hu_idx
              · rw [hkI]
                exact List.mem_append_left _ (hT3 f (List.mem_cons_of_mem _ h2)))
          (by
            intro f hf
            rcases List.mem_cons.mp hf with h1 | h1
            · rw [h1]
              exact ⟨[], hnv⟩
            · rcases List.mem_cons.mp h1 with h2 | h2
              · rw [h2]
                refine ⟨cons ++ (pre ++ [va]), ?_⟩
                rw [hadj, hsplit]
                congr 1
                simp
              · exact hT4 f (List.mem_cons_of_mem _ h2))
          (by
            intro x hx
            rw [hkI]
            rcases List.mem_cons.mp hx with h1 | h1
            · rw [h1]
              simp
            · exact List.mem_append_left _ (hT5 x h1))
          (by
            rw [List.nodup_cons]
            exact ⟨fun hc => hva_not (hT5 va hc), hT5b⟩)
          ⟨[], st.sstack, rfl, hT6⟩
          (by
            have h4 : (keysA (setA st.idx va st.counter)).length =
                (keysA st.idx).length + 1 := by
              rw [hkI]
              simp
            rw [h4]
            simp only [List.length_cons] at hμ ⊢
            omega)
        refine ⟨st₄, ?_, h₄c⟩
        rw [sccLoop, hscan]
        exact h₄run

end DGVis

namespace DGVis

/-- The outer `for start in graph.node_names()` loop of Tarjan never
fails on a well-formed graph. -/
theorem sccOuter_inv (g : Graph) (hwf : WF g) :
    ∀ (names : List String) (st : TState),
      names ⊆ g.node_names →
      keysA st.idx = keysA st.low →
      (keysA st.idx).Nodup →
      keysA st.idx ⊆ g.node_names →
      (∀ x ∈ st.sstack, x ∈ keysA st.idx) →
      st.sstack.Nodup →
      ∃ st', sccOuter g names st = .ok st' := by
  intro names
  induction names with
  | nil =>
    intro st _ _ _ _ _ _
    exact ⟨st, rfl⟩
  | cons s rest ihn =>
    intro st hsub hT1 hT1b hT2 hT5 hT5b
    by_cases hsi : (getA st.idx s).isSome = true
    · obtain ⟨st', h⟩ := ihn st (fun x hx => hsub (List.mem_cons_of_mem _ hx))
        hT1 hT1b hT2 hT5 hT5b
      refine ⟨st', ?_⟩
      rw [sccOuter, if_pos hsi]
      exact h
    · have hsN : s ∈ g.node_names := hsub (List.mem_cons_self _ _)
      have hsa : s ∈ keysA g.adj := node_mem_adj_keys g hwf s hsN
      obtain ⟨ns, hns⟩ := Option.isSome_iff_exists.mp ((getA_isSome_iff _ _).mpr hsa)
      have hs_not : s ∉ keysA st.idx := fun hc => hsi ((getA_isSome_iff _ _).mpr hc)
      have hs_low_not : s ∉ keysA st.low := by
        rw [← hT1]
        exact hs_not
      have hkI : keysA (setA st.idx s st.counter) = keysA st.idx ++ [s] :=
        keysA_setA_of_not_mem _ _ _ hs_not
      have hkL : keysA (setA st.low s st.counter) = keysA st.low ++ [s] :=
        keysA_setA_of_not_mem _ _ _ hs_low_not
      obtain ⟨st₄, h₄run, h₄1, h₄2, h₄3, h₄4, h₄5⟩ :=
        sccLoop_inv g hwf (sccFuel g) [(s, ns)]
          (TState.mk (setA st.idx s st.counter) (setA st.low s st.counter)
            (setA st.ons s true) (s :: st.sstack) st.comps (st.counter + 1))
          (by rw [hkI, hkL, hT1])
          (by
            rw [hkI, List.nodup_append]
            exact ⟨hT1b, List.nodup_singleton s,
              fun a ha hb => hs_not (by rw [List.mem_singleton] at hb; rw [← hb]; exact ha)⟩)
          (by
            rw [hkI]
            intro x hx
            rcases List.mem_append.mp hx with h1 | h1
            · exact hT2 h1
            · rw [List.mem_singleton] at h1
              rw [h1]
              exact hsN)
          (by
            intro f hf
            have hfs : f = (s, ns) := by simpa using hf
            rw [hfs, hkI]
            simp)
          (by
            intro f hf
            have hfs : f = (s, ns) := by simpa using hf
            rw [hfs]
            exact ⟨[], hns⟩)
          (by
            intro x hx
            rw [hkI]
            rcases List.mem_cons.mp hx with h1 | h1
            · rw [h1]
              simp
            · exact List.mem_append_left _ (hT5 x h1))
          (by
            rw [List.nodup_cons]
            exact ⟨fun hc => hs_not (hT5 s hc), hT5b⟩)
          ⟨[], st.sstack, rfl, trivial⟩
          (by
            have h2 : (keysA st.idx).length + 1 ≤ g.nodes.length ∨ True := Or.inr trivial
            rw [hkI, sccFuel]
            simp only [List.length_cons, List.length_nil, List.length_append,
              List.length_singleton]
            have h3 : g.nodes.length - ((keysA st.idx).length + 1) ≤ g.nodes.length :=
              Nat.sub_le _ _
            omega)
      obtain ⟨st', h'⟩ := ihn st₄ (fun x hx => hsub (List.mem_cons_of_mem _ hx))
        h₄1 h₄2 h₄3 h₄4 h₄5
      refine ⟨st', ?_⟩
      rw [sccOuter, if_neg hsi, Graph.neighbors, hns]
      simp only [h₄run]
      exact h'

/-- `strongly_connected_components` never fails on a well-formed graph. -/
theorem scc_ok (g : Graph) (hwf : WF g) :
    ∃ r, strongly_connected_components g = .ok r := by
  obtain ⟨st', h⟩ := sccOuter_inv g hwf g.node_names ⟨[], [], [], [], [], 0⟩
    (fun x hx => hx) rfl List.nodup_nil
    (by intro x hx; exact absurd hx (List.not_mem_nil x))
    (by intro x hx; exact absurd hx (List.not_mem_nil x))
    List.nodup_nil
  refine ⟨sortDesc (st'.comps.filter (fun c => decide (1 < c.length))) ++
    st'.comps.filter (fun c => decide (c.length = 1)), ?_⟩
  rw [strongly_connected_components, h]

end DGVis

namespace DGVis

/-- `compute_depth` with no explicit root never fails on a well-formed
graph: an empty root list yields the empty mapping, otherwise BFS runs
from the first root, which is a present node. -/
theorem compute_depth_none_ok (g : Graph) (hwf : WF g) :
    ∃ d, compute_depth g none = .ok d := by
  cases hroots : g.roots with
  | nil =>
    refine ⟨[], ?_⟩
    rw [compute_depth, hroots]
  | cons r rs =>
    have hrN : r ∈ g.node_names := by
      have h1 : r ∈ g.roots := by
        rw [hroots]
        exact List.mem_cons_self _ _
      rw [Graph.roots] at h1
      exact (List.mem_filter.mp h1).1
    have hrh : g.has_node r = true := (getA_isSome_iff g.nodes r).mpr hrN
    obtain ⟨d, hd, _, _, _⟩ := depthRun_spec g hwf r hrh
    refine ⟨d, ?_⟩
    rw [compute_depth, hroots]
    exact hd

/-- The leaf scan of `graph_stats` never fails when every scanned name
is an adjacency key. -/
theorem leavesM_ok (g : Graph) (hwf : WF g) :
    ∀ names, names ⊆ g.node_names → ∃ ls, leavesM g names = .ok ls := by
  intro names
  induction names with
  | nil =>
    intro _
    exact ⟨[], rfl⟩
  | cons n rest ih =>
    intro hsub
    have hna : n ∈ keysA g.adj :=
      node_mem_adj_keys g hwf n (hsub (List.mem_cons_self _ _))
    obtain ⟨l, hl⟩ := Option.isSome_iff_exists.mp ((getA_isSome_iff _ _).mpr hna)
    obtain ⟨ls, hls⟩ := ih (fun x hx => hsub (List.mem_cons_of_mem _ hx))
    refine ⟨if l.length = 0 then n :: ls else ls, ?_⟩
    rw [leavesM, Graph.neighbors, hl]
    simp only [hls]

/-- `graph_stats` never fails on a well-formed graph. -/
theorem graph_stats_ok (g : Graph) (hwf : WF g) :
    ∃ st, graph_stats g = .ok st := by
  obtain ⟨cycles, hdet, _, _⟩ := detect_spec g hwf
  obtain ⟨leaves, hleaves⟩ := leavesM_ok g hwf g.node_names (fun x hx => hx)
  cases hgs : graph_stats g with
  | ok stt => exact ⟨stt, rfl⟩
  | error e =>
    exfalso
    cases hroots : g.roots with
    | nil =>
      rw [graph_stats, hroots] at hgs
      simp only [hdet, hleaves] at hgs
      exact Except.noConfusion hgs
    | cons r rs =>
      have hrN : r ∈ g.node_names := by
        have h1 : r ∈ g.roots := by
          rw [hroots]
          exact List.mem_cons_self _ _
        rw [Graph.roots] at h1
        exact (List.mem_filter.mp h1).1
      have hrh : g.has_node r = true := (getA_isSome_iff g.nodes r).mpr hrN
      obtain ⟨d, hd, _, _, _⟩ := depthRun_spec g hwf r hrh
      have hcd : compute_depth g (some r) = Except.ok d := hd
      rw [graph_stats, hroots] at hgs
      simp only [hcd, hdet, hleaves] at hgs
      exact Except.noConfusion hgs

/-- Claim C8: on every well-formed graph, `detect_cycles`,
`compute_depth` with no explicit root, `transitive_deps` on any present
node, `strongly_connected_components`, `topological_sort` on an acyclic
graph, and `graph_stats` all succeed; and on the empty graph each
analysis returns its empty default (`graph_stats` with node_count 0,
edge_count 0, max_depth 0 and avg_direct_deps 0). -/
theorem claim_C8 (g : Graph) (hwf : WF g) :
    ((∃ cycles, detect_cycles g = .ok cycles) ∧
     (∃ depths, compute_depth g none = .ok depths) ∧
     (∀ n, g.has_node n = true → ∃ r, transitive_deps g n = .ok r) ∧
     (∃ comps, strongly_connected_components g = .ok comps) ∧
     (Acyclic g → ∃ order, topological_sort g = .ok order) ∧
     (∃ st, graph_stats g = .ok st)) ∧
    (detect_cycles Graph.empty = .ok [] ∧
     compute_depth Graph.empty none = .ok [] ∧
     strongly_connected_components Graph.empty = .ok [] ∧
     topological_sort Graph.empty = .ok [] ∧
     graph_stats Graph.empty = .ok ⟨0, 0, [], [], 0, 0, false, 0, [], 0⟩) := by
  refine ⟨⟨?_, compute_depth_none_ok g hwf, ?_, scc_ok g hwf, ?_, graph_stats_ok g hwf⟩,
    rfl, rfl, rfl, rfl, rfl⟩
  · obtain ⟨cycles, hdet, _, _⟩ := detect_spec g hwf
    exact ⟨cycles, hdet⟩
  · intro n hn
    exact transitive_deps_ok g hwf n hn
  · intro hac
    obtain ⟨order, hord, _, _⟩ := topo_ok_of_acyclic g hwf hac
    exact ⟨order, hord⟩

/-- Claim C8 witness: a concrete two-node well-formed graph. -/
theorem claim_C8_witness :
    WF (build_graph [("a", ["b"]), ("b", [])]) ∧
    (((∃ cycles, detect_cycles (build_graph [("a", ["b"]), ("b", [])]) = .ok cycles) ∧
      (∃ depths, compute_depth (build_graph [("a", ["b"]), ("b", [])]) none = .ok depths) ∧
      (∀ n, (build_graph [("a", ["b"]), ("b", [])]).has_node n = true →
        ∃ r, transitive_deps (build_graph [("a", ["b"]), ("b", [])]) n = .ok r) ∧
      (∃ comps, strongly_connected_components (build_graph [("a", ["b"]), ("b", [])]) =
        .ok comps) ∧
      (Acyclic (build_graph [("a", ["b"]), ("b", [])]) →
        ∃ order, topological_sort (build_graph [("a", ["b"]), ("b", [])]) = .ok order) ∧
      (∃ st, graph_stats (build_graph [("a", ["b"]), ("b", [])]) = .ok st)) ∧
     (detect_cycles Graph.empty = .ok [] ∧
      compute_depth Graph.empty none = .ok [] ∧
      strongly_connected_components Graph.empty = .ok [] ∧
      topological_sort Graph.empty = .ok [] ∧
      graph_stats Graph.empty = .ok ⟨0, 0, [], [], 0, 0, false, 0, [], 0⟩)) :=
  ⟨by decide, claim_C8 (build_graph [("a", ["b"]), ("b", [])]) (by decide)⟩

end DGVis

namespace DGVis

theorem valOf_setA_self (m : AList Nat) (k : String) (v : Nat) :
    valOf (setA m k v) k = v := by
  rw [valOf, getA_setA_self]
  rfl

theorem valOf_setA_ne (m : AList Nat) (k k' : String) (v : Nat) (h : k' ≠ k) :
    valOf (setA m k v) k' = valOf m k' := by
  rw [valOf, getA_setA_ne _ _ _ _ h, valOf]

theorem valOf_eq_of_getA (m : AList Nat) (k : String) (v : Nat)
    (h : getA m k = some v) : valOf m k = v := by
  rw [valOf, h]
  rfl

/-- The Tarjan neighbor scan with full value tracking: it only lowers
the frame's lowlink, any strict lowering is witnessed by an on-stack
indexed node, and every consumed neighbor is indexed with the final
lowlink bounded by its index whenever it was on stack. -/
theorem sccScan_corr (g : Graph) (u : String) :
    ∀ (vs : List String) (st : TState),
      u ∈ keysA st.low →
      (∀ v ∈ vs, v ∈ keysA g.adj) →
      ∃ out, sccScan g u vs st = .ok out ∧
        ((∃ lu', out = ScanOut.exhausted { st with low := setA st.low u lu' } ∧
           lu' ≤ valOf st.low u ∧
           (lu' = valOf st.low u ∨ ∃ v, v ∈ vs ∧ (getA st.ons v).getD false = true ∧
             v ∈ keysA st.idx ∧ lu' = valOf st.idx v) ∧
           (∀ b ∈ vs, b ∈ keysA st.idx ∧
             ((getA st.ons b).getD false = true → lu' ≤ valOf st.idx b))) ∨
         (∃ va nv vs' pre lu',
            vs = pre ++ va :: vs' ∧
            getA st.idx va = none ∧
            getA g.adj va = some nv ∧
            out = ScanOut.advanced va nv vs' (TState.mk (setA st.idx va st.counter)
              (setA (setA st.low u lu') va st.counter)
              (setA st.ons va true) (va :: st.sstack) st.comps (st.counter + 1)) ∧
            lu' ≤ valOf st.low u ∧
            (lu' = valOf st.low u ∨ ∃ v, v ∈ pre ∧ (getA st.ons v).getD false = true ∧
              v ∈ keysA st.idx ∧ lu' = valOf st.idx v) ∧
            (∀ b ∈ pre, b ∈ keysA st.idx ∧
              ((getA st.ons b).getD false = true → lu' ≤ valOf st.idx b)))) := by
  intro vs
  induction vs with
  | nil =>
    intro st hu _
    obtain ⟨lu, hlu⟩ := Option.isSome_iff_exists.mp ((getA_isSome_iff _ _).mpr hu)
    refine ⟨ScanOut.exhausted st, by rw [sccScan], Or.inl ⟨lu, ?_, ?_, Or.inl ?_, ?_⟩⟩
    · rw [setA_getA_self _ _ _ hlu]
    · rw [valOf_eq_of_getA _ _ _ hlu]
    · rw [valOf_eq_of_getA _ _ _ hlu]
    · intro b hb
      exact absurd hb (List.not_mem_nil b)
  | cons v rest ih =>
    intro st hu hadj
    by_cases hvi : (getA st.idx v).isSome
    · have hvk : v ∈ keysA st.idx := (getA_isSome_iff _ _).mp hvi
      by_cases hvo : (getA st.ons v).getD false = true
      · obtain ⟨lu, hlu⟩ := Option.isSome_iff_exists.mp ((getA_isSome_iff _ _).mpr hu)
        obtain ⟨iv, hiv⟩ := Option.isSome_iff_exists.mp hvi
        have hvlu : valOf st.low u = lu := valOf_eq_of_getA _ _ _ hlu
        have hviv : valOf st.idx v = iv := valOf_eq_of_getA _ _ _ hiv
        have hu1 : u ∈ keysA (setA st.low u (min lu iv)) := by
          rw [keysA_setA_of_mem _ _ _ hu]
          exact hu
        obtain ⟨out, hrun, hcases⟩ := ih { st with low := setA st.low u (min lu iv) }
          hu1 (fun x hx => hadj x (List.mem_cons_of_mem _ hx))
        have hmin_le : min lu iv ≤ lu := Nat.min_le_left _ _
        have hmin_le2 : min lu iv ≤ iv := Nat.min_le_right _ _
        have hval1 : valOf (setA st.low u (min lu iv)) u = min lu iv :=
          valOf_setA_self _ _ _
        refine ⟨out, ?_, ?_⟩
        · rw [sccScan, if_pos hvi, if_pos hvo, hlu, hiv]
          exact hrun
        · rcases hcases with ⟨lu', hout, hle, hdisj, hbs⟩ |
            ⟨va, nv, vs', pre, lu', hsplit, hnone, hnv, hout, hle, hdisj, hbs⟩
          · left
            refine ⟨lu', ?_, ?_, ?_, ?_⟩
            · rw [hout]
              simp only [setA_setA]
            · rw [hvlu]
              rw [hval1] at hle
              omega
            · rw [hval1] at hle
              rcases hdisj with h1 | ⟨w, hw1, hw2, hw3, hw4⟩
            -- the minimum stopped at the old value or at v itself
              · rw [hval1] at h1
                rcases Nat.le_total lu iv with h2 | h2
                · rw [Nat.min_eq_left h2] at h1
                  left
                  rw [hvlu]
                  exact h1
                · rw [Nat.min_eq_right h2] at h1
                  right
                  exact ⟨v, List.mem_cons_self _ _, hvo, hvk, by rw [hviv]; exact h1⟩
              · right
                exact ⟨w, List.mem_cons_of_mem _ hw1, hw2, hw3, hw4⟩
            · intro b hb
              rcases List.mem_cons.mp hb with h1 | h1
              · subst h1
                refine ⟨hvk, fun _ => ?_⟩
                rw [hval1] at hle
                rw [hviv]
                omega
              · exact hbs b h1
          · right
            refine ⟨va, nv, vs', v :: pre, lu', by rw [hsplit]; rfl, hnone, hnv, ?_, ?_, ?_, ?_⟩
            · rw [hout]
              simp only [setA_setA]
            · rw [hval1] at hle
              rw [hvlu]
              omega
            · rw [hval1] at hle
              rcases hdisj with h1 | ⟨w, hw1, hw2, hw3, hw4⟩
              · rw [hval1] at h1
                rcases Nat.le_total lu iv with h2 | h2
                · rw [Nat.min_eq_left h2] at h1
                  left
                  rw [hvlu]
                  exact h1
                · rw [Nat.min_eq_right h2] at h1
                  right
                  exact ⟨v, List.mem_cons_self _ _, hvo, hvk, by rw [hviv]; exact h1⟩
              · right
                exact ⟨w, List.mem_cons_of_mem _ hw1, hw2, hw3, hw4⟩
            · intro b hb
              rcases List.mem_cons.mp hb with h1 | h1
              · subst h1
                refine ⟨hvk, fun _ => ?_⟩
                rw [hval1] at hle
                rw [hviv]
                omega
              · exact hbs b h1
      · obtain ⟨out, hrun, hcases⟩ := ih st hu
          (fun x hx => hadj x (List.mem_cons_of_mem _ hx))
        refine ⟨out, ?_, ?_⟩
        · rw [sccScan, if_pos hvi, if_neg hvo]
          exact hrun
        · rcases hcases with ⟨lu', hout, hle, hdisj, hbs⟩ |
            ⟨va, nv, vs', pre, lu', hsplit, hnone, hnv, hout, hle, hdisj, hbs⟩
          · left
            refine ⟨lu', hout, hle, ?_, ?_⟩
            · rcases hdisj with h1 | ⟨w, hw1, hw2, hw3, hw4⟩
              · exact Or.inl h1
              · exact Or.inr ⟨w, List.mem_cons_of_mem _ hw1, hw2, hw3, hw4⟩
            · intro b hb
              rcases List.mem_cons.mp hb with h1 | h1
              · subst h1
                exact ⟨hvk, fun ht => absurd ht hvo⟩
              · exact hbs b h1
          · right
            refine ⟨va, nv, vs', v :: pre, lu', by rw [hsplit]; rfl, hnone, hnv, hout,
              hle, ?_, ?_⟩
            · rcases hdisj with h1 | ⟨w, hw1, hw2, hw3, hw4⟩
              · exact Or.inl h1
              · exact Or.inr ⟨w, List.mem_cons_of_mem _ hw1, hw2, hw3, hw4⟩
            · intro b hb
              rcases List.mem_cons.mp hb with h1 | h1
              · subst h1
                exact ⟨hvk, fun ht => absurd ht hvo⟩
              · exact hbs b h1
    · have hva : v ∈ keysA g.adj := hadj v (List.mem_cons_self _ _)
      obtain ⟨nv, hnv⟩ := Option.isSome_iff_exists.mp ((getA_isSome_iff _ _).mpr hva)
      obtain ⟨lu, hlu⟩ := Option.isSome_iff_exists.mp ((getA_isSome_iff _ _).mpr hu)
      refine ⟨ScanOut.advanced v nv rest (TState.mk (setA st.idx v st.counter)
        (setA st.low v st.counter) (setA st.ons v true) (v :: st.sstack) st.comps
        (st.counter + 1)), ?_, ?_⟩
      · rw [sccScan, if_neg hvi, Graph.neighbors, hnv]
      · right
        refine ⟨v, nv, rest, [], lu, by simp, ?_, hnv, ?_, ?_, Or.inl ?_, ?_⟩
        · rw [← Option.not_isSome_iff_eq_none]
          exact hvi
        · rw [setA_getA_self _ _ _ hlu]
        · rw [valOf_eq_of_getA _ _ _ hlu]
        · rw [valOf_eq_of_getA _ _ _ hlu]
        · intro b hb
          exact absurd hb (List.not_mem_nil b)

end DGVis

namespace DGVis

/-- Frame nodes listed in a `SegOK` interleaving all sit on the stack. -/
theorem SegOK_mem (g : Graph) (low : AList Nat) :
    ∀ us s, SegOK g low us s → ∀ w ∈ us, w ∈ s := by
  intro us
  induction us with
  | nil =>
    intro s _ w hw
    exact absurd hw (List.not_mem_nil w)
  | cons u us ih =>
    intro s hseg w hw
    obtain ⟨seg, s', hdec, _, _, hrest⟩ := hseg
    rcases List.mem_cons.mp hw with h1 | h1
    · rw [hdec, h1]
      simp
    · rw [hdec]
      simp only [List.mem_append, List.mem_cons]
      exact Or.inr (Or.inr (ih s' hrest w h1))

/-- `SegOK` only inspects lowlink values of stack members. -/
theorem SegOK_congr (g : Graph) (low low' : AList Nat) :
    ∀ us s, SegOK g low us s → (∀ x ∈ s, valOf low' x = valOf low x) →
      SegOK g low' us s := by
  intro us
  induction us with
  | nil =>
    intro s h _
    exact h
  | cons u us ih =>
    intro s hseg hval
    obtain ⟨seg, s', hdec, hreach, hlow, hrest⟩ := hseg
    have hu_mem : u ∈ s := by
      rw [hdec]
      simp
    refine ⟨seg, s', hdec, hreach, ?_, ?_⟩
    · intro x hx
      have hx_mem : x ∈ s := by
        rw [hdec]
        simp [hx]
      rw [hval u hu_mem, hval x hx_mem]
      exact hlow x hx
    · refine ih s' hrest ?_
      intro x hx
      apply hval
      rw [hdec]
      simp [hx]

/-- Strong-induction core of the component-pop argument: every merged
node of the popped segment reaches the root, following lowlink
witnesses of strictly decreasing index. -/
theorem seg_reaches_root (g : Graph) (idx low : AList Nat) (u : String) (seg : List String)
    (hlowlt : ∀ x ∈ seg, valOf low x < valOf idx x)
    (hlowge : ∀ x ∈ seg, valOf idx u ≤ valOf low x)
    (hwit : ∀ x ∈ seg, ∃ z, (z ∈ seg ∨ z = u) ∧ valOf idx z = valOf low x ∧
      Relation.ReflTransGen (Edge g) x z) :
    ∀ x ∈ seg, Relation.ReflTransGen (Edge g) x u := by
  have key : ∀ n, ∀ x ∈ seg, valOf idx x < n → Relation.ReflTransGen (Edge g) x u := by
    intro n
    induction n with
    | zero =>
      intro x _ h
      omega
    | succ n ihn =>
      intro x hx hlt
      obtain ⟨z, hz, hzi, hzr⟩ := hwit x hx
      rcases hz with hz | hz
      · have h1 : valOf low x < valOf idx x := hlowlt x hx
        have h2 : valOf idx z < n := by omega
        exact Relation.ReflTransGen.trans hzr (ihn z hz h2)
      · subst hz
        exact hzr
  intro x hx
  exact key (valOf idx x + 1) x hx (Nat.lt_succ_self _)

/-- Decompositions of `l ++ [c]` around a distinguished element. -/
theorem append_singleton_decomp {α : Type} (c : α) :
    ∀ (l pre post : List α) (x : α), l ++ [c] = pre ++ x :: post →
      (pre = l ∧ x = c ∧ post = []) ∨
      (∃ post', post = post' ++ [c] ∧ l = pre ++ x :: post') := by
  intro l
  induction l with
  | nil =>
    intro pre post x h
    simp only [List.nil_append] at h
    match pre, h with
    | [], h =>
      simp only [List.nil_append, List.cons.injEq] at h
      exact Or.inl ⟨rfl, h.1.symm, h.2.symm⟩
    | p :: pre', h =>
      simp only [List.cons_append, List.cons.injEq] at h
      obtain ⟨h1, h2⟩ := h
      exact absurd h2.symm (List.append_ne_nil_of_right_ne_nil _ (by simp))
  | cons a l ih =>
    intro pre post x h
    match pre, h with
    | [], h =>
      simp only [List.cons_append, List.nil_append, List.cons.injEq] at h
      obtain ⟨h1, h2⟩ := h
      right
      exact ⟨l, h2.symm, by rw [h1]; rfl⟩
    | p :: pre', h =>
      simp only [List.cons_append, List.cons.injEq] at h
      obtain ⟨h1, h2⟩ := h
      rcases ih pre' post x h2 with ⟨g1, g2, g3⟩ | ⟨post', g1, g2⟩
      · exact Or.inl ⟨by rw [h1, g1], g2, g3⟩
      · exact Or.inr ⟨post', g1, by rw [h1, g2]; rfl⟩

end DGVis

namespace DGVis

/-- Descending into an unvisited neighbor preserves the Tarjan
invariant: the fresh node gets the next index as both index and
lowlink, joins the stack top, and opens a frame above its parent. -/
theorem TJ_advance (g : Graph) (hwf : WF g) (u va : String)
    (vs vs' pre nv : List String) (rest : List (String × List String))
    (st : TState) (lu' : Nat)
    (hTJ : TJ g ((u, vs) :: rest) st)
    (hsplit : vs = pre ++ va :: vs')
    (hnone : getA st.idx va = none)
    (hnv : getA g.adj va = some nv)
    (hle : lu' ≤ valOf st.low u)
    (hdisj : lu' = valOf st.low u ∨ ∃ v, v ∈ pre ∧ (getA st.ons v).getD false = true ∧
      v ∈ keysA st.idx ∧ lu' = valOf st.idx v)
    (hbs : ∀ b ∈ pre, b ∈ keysA st.idx ∧
      ((getA st.ons b).getD false = true → lu' ≤ valOf st.idx b)) :
    TJ g ((va, nv) :: (u, vs') :: rest)
      (TState.mk (setA st.idx va st.counter) (setA (setA st.low u lu') va st.counter)
        (setA st.ons va true) (va :: st.sstack) st.comps (st.counter + 1)) := by
  obtain ⟨t1, t2, t3, t4, t5, t6, t7, t8, t9, t10, t11, t12, t13, t14, t15, t16, t17,
    t18, t19⟩ := hTJ
  obtain ⟨seg, s', hsdec, hsegreach, hseglow, hsegrest⟩ := t13
  have hu_s : u ∈ st.sstack := by
    rw [hsdec]
    simp
  have hu_k : u ∈ keysA st.idx := t4 u |>.mpr (Or.inl hu_s)
  have hu_lowk : u ∈ keysA st.low := by
    rw [← t1]
    exact hu_k
  obtain ⟨cons, hadj, hconsf⟩ := t16 [] (u, vs) rest rfl
  have hva_vs : va ∈ vs := by
    rw [hsplit]
    simp
  have hva_names : va ∈ g.node_names := by
    exact hwf.2.2.1 (u, cons ++ vs) (getA_mem _ _ _ hadj) va (by simp [hva_vs])
  have hva_not : va ∉ keysA st.idx := by
    intro hc
    have h2 := (getA_isSome_iff st.idx va).mpr hc
    rw [hnone] at h2
    exact absurd h2 (by decide)
  have hva_not_s : va ∉ st.sstack := fun h => hva_not ((t4 va).mpr (Or.inl h))
  have hva_not_f : va ∉ st.comps.flatten := fun h => hva_not ((t4 va).mpr (Or.inr h))
  have hu_ne_va : u ≠ va := fun h => hva_not (h ▸ hu_k)
  have hkeys1 : keysA (setA st.low u lu') = keysA st.low :=
    keysA_setA_of_mem _ _ _ hu_lowk
  have hva_not_low : va ∉ keysA (setA st.low u lu') := by
    rw [hkeys1, ← t1]
    exact hva_not
  have hkI : keysA (setA st.idx va st.counter) = keysA st.idx ++ [va] :=
    keysA_setA_of_not_mem _ _ _ hva_not
  have hkL : keysA (setA (setA st.low u lu') va st.counter) =
      keysA (setA st.low u lu') ++ [va] :=
    keysA_setA_of_not_mem _ _ _ hva_not_low
  have hvidx : ∀ x, x ≠ va → valOf (setA st.idx va st.counter) x = valOf st.idx x :=
    fun x hx => valOf_setA_ne _ _ _ _ hx
  have hvidxva : valOf (setA st.idx va st.counter) va = st.counter := valOf_setA_self _ _ _
  have hvlowva : valOf (setA (setA st.low u lu') va st.counter) va = st.counter :=
    valOf_setA_self _ _ _
  have hvlowu : valOf (setA (setA st.low u lu') va st.counter) u = lu' := by
    rw [valOf_setA_ne _ _ _ _ hu_ne_va, valOf_setA_self]
  have hvlow : ∀ x, x ≠ va → x ≠ u →
      valOf (setA (setA st.low u lu') va st.counter) x = valOf st.low x := by
    intro x h1 h2
    rw [valOf_setA_ne _ _ _ _ h1, valOf_setA_ne _ _ _ _ h2]
  have hEuva : Edge g u va := ⟨cons ++ vs, hadj, by simp [hva_vs]⟩
  have hk_ne : ∀ x ∈ keysA st.idx, x ≠ va := fun x hx he => hva_not (he ▸ hx)
  have hs_ne : ∀ x ∈ st.sstack, x ≠ va := fun x hx he => hva_not_s (he ▸ hx)
  have hlowle_u : lu' ≤ valOf st.idx u := le_trans hle (t10 u hu_s)
  have hss_nd : st.sstack.Nodup := (List.nodup_append.mp t5).1
  have hu_s' : u ∉ s' := by
    intro hc
    have := hss_nd
    rw [hsdec, List.nodup_append] at this
    exact (List.nodup_cons.mp this.2.1).1 hc
  refine ⟨?_, ?_, ?_, ?_, ?_, ?_, ?_, ?_, ?_, ?_, ?_, ?_, ?_, ?_, ?_, ?_, ?_, t18, t19⟩
  · -- keys of idx and low agree
    dsimp only
    rw [hkI, hkL, hkeys1, t1]
  · -- key list stays duplicate-free
    dsimp only
    rw [hkI, List.nodup_append]
    exact ⟨t2, List.nodup_singleton va,
      fun a ha hb => hva_not (by rw [List.mem_singleton] at hb; rw [← hb]; exact ha)⟩
  · -- keys stay node names
    dsimp only
    rw [hkI]
    intro x hx
    rcases List.mem_append.mp hx with h1 | h1
    · exact t3 h1
    · rw [List.mem_singleton] at h1
      rw [h1]
      exact hva_names
  · -- partition of indexed nodes
    dsimp only
    intro x
    rw [hkI]
    constructor
    · intro hx
      rcases List.mem_append.mp hx with h1 | h1
      · rcases (t4 x).mp h1 with h2 | h2
        · exact Or.inl (List.mem_cons_of_mem _ h2)
        · exact Or.inr h2
      · rw [List.mem_singleton] at h1
        rw [h1]
        exact Or.inl (List.mem_cons_self _ _)
    · intro hx
      rcases hx with h1 | h1
      · rcases List.mem_cons.mp h1 with h2 | h2
        · rw [h2]
          simp
        · exact List.mem_append_left _ ((t4 x).mpr (Or.inl h2))
      · exact List.mem_append_left _ ((t4 x).mpr (Or.inr h1))
  · -- stack plus closed components stays duplicate-free
    dsimp only
    rw [List.cons_append, List.nodup_cons]
    refine ⟨?_, t5⟩
    intro hc
    rcases List.mem_append.mp hc with h1 | h1
    · exact hva_not_s h1
    · exact hva_not_f h1
  · -- on-stack flags mirror the stack
    dsimp only
    intro x
    by_cases hx : x = va
    · subst hx
      rw [getA_setA_self]
      simp
    · rw [getA_setA_ne _ _ _ _ hx]
      rw [t6 x]
      constructor
      · intro h
        exact List.mem_cons_of_mem _ h
      · intro h
        rcases List.mem_cons.mp h with h1 | h1
        · exact absurd h1 hx
        · exact h1
  · -- indices stay below the counter
    dsimp only
    intro x hx
    rw [hkI] at hx
    rcases List.mem_append.mp hx with h1 | h1
    · rw [hvidx x (hk_ne x h1)]
      have := t7 x h1
      omega
    · rw [List.mem_singleton] at h1
      rw [h1, hvidxva]
      omega
  · -- indices stay injective
    dsimp only
    intro x y hx hy hxy
    rw [hkI] at hx hy
    rcases List.mem_append.mp hx with h1 | h1 <;> rcases List.mem_append.mp hy with h2 | h2
    · rw [hvidx x (hk_ne x h1), hvidx y (hk_ne y h2)] at hxy
      exact t8 x y h1 h2 hxy
    · rw [List.mem_singleton] at h2
      subst h2
      rw [hvidx x (hk_ne x h1), hvidxva] at hxy
      have := t7 x h1
      omega
    · rw [List.mem_singleton] at h1
      subst h1
      rw [hvidxva, hvidx y (hk_ne y h2)] at hxy
      have := t7 y h2
      omega
    · rw [List.mem_singleton] at h1 h2
      rw [h1, h2]
  · -- the stack is strictly descending in index
    dsimp only
    rw [List.pairwise_cons]
    constructor
    · intro y hy
      rw [hvidxva, hvidx y (hs_ne y hy)]
      exact t7 y ((t4 y).mpr (Or.inl hy))
    · refine t9.imp_of_mem ?_
      intro a b ha hb hab
      rw [hvidx a (hs_ne a ha), hvidx b (hs_ne b hb)]
      exact hab
  · -- lowlinks bounded by indices
    dsimp only
    intro x hx
    rcases List.mem_cons.mp hx with h1 | h1
    · subst h1
      rw [hvlowva, hvidxva]
    · by_cases hxu : x = u
      · subst hxu
        rw [hvlowu, hvidx x hu_ne_va]
        exact hlowle_u
      · rw [hvlow x (hs_ne x h1) hxu, hvidx x (hs_ne x h1)]
        exact t10 x h1
  · -- lowlink witnesses
    dsimp only
    intro x hx
    rcases List.mem_cons.mp hx with h1 | h1
    · subst h1
      exact ⟨x, List.mem_cons_self _ _, by rw [hvidxva, hvlowva], Relation.ReflTransGen.refl⟩
    · by_cases hxu : x = u
      · subst hxu
        rcases hdisj with h2 | ⟨v, hv1, hv2, hv3, hv4⟩
        · obtain ⟨z, hz1, hz2, hz3⟩ := t11 x h1
          refine ⟨z, List.mem_cons_of_mem _ hz1, ?_, hz3⟩
          rw [hvidx z (hs_ne z hz1), hvlowu, hz2, h2]
        · have hv_s : v ∈ st.sstack := (t6 v).mp hv2
          refine ⟨v, List.mem_cons_of_mem _ hv_s, ?_, ?_⟩
          · rw [hvidx v (hs_ne v hv_s), hvlowu, hv4]
          · refine Relation.ReflTransGen.single ⟨cons ++ vs, hadj, ?_⟩
            rw [hsplit]
            simp [hv1]
      · obtain ⟨z, hz1, hz2, hz3⟩ := t11 x h1
        refine ⟨z, List.mem_cons_of_mem _ hz1, ?_, hz3⟩
        rw [hvidx z (hs_ne z hz1), hvlow x (hs_ne x h1) hxu, hz2]
  · -- merged nodes have strictly smaller lowlink
    dsimp only
    intro x hx hnf
    simp only [List.map_cons, List.mem_cons] at hnf
    push_neg at hnf
    obtain ⟨hnva, hnu, hnrest⟩ := hnf
    rcases List.mem_cons.mp hx with h1 | h1
    · exact absurd h1 hnva
    · rw [hvlow x (hs_ne x h1) hnu, hvidx x (hs_ne x h1)]
      refine t12 x h1 ?_
      simp only [List.map_cons, List.mem_cons]
      push_neg
      exact ⟨hnu, hnrest⟩
  · -- segment structure of the stack
    dsimp only
    simp only [List.map_cons]
    refine ⟨[], st.sstack, rfl, ?_, ?_, seg, s', hsdec, hsegreach, ?_, ?_⟩
    · intro x hx
      exact absurd hx (List.not_mem_nil x)
    · intro x hx
      exact absurd hx (List.not_mem_nil x)
    · intro x hx
      have hx_s : x ∈ st.sstack := by
        rw [hsdec]
        simp [hx]
      have hxu : x ≠ u := by
        intro he
        subst he
        have := hss_nd
        rw [hsdec, List.nodup_append] at this
        exact this.2.2 hx (List.mem_cons_self _ _)
      rw [hvlowu, hvlow x (hs_ne x hx_s) hxu]
      exact le_trans hle (hseglow x hx)
    · refine SegOK_congr g st.low _ _ _ hsegrest ?_
      intro x hx
      have hx_s : x ∈ st.sstack := by
        rw [hsdec]
        simp [hx]
      have hxu : x ≠ u := by
        intro he
        subst he
        exact hu_s' hx
      exact hvlow x (hs_ne x hx_s) hxu
  · -- adjacent frames are connected by tree edges
    dsimp only
    refine List.chain'_cons.mpr ⟨hEuva, ?_⟩
    match rest, t14 with
    | [], _ => exact List.chain'_singleton _
    | r :: rrest, t14 =>
      obtain ⟨hR, hrest⟩ := List.chain'_cons.mp t14
      exact List.chain'_cons.mpr ⟨hR, hrest⟩
  · -- frame indices increase toward the top
    dsimp only
    rw [List.pairwise_cons]
    constructor
    · intro fb hfb
      rcases List.mem_cons.mp hfb with h1 | h1
      · rw [h1]
        dsimp only
        rw [hvidxva, hvidx u hu_ne_va]
        exact t7 u hu_k
      · have hfb_s : fb.1 ∈ st.sstack := by
          rw [hsdec]
          have := SegOK_mem g st.low _ _ hsegrest fb.1 (List.mem_map_of_mem _ h1)
          simp [this]
        rw [hvidxva, hvidx fb.1 (hs_ne fb.1 hfb_s)]
        exact t7 fb.1 ((t4 fb.1).mpr (Or.inl hfb_s))
    · obtain ⟨hhead, hinner⟩ := List.pairwise_cons.mp t15
      rw [List.pairwise_cons]
      constructor
      · intro fb hfb
        have hfb_s : fb.1 ∈ st.sstack := by
          rw [hsdec]
          have := SegOK_mem g st.low _ _ hsegrest fb.1 (List.mem_map_of_mem _ hfb)
          simp [this]
        rw [hvidx fb.1 (hs_ne fb.1 hfb_s), hvidx u hu_ne_va]
        exact hhead fb hfb
      · refine hinner.imp_of_mem ?_
        intro a b ha hb hab
        have ha_s : a.1 ∈ st.sstack := by
          rw [hsdec]
          have := SegOK_mem g st.low _ _ hsegrest a.1 (List.mem_map_of_mem _ ha)
          simp [this]
        have hb_s : b.1 ∈ st.sstack := by
          rw [hsdec]
          have := SegOK_mem g st.low _ _ hsegrest b.1 (List.mem_map_of_mem _ hb)
          simp [this]
        rw [hvidx a.1 (hs_ne a.1 ha_s), hvidx b.1 (hs_ne b.1 hb_s)]
        exact hab
  · -- scanned-neighbor record for every frame
    intro pre2 fx post2 hdec
    match pre2, hdec with
    | [], hdec =>
      simp only [List.nil_append, List.cons.injEq] at hdec
      obtain ⟨h1, h2⟩ := hdec
      refine ⟨[], ?_, ?_⟩
      · rw [← h1]
        dsimp only
        rw [List.nil_append]
        exact hnv
      · intro b hb
        exact absurd hb (List.not_mem_nil b)
    | f1 :: [], hdec =>
      simp only [List.cons_append, List.nil_append, List.cons.injEq] at hdec
      obtain ⟨hf1, hfx, hpost⟩ := hdec
      refine ⟨cons ++ pre ++ [va], ?_, ?_⟩
      · rw [← hfx]
        dsimp only
        rw [hadj, hsplit]
        congr 1
        simp
      · intro b hb
        rw [← hfx]
        dsimp only
        rcases List.mem_append.mp hb with hb1 | hb1
        · rcases List.mem_append.mp hb1 with hb2 | hb2
          · obtain ⟨hbk, hbd⟩ := hconsf b hb2
            refine ⟨by rw [hkI]; exact List.mem_append_left _ hbk, ?_⟩
            rcases hbd with h3 | h3 | ⟨fr, hfr, _⟩
            · exact Or.inl h3
            · right; left
              rw [hvlowu, hvidx b (hk_ne b hbk)]
              calc lu' ≤ valOf st.low u := hle
                _ ≤ valOf st.idx b := h3
            · rw [List.getLast?_nil] at hfr
              exact absurd hfr (by simp)
          · obtain ⟨hbk, hbi⟩ := hbs b hb2
            refine ⟨by rw [hkI]; exact List.mem_append_left _ hbk, ?_⟩
            by_cases hon : (getA st.ons b).getD false = true
            · right; left
              rw [hvlowu, hvidx b (hk_ne b hbk)]
              exact hbi hon
            · left
              have hb_ns : b ∉ st.sstack := fun hm => hon ((t6 b).mpr hm)
              rcases (t4 b).mp hbk with h4 | h4
              · exact absurd h4 hb_ns
              · exact h4
        · rw [List.mem_singleton] at hb1
          subst hb1
          refine ⟨by rw [hkI]; simp, ?_⟩
          right; right
          refine ⟨f1, ?_, by rw [← hf1]⟩
          rfl
    | f1 :: f2 :: pre', hdec =>
      simp only [List.cons_append, List.cons.injEq] at hdec
      obtain ⟨hf1, hf2, hrest2⟩ := hdec
      obtain ⟨cons3, hadj3, hf3⟩ := t16 ((u, vs) :: pre') fx post2 (by rw [hrest2]; rfl)
      have hfx_s : fx.1 ∈ st.sstack := by
        rw [hsdec]
        have h5 : fx.1 ∈ List.map Prod.fst rest := by
          rw [hrest2]
          simp
        have := SegOK_mem g st.low _ _ hsegrest fx.1 h5
        simp [this]
      have hfx_u : fx.1 ≠ u := by
        intro he
        have h5 : fx.1 ∈ s' := by
          have h6 : fx.1 ∈ List.map Prod.fst rest := by
            rw [hrest2]
            simp
          exact SegOK_mem g st.low _ _ hsegrest fx.1 h6
        rw [he] at h5
        exact hu_s' h5
      refine ⟨cons3, hadj3, ?_⟩
      intro b hb
      obtain ⟨hbk, hbd⟩ := hf3 b hb
      refine ⟨by rw [hkI]; exact List.mem_append_left _ hbk, ?_⟩
      rcases hbd with h3 | h3 | ⟨fr, hfr, hbfr⟩
      · exact Or.inl h3
      · right; left
        rw [hvlow fx.1 (hs_ne fx.1 hfx_s) hfx_u, hvidx b (hk_ne b hbk)]
        exact h3
      · right; right
        match pre', hfr with
        | [], hfr =>
          rw [List.getLast?_singleton] at hfr
          rw [Option.some.injEq] at hfr
          refine ⟨f2, ?_, ?_⟩
          · rw [List.getLast?_cons_cons, List.getLast?_singleton]
          · rw [← hf2]
            rw [← hfr] at hbfr
            exact hbfr
        | q :: pre'', hfr =>
          rw [List.getLast?_cons_cons] at hfr
          refine ⟨fr, ?_, hbfr⟩
          rw [List.getLast?_cons_cons, List.getLast?_cons_cons]
          exact hfr
  · -- scanned-neighbor record for merged nodes
    intro a ha hnf
    simp only [List.map_cons, List.mem_cons] at hnf
    push_neg at hnf
    obtain ⟨hnva, hnu, hnrest⟩ := hnf
    rcases List.mem_cons.mp ha with h1 | h1
    · exact absurd h1 hnva
    · have hold := t17 a h1 (by
        simp only [List.map_cons, List.mem_cons]
        push_neg
        exact ⟨hnu, hnrest⟩)
      intro b hb
      obtain ⟨hbk, hbd⟩ := hold b hb
      refine ⟨by rw [hkI]; exact List.mem_append_left _ hbk, ?_⟩
      rcases hbd with h3 | h3
      · exact Or.inl h3
      · right
        rw [hvlow a (hs_ne a h1) hnu, hvidx b (hk_ne b hbk)]
        exact h3

end DGVis

namespace DGVis

/-- Closing a component at a root frame preserves the Tarjan invariant:
the stack above and including the root pops off as a strongly connected
component whose outgoing edges stay inside it or lead to components
closed earlier. -/
theorem TJ_pop (g : Graph) (hwf : WF g) (u : String) (vs : List String)
    (rest : List (String × List String)) (st : TState) (lu' : Nat)
    (hTJ : TJ g ((u, vs) :: rest) st)
    (hle : lu' ≤ valOf st.low u)
    (hbs : ∀ b ∈ vs, b ∈ keysA st.idx ∧
      ((getA st.ons b).getD false = true → lu' ≤ valOf st.idx b))
    (hroot : lu' = valOf st.idx u) :
    ∃ seg s' ons', st.sstack = seg ++ u :: s' ∧ u ∉ seg ∧
      popComp u st.ons st.sstack = some (ons', seg ++ [u], s') ∧
      TJ g rest (TState.mk st.idx (setA st.low u lu') ons' s'
        (st.comps ++ [seg ++ [u]]) st.counter) := by
  obtain ⟨t1, t2, t3, t4, t5, t6, t7, t8, t9, t10, t11, t12, t13, t14, t15, t16, t17,
    t18, t19⟩ := hTJ
  obtain ⟨seg, s', hsdec, hsegreach, hseglow, hsegrest⟩ := t13
  dsimp only at hsdec hsegreach hseglow hsegrest
  have hss_nd : st.sstack.Nodup := (List.nodup_append.mp t5).1
  have hnd2 : (seg ++ u :: s').Nodup := by
    rw [← hsdec]
    exact hss_nd
  have hu_seg : u ∉ seg := by
    rw [List.nodup_append] at hnd2
    exact fun hc => hnd2.2.2 hc (List.mem_cons_self _ _)
  have hu_s' : u ∉ s' := by
    rw [List.nodup_append] at hnd2
    exact (List.nodup_cons.mp hnd2.2.1).1
  have hseg_s' : ∀ x ∈ seg, x ∉ s' := by
    rw [List.nodup_append] at hnd2
    exact fun x hx hc => hnd2.2.2 hx (List.mem_cons_of_mem _ hc)
  have hu_s : u ∈ st.sstack := by
    rw [hsdec]
    simp
  have hu_k : u ∈ keysA st.idx := (t4 u).mpr (Or.inl hu_s)
  have hu_lowk : u ∈ keysA st.low := by
    rw [← t1]
    exact hu_k
  obtain ⟨cons, hadj, hconsf⟩ := t16 [] (u, vs) rest rfl
  dsimp only at hconsf
  obtain ⟨ons', hpop, honsv⟩ := popComp_spec u seg s' st.ons hu_seg
  rw [← hsdec] at hpop
  have t9' : List.Pairwise (fun a b => valOf st.idx b < valOf st.idx a) (seg ++ u :: s') := by
    rw [← hsdec]
    exact t9
  rw [List.pairwise_append] at t9'
  obtain ⟨hseg_pw, hcons_pw, hcross⟩ := t9'
  obtain ⟨hs'_lt, hs'_pw⟩ := List.pairwise_cons.mp hcons_pw
  have hseg_gt : ∀ x ∈ seg, valOf st.idx u < valOf st.idx x :=
    fun x hx => hcross x hx u (List.mem_cons_self _ _)
  have huloweq : valOf st.low u = valOf st.idx u := by
    have h1 := t10 u hu_s
    omega
  have hval_eq : ∀ x, valOf (setA st.low u lu') x = valOf st.low x := by
    intro x
    by_cases hx : x = u
    · subst hx
      rw [valOf_setA_self, hroot, huloweq]
    · rw [valOf_setA_ne _ _ _ _ hx]
  have hkeys1 : keysA (setA st.low u lu') = keysA st.low :=
    keysA_setA_of_mem _ _ _ hu_lowk
  have hrestmap_s' : ∀ w ∈ rest.map Prod.fst, w ∈ s' :=
    fun w hw => SegOK_mem g st.low _ _ hsegrest w hw
  have hseg_nonframe : ∀ x ∈ seg, x ∉ ((u, vs) :: rest).map Prod.fst := by
    intro x hx hc
    simp only [List.map_cons, List.mem_cons] at hc
    rcases hc with h1 | h1
    · rw [h1] at hx
      exact hu_seg hx
    · exact hseg_s' x hx (hrestmap_s' x h1)
  have hseg_strict : ∀ x ∈ seg, valOf st.low x < valOf st.idx x := by
    intro x hx
    refine t12 x ?_ (hseg_nonframe x hx)
    rw [hsdec]
    simp [hx]
  have hseg_lowge : ∀ x ∈ seg, valOf st.idx u ≤ valOf st.low x := by
    intro x hx
    rw [← huloweq]
    exact hseglow x hx
  have hwit_seg : ∀ x ∈ seg, ∃ z, (z ∈ seg ∨ z = u) ∧
      valOf st.idx z = valOf st.low x ∧ Relation.ReflTransGen (Edge g) x z := by
    intro x hx
    obtain ⟨z, hz1, hz2, hz3⟩ := t11 x (by rw [hsdec]; simp [hx])
    refine ⟨z, ?_, hz2, hz3⟩
    rw [hsdec] at hz1
    rcases List.mem_append.mp hz1 with h1 | h1
    · exact Or.inl h1
    · rcases List.mem_cons.mp h1 with h2 | h2
      · exact Or.inr h2
      · exfalso
        have h3 := hs'_lt z h2
        have h4 := hseg_lowge x hx
        omega
  have hreach_back : ∀ x ∈ seg, Relation.ReflTransGen (Edge g) x u :=
    seg_reaches_root g st.idx st.low u seg hseg_strict hseg_lowge hwit_seg
  have hmutual : ∀ x ∈ seg ++ [u], ∀ y ∈ seg ++ [u], Relation.ReflTransGen (Edge g) x y := by
    intro x hx y hy
    have hxu : Relation.ReflTransGen (Edge g) x u := by
      rcases List.mem_append.mp hx with h1 | h1
      · exact hreach_back x h1
      · rw [List.mem_singleton] at h1
        rw [h1]
    have huy : Relation.ReflTransGen (Edge g) u y := by
      rcases List.mem_append.mp hy with h1 | h1
      · exact hsegreach y h1
      · rw [List.mem_singleton] at h1
        rw [h1]
    exact hxu.trans huy
  have hCedge : ∀ a ∈ seg ++ [u], ∀ b, Edge g a b →
      b ∈ seg ++ [u] ∨ b ∈ st.comps.flatten := by
    intro a ha b hedge
    have hbfacts : b ∈ keysA st.idx ∧
        (b ∈ st.comps.flatten ∨ valOf st.idx u ≤ valOf st.idx b) := by
      rcases List.mem_append.mp ha with h1 | h1
      · have hout : b ∈ outList g a := (mem_outList_iff_Edge g a b).mpr hedge
        obtain ⟨hbk, hd⟩ := t17 a (by rw [hsdec]; simp [h1]) (hseg_nonframe a h1) b hout
        refine ⟨hbk, ?_⟩
        rcases hd with h2 | h2
        · exact Or.inl h2
        · right
          have h3 := hseg_lowge a h1
          omega
      · rw [List.mem_singleton] at h1
        subst h1
        have hout : b ∈ outList g a := (mem_outList_iff_Edge g a b).mpr hedge
        rw [outList, hadj] at hout
        simp only [Option.getD_some] at hout
        rcases List.mem_append.mp hout with h2 | h2
        · obtain ⟨hbk, hd⟩ := hconsf b h2
          refine ⟨hbk, ?_⟩
          rcases hd with h3 | h3 | ⟨fr, hfr, _⟩
          · exact Or.inl h3
          · right
            omega
          · rw [List.getLast?_nil] at hfr
            exact absurd hfr (by simp)
        · obtain ⟨hbk, hbi⟩ := hbs b h2
          refine ⟨hbk, ?_⟩
          by_cases hon : (getA st.ons b).getD false = true
          · right
            have := hbi hon
            omega
          · left
            have hb_ns : b ∉ st.sstack := fun hm => hon ((t6 b).mpr hm)
            rcases (t4 b).mp hbk with h4 | h4
            · exact absurd h4 hb_ns
            · exact h4
    obtain ⟨hbk, hd⟩ := hbfacts
    rcases hd with h1 | h1
    · exact Or.inr h1
    · rcases (t4 b).mp hbk with h2 | h2
      · rw [hsdec] at h2
        rcases List.mem_append.mp h2 with h3 | h3
        · exact Or.inl (List.mem_append_left _ h3)
        · rcases List.mem_cons.mp h3 with h4 | h4
          · rw [h4]
            exact Or.inl (List.mem_append_right _ (by simp))
          · exfalso
            have h5 := hs'_lt b h4
            omega
      · exact Or.inr h2
  refine ⟨seg, s', ons', hsdec, hu_seg, hpop, ?_, ?_, ?_, ?_, ?_, ?_, ?_, ?_, ?_, ?_,
    ?_, ?_, ?_, ?_, ?_, ?_, ?_, ?_, ?_⟩
  · -- keys of idx and low agree
    dsimp only
    rw [hkeys1, t1]
  · exact t2
  · exact t3
  · -- partition of indexed nodes
    dsimp only
    intro x
    rw [t4 x, hsdec]
    simp only [List.flatten_append, List.flatten_cons, List.flatten_nil, List.append_nil,
      List.mem_append, List.mem_cons, List.mem_singleton, List.not_mem_nil, or_false]
    tauto
  · -- stack plus closed components stays duplicate-free
    dsimp only
    have hperm : ((seg ++ u :: s') ++ st.comps.flatten).Perm
        (s' ++ (st.comps ++ [seg ++ [u]]).flatten) := by
      have h0 : seg ++ u :: s' = (seg ++ [u]) ++ s' := by simp
      rw [h0]
      simp only [List.flatten_append, List.flatten_cons, List.flatten_nil, List.append_nil]
      refine List.Perm.trans (List.Perm.append_right _ List.perm_append_comm) ?_
      rw [List.append_assoc]
      exact List.Perm.append_left _ List.perm_append_comm
    have h1 : ((seg ++ u :: s') ++ st.comps.flatten).Nodup := by
      rw [← hsdec]
      exact t5
    exact hperm.nodup h1
  · -- on-stack flags mirror the stack
    dsimp only
    intro x
    rw [honsv x]
    by_cases hx : x ∈ seg ++ [u]
    · rw [if_pos hx]
      simp only [Option.getD_some]
      constructor
      · intro h
        exact absurd h (by decide)
      · intro h
        exfalso
        rcases List.mem_append.mp hx with h1 | h1
        · exact hseg_s' x h1 h
        · rw [List.mem_singleton] at h1
          rw [h1] at h
          exact hu_s' h
    · rw [if_neg hx]
      rw [t6 x, hsdec]
      constructor
      · intro h
        rcases List.mem_append.mp h with h1 | h1
        · exact absurd (List.mem_append_left _ h1) hx
        · rcases List.mem_cons.mp h1 with h2 | h2
          · exact absurd (List.mem_append_right _ (by simp [h2])) hx
          · exact h2
      · intro h
        simp [h]
  · exact t7
  · exact t8
  · exact hs'_pw
  · -- lowlinks bounded by indices
    dsimp only
    intro x hx
    rw [hval_eq x]
    refine t10 x ?_
    rw [hsdec]
    simp [hx]
  · -- lowlink witnesses survive the pop
    dsimp only
    intro x hx
    obtain ⟨z, hz1, hz2, hz3⟩ := t11 x (by rw [hsdec]; simp [hx])
    have hz_s' : z ∈ s' := by
      rw [hsdec] at hz1
      have hxlt : valOf st.idx x < valOf st.idx u := hs'_lt x hx
      have hxle : valOf st.low x ≤ valOf st.idx x := t10 x (by rw [hsdec]; simp [hx])
      rcases List.mem_append.mp hz1 with h1 | h1
      · exfalso
        have := hseg_gt z h1
        omega
      · rcases List.mem_cons.mp h1 with h2 | h2
        · exfalso
          rw [h2] at hz2
          omega
        · exact h2
    exact ⟨z, hz_s', by rw [hval_eq x]; exact hz2, hz3⟩
  · -- merged nodes keep strictly smaller lowlink
    dsimp only
    intro x hx hnf
    rw [hval_eq x]
    refine t12 x (by rw [hsdec]; simp [hx]) ?_
    simp only [List.map_cons, List.mem_cons]
    push_neg
    refine ⟨?_, hnf⟩
    intro he
    rw [he] at hx
    exact hu_s' hx
  · -- segment structure of the remaining stack
    dsimp only
    refine SegOK_congr g st.low _ _ _ hsegrest ?_
    intro x _
    exact hval_eq x
  · exact t14.tail
  · exact (List.pairwise_cons.mp t15).2
  · -- scanned-neighbor record for remaining frames
    intro pre' fx post' hdec2
    obtain ⟨cons3, hadj3, hf3⟩ := t16 ((u, vs) :: pre') fx post' (by rw [hdec2]; rfl)
    refine ⟨cons3, hadj3, ?_⟩
    intro b hb
    obtain ⟨hbk, hd⟩ := hf3 b hb
    refine ⟨hbk, ?_⟩
    rcases hd with h1 | h1 | ⟨fr, hfr, hbfr⟩
    · left
      simp only [List.flatten_append, List.flatten_cons, List.flatten_nil, List.append_nil]
      exact List.mem_append_left _ h1
    · right; left
      dsimp only
      rw [hval_eq fx.1]
      exact h1
    · match pre', hfr with
      | [], hfr =>
        rw [List.getLast?_singleton, Option.some.injEq] at hfr
        left
        simp only [List.flatten_append, List.flatten_cons, List.flatten_nil, List.append_nil]
        refine List.mem_append_right _ ?_
        rw [hbfr, ← hfr]
        simp
      | q :: pre'', hfr =>
        right; right
        rw [List.getLast?_cons_cons] at hfr
        exact ⟨fr, hfr, hbfr⟩
  · -- scanned-neighbor record for merged nodes
    intro a ha hnf
    have ha_old : a ∈ st.sstack := by
      rw [hsdec]
      simp [ha]
    have ha_nf_old : a ∉ ((u, vs) :: rest).map Prod.fst := by
      simp only [List.map_cons, List.mem_cons]
      push_neg
      refine ⟨?_, hnf⟩
      intro he
      rw [he] at ha
      exact hu_s' ha
    intro b hb
    obtain ⟨hbk, hd⟩ := t17 a ha_old ha_nf_old b hb
    refine ⟨hbk, ?_⟩
    rcases hd with h1 | h1
    · left
      simp only [List.flatten_append, List.flatten_cons, List.flatten_nil, List.append_nil]
      exact List.mem_append_left _ h1
    · right
      dsimp only
      rw [hval_eq a]
      exact h1
  · -- every closed component is strongly connected
    intro c hc
    rcases List.mem_append.mp hc with h1 | h1
    · exact t18 c h1
    · rw [List.mem_singleton] at h1
      subst h1
      exact ⟨by simp, hmutual⟩
  · -- closed components only reach earlier components
    intro cpre c csuf hdec2 a ha b hedge
    rcases append_singleton_decomp _ _ _ _ _ hdec2 with ⟨h1, h2, h3⟩ | ⟨post2, h1, h2⟩
    · subst h1
      subst h2
      exact hCedge a ha b hedge
    · exact t19 cpre c post2 h2 a ha b hedge

end DGVis

namespace DGVis

/-- The bottom frame of a traversal always closes its component: its
final lowlink equals its index. -/
theorem TJ_bottom (g : Graph) (u : String) (vs : List String) (st : TState) (lu' : Nat)
    (hTJ : TJ g [(u, vs)] st)
    (hle : lu' ≤ valOf st.low u)
    (hdisj : lu' = valOf st.low u ∨ ∃ v, v ∈ vs ∧ (getA st.ons v).getD false = true ∧
      v ∈ keysA st.idx ∧ lu' = valOf st.idx v) :
    lu' = valOf st.idx u := by
  obtain ⟨t1, t2, t3, t4, t5, t6, t7, t8, t9, t10, t11, t12, t13, t14, t15, t16, t17,
    t18, t19⟩ := hTJ
  obtain ⟨seg, s', hsdec, hsegreach, hseglow, hsegrest⟩ := t13
  dsimp only at hsdec hsegreach hseglow hsegrest
  have hs'_nil : s' = [] := hsegrest
  subst hs'_nil
  have hu_s : u ∈ st.sstack := by
    rw [hsdec]
    simp
  have t9' : List.Pairwise (fun a b => valOf st.idx b < valOf st.idx a) (seg ++ [u]) := by
    rw [← hsdec]
    exact t9
  rw [List.pairwise_append] at t9'
  obtain ⟨_, _, hcross⟩ := t9'
  have hseg_gt : ∀ x ∈ seg, valOf st.idx u < valOf st.idx x :=
    fun x hx => hcross x hx u (by simp)
  have hle2 : lu' ≤ valOf st.idx u := le_trans hle (t10 u hu_s)
  obtain ⟨z, hz_s, hz_idx⟩ : ∃ z, z ∈ st.sstack ∧ valOf st.idx z = lu' := by
    rcases hdisj with h1 | ⟨v, _, hv2, _, hv4⟩
    · obtain ⟨z, hz1, hz2, _⟩ := t11 u hu_s
      exact ⟨z, hz1, by rw [hz2, h1]⟩
    · exact ⟨v, (t6 v).mp hv2, hv4.symm⟩
  rw [hsdec] at hz_s
  rcases List.mem_append.mp hz_s with h1 | h1
  · exfalso
    have := hseg_gt z h1
    omega
  · rcases List.mem_cons.mp h1 with h2 | h2
    · rw [← h2, hz_idx]
    · exact absurd h2 (List.not_mem_nil z)

/-- Re-setting a lowlink to its current value preserves the invariant. -/
theorem TJ_set_low_noop (g : Graph) (cstack : List (String × List String))
    (st : TState) (p : String) (w : Nat)
    (hTJ : TJ g cstack st)
    (hp : p ∈ keysA st.low)
    (hw : valOf st.low p = w) :
    TJ g cstack (TState.mk st.idx (setA st.low p w) st.ons st.sstack st.comps st.counter) := by
  obtain ⟨t1, t2, t3, t4, t5, t6, t7, t8, t9, t10, t11, t12, t13, t14, t15, t16, t17,
    t18, t19⟩ := hTJ
  have hval : ∀ x, valOf (setA st.low p w) x = valOf st.low x := by
    intro x
    by_cases hx : x = p
    · subst hx
      rw [valOf_setA_self, hw]
    · rw [valOf_setA_ne _ _ _ _ hx]
  have hkeys : keysA (setA st.low p w) = keysA st.low := keysA_setA_of_mem _ _ _ hp
  refine ⟨?_, t2, t3, t4, t5, t6, t7, t8, t9, ?_, ?_, ?_, ?_, t14, t15, ?_, ?_, t18, t19⟩
  · dsimp only
    rw [hkeys, t1]
  · dsimp only
    intro x hx
    rw [hval x]
    exact t10 x hx
  · dsimp only
    intro x hx
    obtain ⟨z, hz1, hz2, hz3⟩ := t11 x hx
    exact ⟨z, hz1, by rw [hval x]; exact hz2, hz3⟩
  · dsimp only
    intro x hx hnf
    rw [hval x]
    exact t12 x hx hnf
  · dsimp only
    exact SegOK_congr g st.low _ _ _ t13 (fun x _ => hval x)
  · intro pre fx post hdec
    obtain ⟨cons, hadj, hf⟩ := t16 pre fx post hdec
    refine ⟨cons, hadj, ?_⟩
    intro b hb
    obtain ⟨hbk, hd⟩ := hf b hb
    refine ⟨hbk, ?_⟩
    rcases hd with h1 | h1 | h1
    · exact Or.inl h1
    · right; left
      dsimp only
      rw [hval fx.1]
      exact h1
    · exact Or.inr (Or.inr h1)
  · intro a ha hnf b hb
    obtain ⟨hbk, hd⟩ := t17 a ha hnf b hb
    refine ⟨hbk, ?_⟩
    rcases hd with h1 | h1
    · exact Or.inl h1
    · right
      dsimp only
      rw [hval a]
      exact h1

end DGVis

namespace DGVis

/-- A non-root frame that exhausts its neighbors merges into its parent:
the parent absorbs the child's lowlink and the child's stack segment
becomes part of the parent's segment. -/
theorem TJ_merge (g : Graph) (hwf : WF g) (u p : String) (vs pvs : List String)
    (prest : List (String × List String)) (st : TState) (lu' lp : Nat)
    (hTJ : TJ g ((u, vs) :: (p, pvs) :: prest) st)
    (hle : lu' ≤ valOf st.low u)
    (hdisj : lu' = valOf st.low u ∨ ∃ v, v ∈ vs ∧ (getA st.ons v).getD false = true ∧
      v ∈ keysA st.idx ∧ lu' = valOf st.idx v)
    (hbs : ∀ b ∈ vs, b ∈ keysA st.idx ∧
      ((getA st.ons b).getD false = true → lu' ≤ valOf st.idx b))
    (hnroot : lu' ≠ valOf st.idx u)
    (hlp : getA (setA st.low u lu') p = some lp) :
    TJ g ((p, pvs) :: prest)
      (TState.mk st.idx (setA (setA st.low u lu') p (min lp lu'))
        st.ons st.sstack st.comps st.counter) := by
  obtain ⟨t1, t2, t3, t4, t5, t6, t7, t8, t9, t10, t11, t12, t13, t14, t15, t16, t17,
    t18, t19⟩ := hTJ
  obtain ⟨seg, s', hsdec, hsegreach, hseglow, hsegrest⟩ := t13
  dsimp only at hsdec hsegreach hseglow hsegrest
  obtain ⟨segp, s'', hs'dec, hpreach, hplow, hprest⟩ := hsegrest
  dsimp only at hs'dec hpreach hplow hprest
  have hss_nd : st.sstack.Nodup := (List.nodup_append.mp t5).1
  have hnd2 : (seg ++ u :: s').Nodup := by
    rw [← hsdec]
    exact hss_nd
  rw [List.nodup_append] at hnd2
  have hu_seg : u ∉ seg := fun hc => hnd2.2.2 hc (List.mem_cons_self _ _)
  have hu_s' : u ∉ s' := (List.nodup_cons.mp hnd2.2.1).1
  have hseg_s' : ∀ x ∈ seg, x ∉ s' := fun x hx hc => hnd2.2.2 hx (List.mem_cons_of_mem _ hc)
  have hs'_nd : s'.Nodup := (List.nodup_cons.mp hnd2.2.1).2
  have hnd3 : (segp ++ p :: s'').Nodup := by
    rw [← hs'dec]
    exact hs'_nd
  rw [List.nodup_append] at hnd3
  have hp_segp : p ∉ segp := fun hc => hnd3.2.2 hc (List.mem_cons_self _ _)
  have hp_s'' : p ∉ s'' := (List.nodup_cons.mp hnd3.2.1).1
  have hu_s : u ∈ st.sstack := by
    rw [hsdec]
    simp
  have hp_s' : p ∈ s' := by
    rw [hs'dec]
    simp
  have hp_s : p ∈ st.sstack := by
    rw [hsdec]
    simp [hp_s']
  have hp_ne_u : p ≠ u := fun he => hu_s' (he ▸ hp_s')
  have hu_k : u ∈ keysA st.idx := (t4 u).mpr (Or.inl hu_s)
  have hu_lowk : u ∈ keysA st.low := by
    rw [← t1]
    exact hu_k
  have hp_lowk1 : p ∈ keysA (setA st.low u lu') := (getA_isSome_iff _ _).mp (by rw [hlp]; rfl)
  have hp_lowk : p ∈ keysA st.low := by
    rw [← keysA_setA_of_mem _ _ _ hu_lowk]
    exact hp_lowk1
  have hlp_val : valOf st.low p = lp := by
    rw [← valOf_setA_ne st.low u p lu' hp_ne_u]
    exact valOf_eq_of_getA _ _ _ hlp
  obtain ⟨cons, hadj, hconsf⟩ := t16 [] (u, vs) ((p, pvs) :: prest) rfl
  dsimp only at hconsf
  have hEdge_pu : Edge g p u := (List.chain'_cons.mp t14).1
  have hlu_lt : lu' < valOf st.idx u := by
    have h1 := t10 u hu_s
    omega
  have hval_u : valOf (setA (setA st.low u lu') p (min lp lu')) u = lu' := by
    rw [valOf_setA_ne _ _ _ _ hp_ne_u.symm, valOf_setA_self]
  have hval_p : valOf (setA (setA st.low u lu') p (min lp lu')) p = min lp lu' :=
    valOf_setA_self _ _ _
  have hval_other : ∀ x, x ≠ u → x ≠ p →
      valOf (setA (setA st.low u lu') p (min lp lu')) x = valOf st.low x := by
    intro x h1 h2
    rw [valOf_setA_ne _ _ _ _ h2, valOf_setA_ne _ _ _ _ h1]
  have hwit_u : ∃ z, z ∈ st.sstack ∧ valOf st.idx z = lu' ∧
      Relation.ReflTransGen (Edge g) u z := by
    rcases hdisj with h1 | ⟨v, hv1, hv2, hv3, hv4⟩
    · obtain ⟨z, hz1, hz2, hz3⟩ := t11 u hu_s
      exact ⟨z, hz1, by rw [hz2, h1], hz3⟩
    · refine ⟨v, (t6 v).mp hv2, hv4.symm, ?_⟩
      exact Relation.ReflTransGen.single ⟨cons ++ vs, hadj, by simp [hv1]⟩
  refine ⟨?_, t2, t3, t4, t5, t6, t7, t8, t9, ?_, ?_, ?_, ?_, t14.tail,
    (List.pairwise_cons.mp t15).2, ?_, ?_, t18, t19⟩
  · -- keys agree
    dsimp only
    rw [keysA_setA_of_mem _ _ _ hp_lowk1, keysA_setA_of_mem _ _ _ hu_lowk, t1]
  · -- lowlinks bounded by indices
    dsimp only
    intro x hx
    by_cases h1 : x = u
    · subst h1
      rw [hval_u]
      omega
    · by_cases h2 : x = p
      · subst h2
        rw [hval_p, hlp_val.symm.trans rfl]
        have h3 := t10 x hx
        have h4 : min lp lu' ≤ lp := Nat.min_le_left _ _
        omega
      · rw [hval_other x h1 h2]
        exact t10 x hx
  · -- lowlink witnesses
    dsimp only
    intro x hx
    by_cases h1 : x = u
    · subst h1
      obtain ⟨z, hz1, hz2, hz3⟩ := hwit_u
      exact ⟨z, hz1, by rw [hval_u]; exact hz2, hz3⟩
    · by_cases h2 : x = p
      · subst h2
        rcases Nat.le_total lp lu' with h3 | h3
        · obtain ⟨z, hz1, hz2, hz3⟩ := t11 x hx
          refine ⟨z, hz1, ?_, hz3⟩
          rw [hval_p, Nat.min_eq_left h3, hz2, hlp_val]
        · obtain ⟨z, hz1, hz2, hz3⟩ := hwit_u
          refine ⟨z, hz1, ?_, ?_⟩
          · rw [hval_p, Nat.min_eq_right h3, hz2]
          · exact Relation.ReflTransGen.trans (Relation.ReflTransGen.single hEdge_pu) hz3
      · obtain ⟨z, hz1, hz2, hz3⟩ := t11 x hx
        exact ⟨z, hz1, by rw [hval_other x h1 h2]; exact hz2, hz3⟩
  · -- merged nodes keep strictly smaller lowlink
    dsimp only
    intro x hx hnf
    simp only [List.map_cons, List.mem_cons] at hnf
    push_neg at hnf
    obtain ⟨hnp, hnrest⟩ := hnf
    by_cases h1 : x = u
    · subst h1
      rw [hval_u]
      exact hlu_lt
    · rw [hval_other x h1 hnp]
      refine t12 x hx ?_
      simp only [List.map_cons, List.mem_cons]
      push_neg
      exact ⟨h1, hnp, hnrest⟩
  · -- segment structure: the child segment merges into the parent's
    dsimp only
    simp only [List.map_cons]
    refine ⟨seg ++ u :: segp, s'', ?_, ?_, ?_, ?_⟩
    · rw [hsdec, hs'dec]
      simp
    · intro x hx
      simp only [List.mem_append, List.mem_cons] at hx
      rcases hx with h1 | h1 | h1
      · exact Relation.ReflTransGen.trans (Relation.ReflTransGen.single hEdge_pu)
          (hsegreach x h1)
      · rw [h1]
        exact Relation.ReflTransGen.single hEdge_pu
      · exact hpreach x h1
    · intro x hx
      rw [hval_p]
      simp only [List.mem_append, List.mem_cons] at hx
      rcases hx with h1 | h1 | h1
      · have hx_ne_u : x ≠ u := fun he => hu_seg (he ▸ h1)
        have hx_ne_p : x ≠ p := fun he => hseg_s' x h1 (he ▸ hp_s')
        rw [hval_other x hx_ne_u hx_ne_p]
        have h2 := hseglow x h1
        have h3 : min lp lu' ≤ lu' := Nat.min_le_right _ _
        omega
      · rw [h1, hval_u]
        exact Nat.min_le_right _ _
      · have hx_s' : x ∈ s' := by
          rw [hs'dec]
          simp [h1]
        have hx_ne_u : x ≠ u := fun he => hu_s' (he ▸ hx_s')
        have hx_ne_p : x ≠ p := fun he => hp_segp (he ▸ h1)
        rw [hval_other x hx_ne_u hx_ne_p]
        have h2 := hplow x h1
        have h3 : min lp lu' ≤ lp := Nat.min_le_left _ _
        omega
    · refine SegOK_congr g st.low _ _ _ hprest ?_
      intro x hx
      have hx_s' : x ∈ s' := by
        rw [hs'dec]
        simp [hx]
      have hx_ne_u : x ≠ u := fun he => hu_s' (he ▸ hx_s')
      have hx_ne_p : x ≠ p := fun he => hp_s'' (he ▸ hx)
      exact hval_other x hx_ne_u hx_ne_p
  · -- scanned-neighbor record for remaining frames
    intro pre' fx post' hdec2
    obtain ⟨cons3, hadj3, hf3⟩ := t16 ((u, vs) :: pre') fx post' (by rw [hdec2]; rfl)
    refine ⟨cons3, hadj3, ?_⟩
    intro b hb
    obtain ⟨hbk, hd⟩ := hf3 b hb
    refine ⟨hbk, ?_⟩
    rcases hd with h1 | h1 | ⟨fr, hfr, hbfr⟩
    · exact Or.inl h1
    · right; left
      dsimp only
      have hfx_mem : fx.1 ∈ List.map Prod.fst ((p, pvs) :: prest) := by
        rw [hdec2]
        simp
      have hfx_s' : fx.1 ∈ s' := by
        simp only [List.map_cons, List.mem_cons] at hfx_mem
        rcases hfx_mem with h5 | h5
        · rw [h5]
          exact hp_s'
        · rw [hs'dec]
          have := SegOK_mem g st.low _ _ hprest fx.1 h5
          simp [this]
      have hfx_ne_u : fx.1 ≠ u := fun he => hu_s' (he ▸ hfx_s')
      by_cases hfx_p : fx.1 = p
      · rw [hfx_p, hval_p]
        rw [hfx_p, hlp_val] at h1
        have h3 : min lp lu' ≤ lp := Nat.min_le_left _ _
        omega
      · rw [hval_other fx.1 hfx_ne_u hfx_p]
        exact h1
    · match pre', hfr with
      | [], hfr =>
        rw [List.getLast?_singleton, Option.some.injEq] at hfr
        right; left
        have hfx_head : fx = (p, pvs) := by
          have h5 : (p, pvs) :: prest = fx :: post' := by
            rw [hdec2]
            rfl
          rw [List.cons.injEq] at h5
          exact h5.1.symm
        rw [hfx_head]
        dsimp only
        rw [hval_p, hbfr, ← hfr]
        dsimp only
        have h3 : min lp lu' ≤ lu' := Nat.min_le_right _ _
        omega
      | q :: pre'', hfr =>
        right; right
        rw [List.getLast?_cons_cons] at hfr
        exact ⟨fr, hfr, hbfr⟩
  · -- scanned-neighbor record for merged nodes, now including the child
    intro a ha hnf
    simp only [List.map_cons, List.mem_cons] at hnf
    push_neg at hnf
    obtain ⟨hnp, hnrest⟩ := hnf
    by_cases h1 : a = u
    · subst h1
      intro b hb
      rw [outList, hadj] at hb
      simp only [Option.getD_some] at hb
      rcases List.mem_append.mp hb with h2 | h2
      · obtain ⟨hbk, hd⟩ := hconsf b h2
        refine ⟨hbk, ?_⟩
        rcases hd with h3 | h3 | ⟨fr, hfr, _⟩
        · exact Or.inl h3
        · right
          dsimp only
          rw [hval_u]
          omega
        · rw [List.getLast?_nil] at hfr
          exact absurd hfr (by simp)
      · obtain ⟨hbk, hbi⟩ := hbs b h2
        refine ⟨hbk, ?_⟩
        by_cases hon : (getA st.ons b).getD false = true
        · right
          dsimp only
          rw [hval_u]
          exact hbi hon
        · left
          have hb_ns : b ∉ st.sstack := fun hm => hon ((t6 b).mpr hm)
          rcases (t4 b).mp hbk with h4 | h4
          · exact absurd h4 hb_ns
          · exact h4
    · intro b hb
      obtain ⟨hbk, hd⟩ := t17 a ha (by
        simp only [List.map_cons, List.mem_cons]
        push_neg
        exact ⟨h1, hnp, hnrest⟩) b hb
      refine ⟨hbk, ?_⟩
      rcases hd with h2 | h2
      · exact Or.inl h2
      · right
        dsimp only
        rw [hval_other a h1 hnp]
        exact h2

end DGVis

namespace DGVis

/-- Full correctness invariant of the Tarjan loop: on a well-formed
graph it terminates in a between-traversal state — empty stack, cleared
flags, and the indexed nodes partitioned into nonempty strongly
connected components whose outgoing edges respect pop order. -/
theorem sccLoop_corr (g : Graph) (hwf : WF g) :
    ∀ fuel (cstack : List (String × List String)) (st : TState),
      TJ g cstack st →
      cstack.length + 2 * (g.nodes.length - (keysA st.idx).length) < fuel →
      ∃ st', sccLoop g fuel cstack st = .ok st' ∧ TJ0 g st' ∧
        (∀ x ∈ keysA st.idx, x ∈ keysA st'.idx) := by
  intro fuel
  induction fuel with
  | zero =>
    intro cstack st _ h
    omega
  | succ fuel ih =>
    intro cstack st hTJ hμ
    have hTJ' := hTJ
    obtain ⟨t1, t2, t3, t4, t5, t6, t7, t8, t9, t10, t11, t12, t13, t14, t15, t16, t17,
      t18, t19⟩ := hTJ'
    match cstack with
    | [] =>
      have hse : st.sstack = [] := t13
      refine ⟨st, rfl, ⟨t1, t2, t3, hse, ?_, ?_, ?_, t7, t8, t18, t19⟩, fun x hx => hx⟩
      · intro x
        rw [t4 x, hse]
        simp
      · have h5 := t5
        rw [hse] at h5
        exact h5
      · intro x
        have h := t6 x
        rw [hse] at h
        simp only [List.not_mem_nil, iff_false] at h
        exact Bool.eq_false_iff.mpr (fun hc => h (by rw [hc]))
    | (u, vs) :: rest =>
      obtain ⟨seg0, s0, hsdec0, _, _, hsegrest0⟩ := t13
      dsimp only at hsdec0 hsegrest0
      have hu_s : u ∈ st.sstack := by
        rw [hsdec0]
        simp
      have hu_k : u ∈ keysA st.idx := (t4 u).mpr (Or.inl hu_s)
      have hu_low : u ∈ keysA st.low := by
        rw [← t1]
        exact hu_k
      obtain ⟨cons, hadj, _⟩ := t16 [] (u, vs) rest rfl
      have hvs_adj : ∀ v ∈ vs, v ∈ keysA g.adj := by
        intro v hv
        apply node_mem_adj_keys g hwf
        exact hwf.2.2.1 (u, cons ++ vs) (getA_mem _ _ _ hadj) v (by simp [hv])
      obtain ⟨out, hscan, hcases⟩ := sccScan_corr g u vs st hu_low hvs_adj
      rcases hcases with ⟨lu', hout, hle, hdisj, hbs⟩ |
        ⟨va, nv, vs', pre, lu', hsplit, hnone, hnv, hout, hle, hdisj, hbs⟩
      · -- neighbors exhausted
        subst hout
        obtain ⟨iu, hiu⟩ := Option.isSome_iff_exists.mp ((getA_isSome_iff _ _).mpr hu_k)
        have hiu_val : valOf st.idx u = iu := valOf_eq_of_getA _ _ _ hiu
        by_cases hroot : lu' = iu
        · -- the frame closes its component
          obtain ⟨seg, s', ons', hsdec, hu_seg, hpop, hTJP⟩ :=
            TJ_pop g hwf u vs rest st lu' hTJ hle hbs (by rw [hiu_val]; exact hroot)
          match rest, hTJP with
          | [], hTJP =>
            obtain ⟨st₄, h₄run, h₄tj, h₄mono⟩ := ih []
              (TState.mk st.idx (setA st.low u lu') ons' s'
                (st.comps ++ [seg ++ [u]]) st.counter)
              hTJP
              (by
                dsimp only
                simp only [List.length_nil, List.length_cons] at hμ ⊢
                omega)
            refine ⟨st₄, ?_, h₄tj, h₄mono⟩
            rw [sccLoop, hscan]
            simp only [getA_setA_self, hiu]
            rw [if_pos hroot, hpop]
            exact h₄run
          | (p, pvs) :: prest, hTJP =>
            have hp_s' : p ∈ s0 := SegOK_mem g st.low _ _ hsegrest0 p (by simp)
            have hp_s : p ∈ st.sstack := by
              rw [hsdec0]
              simp [hp_s']
            have hp_ne_u : p ≠ u := by
              intro he
              have hnd : (seg0 ++ u :: s0).Nodup := by
                rw [← hsdec0]
                exact (List.nodup_append.mp t5).1
              rw [List.nodup_append] at hnd
              exact (List.nodup_cons.mp hnd.2.1).1 (he ▸ hp_s')
            have hp_low : p ∈ keysA (setA st.low u lu') := by
              rw [keysA_setA_of_mem _ _ _ hu_low, ← t1]
              exact (t4 p).mpr (Or.inl hp_s)
            obtain ⟨lp, hlp⟩ := Option.isSome_iff_exists.mp ((getA_isSome_iff _ _).mpr hp_low)
            have hlp_val : valOf st.low p = lp := by
              rw [← valOf_setA_ne st.low u p lu' hp_ne_u]
              exact valOf_eq_of_getA _ _ _ hlp
            have hp_lt : valOf st.idx p < valOf st.idx u := by
              have h5 := (List.pairwise_cons.mp t15).1 (p, pvs) (by simp)
              exact h5
            have hmin : min lp lu' = lp := by
              have h5 := t10 p hp_s
              refine Nat.min_eq_left ?_
              omega
            have hTJ3 := TJ_set_low_noop g ((p, pvs) :: prest)
              (TState.mk st.idx (setA st.low u lu') ons' s'
                (st.comps ++ [seg ++ [u]]) st.counter) p (min lp lu') hTJP
              (by dsimp only; exact hp_low)
              (by
                dsimp only
                rw [hmin, ← hlp_val]
                exact valOf_setA_ne st.low u p lu' hp_ne_u)
            obtain ⟨st₄, h₄run, h₄tj, h₄mono⟩ := ih ((p, pvs) :: prest) _ hTJ3
              (by
                dsimp only
                simp only [List.length_cons] at hμ ⊢
                omega)
            refine ⟨st₄, ?_, h₄tj, h₄mono⟩
            rw [sccLoop, hscan]
            simp only [getA_setA_self, hiu]
            rw [if_pos hroot, hpop]
            simp only [hlp, getA_setA_self]
            exact h₄run
        · -- the frame merges into its parent
          match rest, hTJ with
          | [], hTJ =>
            exfalso
            have h5 := TJ_bottom g u vs st lu' hTJ hle hdisj
            rw [hiu_val] at h5
            exact hroot h5
          | (p, pvs) :: prest, hTJ =>
            have hp_s' : p ∈ s0 := SegOK_mem g st.low _ _ hsegrest0 p (by simp)
            have hp_s : p ∈ st.sstack := by
              rw [hsdec0]
              simp [hp_s']
            have hp_ne_u : p ≠ u := by
              intro he
              have hnd : (seg0 ++ u :: s0).Nodup := by
                rw [← hsdec0]
                exact (List.nodup_append.mp t5).1
              rw [List.nodup_append] at hnd
              exact (List.nodup_cons.mp hnd.2.1).1 (he ▸ hp_s')
            have hp_low : p ∈ keysA (setA st.low u lu') := by
              rw [keysA_setA_of_mem _ _ _ hu_low, ← t1]
              exact (t4 p).mpr (Or.inl hp_s)
            obtain ⟨lp, hlp⟩ := Option.isSome_iff_exists.mp ((getA_isSome_iff _ _).mpr hp_low)
            have hTJM := TJ_merge g hwf u p vs pvs prest st lu' lp hTJ hle hdisj hbs
              (by rw [hiu_val]; exact hroot) hlp
            obtain ⟨st₄, h₄run, h₄tj, h₄mono⟩ := ih ((p, pvs) :: prest) _ hTJM
              (by
                dsimp only
                simp only [List.length_cons] at hμ ⊢
                omega)
            refine ⟨st₄, ?_, h₄tj, h₄mono⟩
            rw [sccLoop, hscan]
            simp only [getA_setA_self, hiu]
            rw [if_neg hroot]
            simp only [hlp, getA_setA_self]
            exact h₄run
      · -- descend into an unvisited neighbor
        subst hout
        have hTJA := TJ_advance g hwf u va vs vs' pre nv rest st lu' hTJ hsplit hnone hnv
          hle hdisj hbs
        have hva_not : va ∉ keysA st.idx := by
          intro hc
          have h2 := (getA_isSome_iff st.idx va).mpr hc
          rw [hnone] at h2
          exact absurd h2 (by decide)
        have hkI : keysA (setA st.idx va st.counter) = keysA st.idx ++ [va] :=
          keysA_setA_of_not_mem _ _ _ hva_not
        have hlen : (keysA st.idx).length + 1 ≤ g.nodes.length := by
          obtain ⟨-, a2, a3, -⟩ := hTJA
          have h2 := nodup_subset_length a2 a3
          have h3 : g.node_names.length = g.nodes.length := keysA_length g.nodes
          dsimp only at h2
          rw [hkI] at h2
          simp only [List.length_append, List.length_singleton] at h2
          omega
        obtain ⟨st₄, h₄run, h₄tj, h₄mono⟩ := ih ((va, nv) :: (u, vs') :: rest) _ hTJA
          (by
            dsimp only
            have h9 : (keysA (setA st.idx va st.counter)).length =
                (keysA st.idx).length + 1 := by
              rw [hkI]
              simp
            rw [h9]
            simp only [List.length_cons] at hμ ⊢
            omega)
        refine ⟨st₄, ?_, h₄tj, ?_⟩
        · rw [sccLoop, hscan]
          exact h₄run
        · intro x hx
          refine h₄mono x ?_
          dsimp only
          rw [hkI]
          exact List.mem_append_left _ hx

end DGVis

namespace DGVis

/-- The outer Tarjan loop preserves the between-traversal state and
indexes every scanned name. -/
theorem sccOuter_corr (g : Graph) (hwf : WF g) :
    ∀ (names : List String) (st : TState),
      names ⊆ g.node_names →
      TJ0 g st →
      ∃ st', sccOuter g names st = .ok st' ∧ TJ0 g st' ∧
        (∀ s ∈ names, s ∈ keysA st'.idx) ∧
        (∀ x ∈ keysA st.idx, x ∈ keysA st'.idx) := by
  intro names
  induction names with
  | nil =>
    intro st _ hT0
    exact ⟨st, rfl, hT0, fun s hs => absurd hs (List.not_mem_nil s), fun x hx => hx⟩
  | cons s rest ihn =>
    intro st hsub hT0
    obtain ⟨z1, z2, z3, z4, z5, z6, z7, z8, z9, z10, z11⟩ := hT0
    by_cases hsi : (getA st.idx s).isSome = true
    · obtain ⟨st', h, hT0', hnames', hmono'⟩ := ihn st
        (fun x hx => hsub (List.mem_cons_of_mem _ hx))
        ⟨z1, z2, z3, z4, z5, z6, z7, z8, z9, z10, z11⟩
      refine ⟨st', ?_, hT0', ?_, hmono'⟩
      · rw [sccOuter, if_pos hsi]
        exact h
      · intro x hx
        rcases List.mem_cons.mp hx with h1 | h1
        · rw [h1]
          exact hmono' s ((getA_isSome_iff _ _).mp hsi)
        · exact hnames' x h1
    · have hsN : s ∈ g.node_names := hsub (List.mem_cons_self _ _)
      have hsa : s ∈ keysA g.adj := node_mem_adj_keys g hwf s hsN
      obtain ⟨ns, hns⟩ := Option.isSome_iff_exists.mp ((getA_isSome_iff _ _).mpr hsa)
      have hs_not : s ∉ keysA st.idx := fun hc => hsi ((getA_isSome_iff _ _).mpr hc)
      have hs_low_not : s ∉ keysA st.low := by
        rw [← z1]
        exact hs_not
      have hs_not_f : s ∉ st.comps.flatten := fun hc => hs_not ((z5 s).mpr hc)
      have hkI : keysA (setA st.idx s st.counter) = keysA st.idx ++ [s] :=
        keysA_setA_of_not_mem _ _ _ hs_not
      have hkL : keysA (setA st.low s st.counter) = keysA st.low ++ [s] :=
        keysA_setA_of_not_mem _ _ _ hs_low_not
      have hk_ne : ∀ x ∈ keysA st.idx, x ≠ s := fun x hx he => hs_not (he ▸ hx)
      have hvidx : ∀ x, x ≠ s → valOf (setA st.idx s st.counter) x = valOf st.idx x :=
        fun x hx => valOf_setA_ne _ _ _ _ hx
      have hTJ1 : TJ g [(s, ns)]
          (TState.mk (setA st.idx s st.counter) (setA st.low s st.counter)
            (setA st.ons s true) (s :: st.sstack) st.comps (st.counter + 1)) := by
        refine ⟨?_, ?_, ?_, ?_, ?_, ?_, ?_, ?_, ?_, ?_, ?_, ?_, ?_, ?_, ?_, ?_, ?_,
          z10, z11⟩
        · dsimp only
          rw [hkI, hkL, z1]
        · dsimp only
          rw [hkI, List.nodup_append]
          exact ⟨z2, List.nodup_singleton s,
            fun a ha hb => hs_not (by rw [List.mem_singleton] at hb; rw [← hb]; exact ha)⟩
        · dsimp only
          rw [hkI]
          intro x hx
          rcases List.mem_append.mp hx with h1 | h1
          · exact z3 h1
          · rw [List.mem_singleton] at h1
            rw [h1]
            exact hsN
        · dsimp only
          intro x
          rw [hkI]
          constructor
          · intro hx
            rcases List.mem_append.mp hx with h1 | h1
            · exact Or.inr ((z5 x).mp h1)
            · rw [List.mem_singleton] at h1
              rw [h1]
              exact Or.inl (List.mem_cons_self _ _)
          · intro hx
            rcases hx with h1 | h1
            · rcases List.mem_cons.mp h1 with h2 | h2
              · rw [h2]
                simp
              · rw [z4] at h2
                exact absurd h2 (List.not_mem_nil x)
            · exact List.mem_append_left _ ((z5 x).mpr h1)
        · dsimp only
          rw [z4, List.cons_append, List.nil_append, List.nodup_cons]
          exact ⟨hs_not_f, z6⟩
        · dsimp only
          intro x
          by_cases hx : x = s
          · subst hx
            rw [getA_setA_self]
            simp
          · rw [getA_setA_ne _ _ _ _ hx]
            constructor
            · intro h
              rw [z7 x] at h
              exact absurd h (by decide)
            · intro h
              rcases List.mem_cons.mp h with h1 | h1
              · exact absurd h1 hx
              · rw [z4] at h1
                exact absurd h1 (List.not_mem_nil x)
        · dsimp only
          intro x hx
          rw [hkI] at hx
          rcases List.mem_append.mp hx with h1 | h1
          · rw [hvidx x (hk_ne x h1)]
            have := z8 x h1
            omega
          · rw [List.mem_singleton] at h1
            rw [h1, valOf_setA_self]
            omega
        · dsimp only
          intro x y hx hy hxy
          rw [hkI] at hx hy
          rcases List.mem_append.mp hx with h1 | h1 <;> rcases List.mem_append.mp hy with h2 | h2
          · rw [hvidx x (hk_ne x h1), hvidx y (hk_ne y h2)] at hxy
            exact z9 x y h1 h2 hxy
          · rw [List.mem_singleton] at h2
            subst h2
            rw [hvidx x (hk_ne x h1), valOf_setA_self] at hxy
            have := z8 x h1
            omega
          · rw [List.mem_singleton] at h1
            subst h1
            rw [valOf_setA_self, hvidx y (hk_ne y h2)] at hxy
            have := z8 y h2
            omega
          · rw [List.mem_singleton] at h1 h2
            rw [h1, h2]
        · dsimp only
          rw [z4]
          exact List.pairwise_singleton _ _
        · dsimp only
          intro x hx
          rcases List.mem_cons.mp hx with h1 | h1
          · rw [h1, valOf_setA_self, valOf_setA_self]
          · rw [z4] at h1
            exact absurd h1 (List.not_mem_nil x)
        · dsimp only
          intro x hx
          rcases List.mem_cons.mp hx with h1 | h1
          · subst h1
            exact ⟨x, List.mem_cons_self _ _,
              by rw [valOf_setA_self, valOf_setA_self], Relation.ReflTransGen.refl⟩
          · rw [z4] at h1
            exact absurd h1 (List.not_mem_nil x)
        · dsimp only
          intro x hx hnf
          simp only [List.map_cons, List.map_nil, List.mem_singleton] at hnf
          rcases List.mem_cons.mp hx with h1 | h1
          · exact absurd h1 hnf
          · rw [z4] at h1
            exact absurd h1 (List.not_mem_nil x)
        · dsimp only
          simp only [List.map_cons, List.map_nil]
          refine ⟨[], st.sstack, rfl, ?_, ?_, ?_⟩
          · intro x hx
            exact absurd hx (List.not_mem_nil x)
          · intro x hx
            exact absurd hx (List.not_mem_nil x)
          · rw [z4]
            rfl
        · exact List.chain'_singleton _
        · exact List.pairwise_singleton _ _
        · intro pre fx post hdec
          match pre, hdec with
          | [], hdec =>
            simp only [List.nil_append, List.cons.injEq] at hdec
            obtain ⟨h1, h2⟩ := hdec
            refine ⟨[], ?_, ?_⟩
            · rw [← h1]
              dsimp only
              rw [List.nil_append]
              exact hns
            · intro b hb
              exact absurd hb (List.not_mem_nil b)
          | q :: pre', hdec =>
            simp only [List.cons_append, List.cons.injEq] at hdec
            exact absurd hdec.2.symm (List.append_ne_nil_of_right_ne_nil _ (by simp))
        · dsimp only
          intro a ha hnf
          simp only [List.map_cons, List.map_nil, List.mem_singleton] at hnf
          rcases List.mem_cons.mp ha with h1 | h1
          · exact absurd h1 hnf
          · rw [z4] at h1
            exact absurd h1 (List.not_mem_nil a)
      obtain ⟨st₄, h₄run, h₄tj, h₄mono⟩ := sccLoop_corr g hwf (sccFuel g) [(s, ns)] _ hTJ1
        (by
          dsimp only
          have h9 : (keysA (setA st.idx s st.counter)).length =
              (keysA st.idx).length + 1 := by
            rw [hkI]
            simp
          rw [h9, sccFuel]
          have h3 : g.nodes.length - ((keysA st.idx).length + 1) ≤ g.nodes.length :=
            Nat.sub_le _ _
          simp only [List.length_cons, List.length_nil]
          omega)
      obtain ⟨st', h', hT0', hnames', hmono'⟩ := ihn st₄
        (fun x hx => hsub (List.mem_cons_of_mem _ hx)) h₄tj
      have hs_in4 : s ∈ keysA st₄.idx := by
        refine h₄mono s ?_
        dsimp only
        rw [hkI]
        simp
      refine ⟨st', ?_, hT0', ?_, ?_⟩
      · rw [sccOuter, if_neg hsi, Graph.neighbors, hns]
        simp only [h₄run]
        exact h'
      · intro x hx
        rcases List.mem_cons.mp hx with h1 | h1
        · rw [h1]
          exact hmono' s hs_in4
        · exact hnames' x h1
      · intro x hx
        refine hmono' x (h₄mono x ?_)
        dsimp only
        rw [hkI]
        exact List.mem_append_left _ hx

end DGVis

namespace DGVis

theorem mem_of_getLast_opt {α : Type} :
    ∀ (l : List α) (a : α), l.getLast? = some a → a ∈ l
  | [], a, h => by simp at h
  | [b], a, h => by
      rw [List.getLast?_singleton, Option.some.injEq] at h
      simp [h]
  | b :: c :: t, a, h => by
      rw [List.getLast?_cons_cons] at h
      exact List.mem_cons_of_mem _ (mem_of_getLast_opt (c :: t) a h)

/-- A reflexive-transitive reachability certificate unfolds to an
edge-chained vertex walk. -/
theorem reach_chain (g : Graph) (x y : String)
    (h : Relation.ReflTransGen (Edge g) x y) :
    ∃ l, List.Chain' (Edge g) (x :: l) ∧ (x :: l).getLast? = some y := by
  obtain ⟨l, hch, hlast⟩ := List.exists_chain_of_relationReflTransGen h
  refine ⟨l, hch, ?_⟩
  rw [List.getLast?_eq_getLast (x :: l) (by simp), Option.some.injEq]
  exact hlast

/-- Gluing two edge walks at a shared endpoint. -/
theorem chain_glue (g : Graph) (x y z : String) (l₁ l₂ : List String)
    (h₁ : List.Chain' (Edge g) (x :: l₁)) (h₁last : (x :: l₁).getLast? = some y)
    (h₂ : List.Chain' (Edge g) (y :: l₂)) (h₂last : (y :: l₂).getLast? = some z) :
    ∃ l, List.Chain' (Edge g) (x :: l) ∧ (x :: l).getLast? = some z ∧
      ∀ w, (w ∈ x :: l₁ ∨ w ∈ y :: l₂) → w ∈ x :: l := by
  refine ⟨l₁ ++ l₂, ?_, ?_, ?_⟩
  · have hap : List.Chain' (Edge g) ((x :: l₁) ++ l₂) := by
      refine List.Chain'.append h₁ h₂.tail ?_
      intro a ha b hb
      rw [h₁last, Option.mem_def, Option.some.injEq] at ha
      subst ha
      obtain ⟨hhead, _⟩ := List.chain'_cons'.mp h₂
      exact hhead b hb
    rw [List.cons_append] at hap
    exact hap
  · match l₂, h₂last with
    | [], h₂last =>
      rw [List.getLast?_singleton, Option.some.injEq] at h₂last
      rw [List.append_nil, h₁last, h₂last]
    | b :: t, h₂last =>
      rw [List.getLast?_cons_cons] at h₂last
      rw [← h₂last]
      have h5 : x :: (l₁ ++ b :: t) = (x :: l₁) ++ b :: t := rfl
      rw [h5]
      exact List.getLast?_append_cons _ _ _
  · intro w hw
    rcases hw with h1 | h1
    · rcases List.mem_cons.mp h1 with h2 | h2
      · rw [h2]
        exact List.mem_cons_self _ _
      · exact List.mem_cons_of_mem _ (List.mem_append_left _ h2)
    · rcases List.mem_cons.mp h1 with h2 | h2
      · subst h2
        have h3 := mem_of_getLast_opt _ _ h₁last
        rcases List.mem_cons.mp h3 with h4 | h4
        · rw [h4]
          exact List.mem_cons_self _ _
        · exact List.mem_cons_of_mem _ (List.mem_append_left _ h4)
      · exact List.mem_cons_of_mem _ (List.mem_append_right _ h2)

/-- Closed walk through a buddy list: all nodes mutually reachable with
`x` fit on a single closed edge walk through `x`. -/
theorem exists_closed_walk (g : Graph) (x : String) :
    ∀ (c : List String),
      (∀ y ∈ c, Relation.ReflTransGen (Edge g) x y ∧
        Relation.ReflTransGen (Edge g) y x) →
      ∃ l, List.Chain' (Edge g) (x :: l) ∧ (x :: l).getLast? = some x ∧
        ∀ y ∈ c, y ∈ x :: l := by
  intro c
  induction c with
  | nil =>
    intro _
    exact ⟨[], List.chain'_singleton _, rfl, fun y hy => absurd hy (List.not_mem_nil y)⟩
  | cons y c ih =>
    intro hmut
    obtain ⟨l₀, h₀ch, h₀last, h₀cov⟩ := ih (fun w hw => hmut w (List.mem_cons_of_mem _ hw))
    obtain ⟨hxy, hyx⟩ := hmut y (List.mem_cons_self _ _)
    obtain ⟨l₁, h₁ch, h₁last⟩ := reach_chain g x y hxy
    obtain ⟨l₂, h₂ch, h₂last⟩ := reach_chain g y x hyx
    obtain ⟨l₃, h₃ch, h₃last, h₃mem⟩ := chain_glue g y x x l₂ l₀ h₂ch h₂last h₀ch h₀last
    obtain ⟨l₄, h₄ch, h₄last, h₄mem⟩ := chain_glue g x y x l₁ l₃ h₁ch h₁last h₃ch h₃last
    refine ⟨l₄, h₄ch, h₄last, ?_⟩
    intro w hw
    rcases List.mem_cons.mp hw with h1 | h1
    · subst h1
      exact h₄mem w (Or.inr (List.mem_cons_self _ _))
    · exact h₄mem w (Or.inr (h₃mem w (Or.inr (h₀cov w h1))))

/-- Along an edge chain, the head reaches every member. -/
theorem chain_head_reach (g : Graph) :
    ∀ (t : List String) (x : String), List.Chain' (Edge g) (x :: t) →
      ∀ b ∈ x :: t, Relation.ReflTransGen (Edge g) x b := by
  intro t
  induction t with
  | nil =>
    intro x _ b hb
    rcases List.mem_cons.mp hb with h1 | h1
    · subst h1
      exact Relation.ReflTransGen.refl
    · exact absurd h1 (List.not_mem_nil b)
  | cons y t' ih =>
    intro x hch b hb
    obtain ⟨hhead, htail⟩ := List.chain'_cons'.mp hch
    have hxy : Edge g x y := hhead y rfl
    rcases List.mem_cons.mp hb with h1 | h1
    · subst h1
      exact Relation.ReflTransGen.refl
    · exact (Relation.ReflTransGen.single hxy).trans (ih y htail b h1)

/-- Along an edge chain, every member reaches the last element. -/
theorem chain_reach_getLast (g : Graph) :
    ∀ (t : List String) (x : String), List.Chain' (Edge g) (x :: t) →
      ∀ a ∈ x :: t, ∀ b, (x :: t).getLast? = some b →
        Relation.ReflTransGen (Edge g) a b := by
  intro t
  induction t with
  | nil =>
    intro x _ a ha b hb
    rw [List.getLast?_singleton, Option.some.injEq] at hb
    rcases List.mem_cons.mp ha with h1 | h1
    · subst h1
      subst hb
      exact Relation.ReflTransGen.refl
    · exact absurd h1 (List.not_mem_nil a)
  | cons y t' ih =>
    intro x hch a ha b hb
    rw [List.getLast?_cons_cons] at hb
    obtain ⟨hhead, htail⟩ := List.chain'_cons'.mp hch
    have hxy : Edge g x y := hhead y rfl
    rcases List.mem_cons.mp ha with h1 | h1
    · subst h1
      exact (Relation.ReflTransGen.single hxy).trans
        (ih y htail y (List.mem_cons_self _ _) b hb)
    · exact ih y htail a h1 b hb

/-- On a closed edge walk all members are mutually reachable. -/
theorem closed_chain_reach (g : Graph) (l : List String)
    (hch : List.Chain' (Edge g) l) (hcl : l.head? = l.getLast?) :
    ∀ a ∈ l, ∀ b ∈ l, Relation.ReflTransGen (Edge g) a b := by
  intro a ha b hb
  match l, hch, hcl, ha, hb with
  | x :: t, hch, hcl, ha, hb =>
    rw [List.head?_cons] at hcl
    have h1 : Relation.ReflTransGen (Edge g) a x :=
      chain_reach_getLast g t x hch a ha x hcl.symm
    have h3 : Relation.ReflTransGen (Edge g) x b :=
      chain_head_reach g t x hch b hb
    exact h1.trans h3

end DGVis

namespace DGVis

/-- Reachability from a member of a closed component stays in that
component or strictly earlier ones. -/
theorem reach_stays (g : Graph) (comps : List (List String)) (hcl : CompsClosed g comps) :
    ∀ a b, Relation.ReflTransGen (Edge g) a b →
      ∀ p c s, comps = p ++ c :: s → a ∈ c → (b ∈ c ∨ b ∈ p.flatten) := by
  intro a b hab
  induction hab with
  | refl =>
    intro p c s hdec ha
    exact Or.inl ha
  | tail hab2 hedge ih =>
    rename_i m1 m2
    intro p c s hdec ha
    rcases ih p c s hdec ha with h1 | h1
    · exact hcl p c s hdec m1 h1 m2 hedge
    · obtain ⟨c', hc'_mem, hm_c'⟩ := List.mem_flatten.mp h1
      obtain ⟨p₂, s₂, hp⟩ := List.append_of_mem hc'_mem
      have hdec2 : comps = p₂ ++ c' :: (s₂ ++ c :: s) := by
        rw [hdec, hp]
        simp
      rcases hcl p₂ c' _ hdec2 m1 hm_c' m2 hedge with h2 | h2
      · right
        rw [hp, List.flatten_append, List.flatten_cons]
        exact List.mem_append_right _ (List.mem_append_left _ h2)
      · right
        rw [hp, List.flatten_append]
        exact List.mem_append_left _ h2

/-- Closed components are maximal: any node mutually reachable with a
member belongs to the same component. -/
theorem same_comp_of_mutual (g : Graph) (comps : List (List String))
    (hcl : CompsClosed g comps) (hflnd : comps.flatten.Nodup)
    (c : List String) (hcm : c ∈ comps) (x w : String) (hx : x ∈ c)
    (hxw : Relation.ReflTransGen (Edge g) x w)
    (hwx : Relation.ReflTransGen (Edge g) w x) : w ∈ c := by
  obtain ⟨p, s, hdec⟩ := List.append_of_mem hcm
  rcases reach_stays g comps hcl x w hxw p c s hdec hx with h1 | h1
  · exact h1
  · exfalso
    obtain ⟨c₂, hc₂p, hw_c₂⟩ := List.mem_flatten.mp h1
    obtain ⟨p₂, s₂, hp2⟩ := List.append_of_mem hc₂p
    have hdec2 : comps = p₂ ++ c₂ :: (s₂ ++ c :: s) := by
      rw [hdec, hp2]
      simp
    have hx_in := reach_stays g comps hcl w x hwx p₂ c₂ _ hdec2 hw_c₂
    have hx_p : x ∈ p.flatten := by
      rcases hx_in with h2 | h2
      · rw [hp2, List.flatten_append, List.flatten_cons]
        exact List.mem_append_right _ (List.mem_append_left _ h2)
      · rw [hp2, List.flatten_append]
        exact List.mem_append_left _ h2
    have hnd : (p.flatten ++ (c ++ s.flatten)).Nodup := by
      rw [hdec] at hflnd
      simpa [List.flatten_append] using hflnd
    rw [List.nodup_append] at hnd
    exact hnd.2.2 hx_p (List.mem_append_left _ hx)

theorem nodup_of_flatten_nodup {α : Type} :
    ∀ (ll : List (List α)), ll.flatten.Nodup → ∀ c ∈ ll, c.Nodup := by
  intro ll
  induction ll with
  | nil =>
    intro _ c hc
    exact absurd hc (List.not_mem_nil c)
  | cons c' t ih =>
    intro hnd c hc
    rw [List.flatten_cons, List.nodup_append] at hnd
    rcases List.mem_cons.mp hc with h1 | h1
    · rw [h1]
      exact hnd.1
    · exact ih hnd.2.1 c h1

theorem perm_of_nodup_mem_iff {α : Type} [DecidableEq α] (l₁ l₂ : List α)
    (h1 : l₁.Nodup) (h2 : l₂.Nodup) (hm : ∀ x, x ∈ l₁ ↔ x ∈ l₂) : l₁.Perm l₂ :=
  (h1.subperm (fun x hx => (hm x).mp hx)).antisymm
    (h2.subperm (fun x hx => (hm x).mpr hx))

theorem insDesc_perm (x : List String) :
    ∀ l, (insDesc x l).Perm (x :: l) := by
  intro l
  induction l with
  | nil => exact List.Perm.refl _
  | cons y ys ih =>
    rw [insDesc]
    by_cases h : y.length ≤ x.length
    · rw [if_pos h]
    · rw [if_neg h]
      exact (ih.cons y).trans (List.Perm.swap x y ys)

theorem sortDesc_perm : ∀ l, (sortDesc l).Perm l := by
  intro l
  induction l with
  | nil => exact List.Perm.refl _
  | cons x xs ih =>
    rw [sortDesc]
    exact (insDesc_perm x (sortDesc xs)).trans (ih.cons x)

theorem insDesc_sorted (x : List String) :
    ∀ l, List.Pairwise (fun a b : List String => b.length ≤ a.length) l →
      List.Pairwise (fun a b : List String => b.length ≤ a.length) (insDesc x l) := by
  intro l
  induction l with
  | nil =>
    intro _
    exact List.pairwise_singleton _ _
  | cons y ys ih =>
    intro hp
    obtain ⟨hhead, htail⟩ := List.pairwise_cons.mp hp
    rw [insDesc]
    by_cases h : y.length ≤ x.length
    · rw [if_pos h]
      rw [List.pairwise_cons]
      constructor
      · intro z hz
        rcases List.mem_cons.mp hz with h1 | h1
        · rw [h1]
          exact h
        · exact le_trans (hhead z h1) h
      · exact hp
    · rw [if_neg h]
      rw [List.pairwise_cons]
      constructor
      · intro z hz
        have hz2 := (insDesc_perm x ys).mem_iff.mp hz
        rcases List.mem_cons.mp hz2 with h1 | h1
        · rw [h1]
          omega
        · exact hhead z h1
      · exact ih htail

theorem sortDesc_sorted :
    ∀ l, List.Pairwise (fun a b : List String => b.length ≤ a.length) (sortDesc l) := by
  intro l
  induction l with
  | nil => exact List.Pairwise.nil
  | cons x xs ih =>
    rw [sortDesc]
    exact insDesc_sorted x (sortDesc xs) ih

end DGVis

namespace DGVis

/-- Outcome of iterative Tarjan on a well-formed graph: the raw closed
components partition the node names into nonempty strongly connected,
reachability-closed classes, and the returned list is a permutation of
them (non-trivial ones sorted first). -/
theorem scc_result (g : Graph) (hwf : WF g) :
    ∃ comps0 R, strongly_connected_components g = .ok R ∧
      R = sortDesc (comps0.filter (fun c => decide (1 < c.length))) ++
          comps0.filter (fun c => decide (c.length = 1)) ∧
      comps0.flatten.Nodup ∧
      (∀ x, x ∈ comps0.flatten ↔ x ∈ g.node_names) ∧
      CompsOK g comps0 ∧ CompsClosed g comps0 ∧
      R.Perm comps0 := by
  have hT0 : TJ0 g (TState.mk [] [] [] [] [] 0) := by
    refine ⟨rfl, List.nodup_nil, ?_, rfl, ?_, List.nodup_nil, ?_, ?_, ?_, ?_, ?_⟩
    · intro x hx
      exact absurd hx (List.not_mem_nil x)
    · intro x
      simp [keysA]
    · intro x
      rfl
    · intro x hx
      exact absurd hx (List.not_mem_nil x)
    · intro x y hx _ _
      exact absurd hx (List.not_mem_nil x)
    · intro c hc
      exact absurd hc (List.not_mem_nil c)
    · intro cpre c csuf hdec
      exact absurd hdec.symm (List.append_ne_nil_of_right_ne_nil _ (by simp))
  obtain ⟨st', hrun, hT0', hnames, _⟩ :=
    sccOuter_corr g hwf g.node_names (TState.mk [] [] [] [] [] 0) (fun x hx => hx) hT0
  obtain ⟨z1, z2, z3, z4, z5, z6, z7, z8, z9, z10, z11⟩ := hT0'
  have hmem : ∀ x, x ∈ st'.comps.flatten ↔ x ∈ g.node_names := by
    intro x
    rw [← z5 x]
    constructor
    · exact fun h => z3 h
    · exact fun h => hnames x h
  have hones : ∀ c ∈ st'.comps, 1 ≤ c.length := by
    intro c hc
    have h1 := (z10 c hc).1
    rcases c with _ | ⟨a, t⟩
    · exact absurd rfl h1
    · simp
  have hfc : st'.comps.filter (fun c => decide (c.length = 1)) =
      st'.comps.filter (fun c => !(decide (1 < c.length))) := by
    refine List.filter_congr ?_
    intro c hc
    have h1 := hones c hc
    by_cases h : c.length = 1
    · rw [h]
      simp
    · have h2 : 1 < c.length := by omega
      simp [h, h2]
  refine ⟨st'.comps, _, ?_, rfl, z6, hmem, z10, z11, ?_⟩
  · rw [strongly_connected_components]
    simp only [hrun]
  · rw [hfc]
    refine List.Perm.trans
      (List.Perm.append_right _ (sortDesc_perm _)) ?_
    exact List.filter_append_perm _ st'.comps

end DGVis

namespace DGVis

/-- Claim C4 (amended): on a well-formed graph,
`strongly_connected_components` partitions the node names (each node in
exactly one returned component, each component duplicate-free); a
component has size greater than 1 exactly when all its members lie on a
common closed edge walk containing at least two distinct nodes; and the
result lists the components of size greater than 1 first, sorted by
size descending, followed by the size-1 components. -/
theorem claim_C4 (g : Graph) (hwf : WF g) :
    ∃ comps, strongly_connected_components g = .ok comps ∧
      comps.flatten.Perm g.node_names ∧
      (∀ c ∈ comps, 1 < c.length ↔
        ∃ l, 2 ≤ l.length ∧ List.Chain' (Edge g) l ∧ l.head? = l.getLast? ∧
          (∀ x ∈ c, x ∈ l) ∧ ∃ a, a ∈ l ∧ ∃ b, b ∈ l ∧ a ≠ b) ∧
      (∃ A B, comps = A ++ B ∧ (∀ c ∈ A, 1 < c.length) ∧ (∀ c ∈ B, c.length = 1) ∧
        List.Pairwise (fun c d => d.length ≤ c.length) A) := by
  obtain ⟨comps0, R, hrun, hReq, hnd, hmem, hok, hclosed, hperm⟩ := scc_result g hwf
  refine ⟨R, hrun, ?_, ?_, ?_⟩
  · exact (hperm.flatten).trans (perm_of_nodup_mem_iff _ _ hnd hwf.2.1 hmem)
  · intro c hcR
    have hcm : c ∈ comps0 := hperm.mem_iff.mp hcR
    have hmut := (hok c hcm).2
    constructor
    · intro hlen
      have hcnd : c.Nodup := nodup_of_flatten_nodup comps0 hnd c hcm
      match c, hlen, hcnd, hmut with
      | x :: y :: t, _, hcnd, hmut =>
        have hxy : x ≠ y := by
          rw [List.nodup_cons] at hcnd
          exact fun he => hcnd.1 (he ▸ List.mem_cons_self _ _)
        have hx_c : x ∈ x :: y :: t := List.mem_cons_self _ _
        have hy_c : y ∈ x :: y :: t := List.mem_cons_of_mem _ (List.mem_cons_self _ _)
        obtain ⟨l, hch, hlast, hcov⟩ := exists_closed_walk g x (x :: y :: t)
          (fun w hw => ⟨hmut x hx_c w hw, hmut w hw x hx_c⟩)
        refine ⟨x :: l, ?_, hch, ?_, hcov, x, List.mem_cons_self _ _, y, hcov y hy_c, hxy⟩
        · have hyin := hcov y hy_c
          rcases l with _ | ⟨a2, t2⟩
          · rw [List.mem_singleton] at hyin
            exact absurd hyin.symm hxy
          · simp
        · rw [List.head?_cons, hlast]
    · rintro ⟨l, hl2, hch, hclw, hcov, a, haL, b, hbL, hab⟩
      obtain ⟨x, hx⟩ := List.exists_mem_of_ne_nil c (hok c hcm).1
      have hxL : x ∈ l := hcov x hx
      obtain ⟨w, hwL, hwx⟩ : ∃ w, w ∈ l ∧ w ≠ x := by
        by_cases hax : a = x
        · exact ⟨b, hbL, fun he => hab (by rw [he, hax])⟩
        · exact ⟨a, haL, hax⟩
      have h1 := closed_chain_reach g l hch hclw x hxL w hwL
      have h2 := closed_chain_reach g l hch hclw w hwL x hxL
      have hw_c : w ∈ c := same_comp_of_mutual g comps0 hclosed hnd c hcm x w hx h1 h2
      match c, hx, hw_c with
      | [z], hx, hw_c =>
        rw [List.mem_singleton] at hx hw_c
        exact absurd (hw_c.trans hx.symm) hwx
      | z1 :: z2 :: t, _, _ => simp
  · refine ⟨sortDesc (comps0.filter (fun c => decide (1 < c.length))),
      comps0.filter (fun c => decide (c.length = 1)), hReq, ?_, ?_, sortDesc_sorted _⟩
    · intro c hc
      have h1 := (sortDesc_perm _).mem_iff.mp hc
      have h2 := List.of_mem_filter h1
      simpa using h2
    · intro c hc
      have h2 := List.of_mem_filter hc
      simpa using h2

/-- Claim C4 witness: the graph with a two-cycle a↔b and an isolated
node c. -/
theorem claim_C4_witness :
    WF (build_graph [("a", ["b"]), ("b", ["a"]), ("c", [])]) ∧
    (∃ comps, strongly_connected_components
        (build_graph [("a", ["b"]), ("b", ["a"]), ("c", [])]) = .ok comps ∧
      comps.flatten.Perm (build_graph [("a", ["b"]), ("b", ["a"]), ("c", [])]).node_names ∧
      (∀ c ∈ comps, 1 < c.length ↔
        ∃ l, 2 ≤ l.length ∧
          List.Chain' (Edge (build_graph [("a", ["b"]), ("b", ["a"]), ("c", [])])) l ∧
          l.head? = l.getLast? ∧
          (∀ x ∈ c, x ∈ l) ∧ ∃ a, a ∈ l ∧ ∃ b, b ∈ l ∧ a ≠ b) ∧
      (∃ A B, comps = A ++ B ∧ (∀ c ∈ A, 1 < c.length) ∧ (∀ c ∈ B, c.length = 1) ∧
        List.Pairwise (fun c d => d.length ≤ c.length) A)) :=
  ⟨by decide, claim_C4 (build_graph [("a", ["b"]), ("b", ["a"]), ("c", [])]) (by decide)⟩

end DGVis
